import Mathlib

/-!
# Bunched reference cache (`cache/diffbunch.go`)

A shallow embedding of the bunch codec (`MarshalBunch`, `UnmarshalBunch`), the
partition routing (`getBunchId`), the hot cache (`addToCache`, `dispatch`), the
merge-flush step (`loadMergeMarshal`, `writeRefs`) and the read path (`Get`),
followed by theorems about them.

Conventions of the embedding:

* `int64` values are `Int`s in `[-2^63, 2^63)`; every arithmetic step that can
  overflow in Go is followed by `int64`, which wraps into that range.
* `uint64` values are `Nat`s below `2^64`; every step that can overflow is
  followed by `% 2^64`.
* a `[]byte` is a `List Nat` whose entries are below `256`.
* a Go `panic` is `Except.error` of type `Panic`; a normal return is `Except.ok`.
* a nil slice result is `none`, a non-nil slice is `some`.
* a Go map is an association list with pairwise distinct keys; the order in
  which `range` visits it is given by an explicit schedule (`Sched`), which the
  theorems quantify over.
-/

namespace Cache

/-! ## Machine integers -/

/-- Conversion to `int64` (two's complement wrap-around into `[-2^63, 2^63)`). -/
def int64 (v : Int) : Int :=
  (v + 0x8000000000000000) % 0x10000000000000000 - 0x8000000000000000

/-- Conversion `uint64(v)` of a signed value (two's complement). -/
def uint64 (v : Int) : Nat :=
  (v % 0x10000000000000000).toNat

/-- The value is representable as an `int64`. -/
def IsInt64 (v : Int) : Prop :=
  -0x8000000000000000 ≤ v ∧ v < 0x8000000000000000

instance (v : Int) : Decidable (IsInt64 v) := by
  unfold IsInt64; exact inferInstance

/-! ## `encoding/binary` varints and `bytes.Buffer` -/

/-- Constant `binary.MaxVarintLen64`. -/
def MaxVarintLen64 : Nat := 10

/-- Go `error` values that occur in this file. -/
inductive Error where
  | EOF
  | ErrUnexpectedEOF
  | errOverflow
  | dbError
  deriving DecidableEq, Repr

/-- Reasons for a Go `panic`. -/
inductive Panic where
  | error (e : Error)
  | indexOutOfRange
  deriving DecidableEq, Repr

/-- Loop of `binary.PutUvarint(buf[off:], x)`:
`for x >= 0x80 { buf[i] = byte(x) | 0x80; x >>= 7; i++ }; buf[i] = byte(x); return i + 1`.
The first argument is a counter that starts at `x`; since `x >>= 7` makes a
value of at least `0x80` strictly smaller, the counter never cuts the loop short
(`putUvarintLoop_step` is the loop equation).  Returns the buffer after the
writes and `i + 1`, or panics when an index is out of range. -/
def putUvarintLoop : Nat → List Nat → Nat → Nat → Nat → Except Panic (List Nat × Nat)
  | 0, buf, off, i, x =>
    if off + i < buf.length then .ok (buf.set (off + i) (x % 256), i + 1)
    else .error .indexOutOfRange
  | c + 1, buf, off, i, x =>
    if 0x80 ≤ x then
      if off + i < buf.length then
        putUvarintLoop c (buf.set (off + i) ((x % 256) ||| 0x80)) off (i + 1) (x >>> 7)
      else .error .indexOutOfRange
    else if off + i < buf.length then .ok (buf.set (off + i) (x % 256), i + 1)
    else .error .indexOutOfRange

/-- Function `binary.PutUvarint(buf[off:], x)` for `x : uint64`. -/
def PutUvarint (buf : List Nat) (off : Nat) (x : Nat) : Except Panic (List Nat × Nat) :=
  putUvarintLoop x buf off 0 x

/-- Function `binary.PutVarint(buf[off:], x)` for `x : int64`:
`ux := uint64(x) << 1; if x < 0 { ux = ^ux }; return PutUvarint(buf, ux)`. -/
def PutVarint (buf : List Nat) (off : Nat) (x : Int) : Except Panic (List Nat × Nat) :=
  let ux := (uint64 x <<< 1) % 0x10000000000000000
  let ux := if x < 0 then 0xFFFFFFFFFFFFFFFF - ux else ux
  PutUvarint buf off ux

/-- Loop of `binary.ReadUvarint` (Go standard library) over a `bytes.Buffer` holding the
unread bytes `r`:
`for i := 0; i < MaxVarintLen64; i++ { b, err := r.ReadByte(); ... }`.
The first argument is the number of iterations left, `MaxVarintLen64 - i`. -/
def readUvarintLoop : Nat → Nat → Nat → Nat → List Nat → Except Error (Nat × List Nat)
  | 0, _, _, _, _ => .error .errOverflow
  | k + 1, i, x, s, r =>
    match r with
    | [] => .error (if 0 < i then .ErrUnexpectedEOF else .EOF)
    | b :: r =>
      if b < 0x80 then
        if i = MaxVarintLen64 - 1 ∧ 1 < b then .error .errOverflow
        else .ok (x ||| (b <<< s) % 0x10000000000000000, r)
      else
        readUvarintLoop k (i + 1) (x ||| ((b &&& 0x7f) <<< s) % 0x10000000000000000) (s + 7) r

/-- Function `binary.ReadUvarint(r)`: the decoded value and the unread rest, or the error. -/
def ReadUvarint (r : List Nat) : Except Error (Nat × List Nat) :=
  readUvarintLoop MaxVarintLen64 0 0 0 r

/-- Function `binary.ReadVarint(r)`:
`ux, err := ReadUvarint(r); x := int64(ux >> 1); if ux&1 != 0 { x = ^x }`. -/
def ReadVarint (r : List Nat) : Except Error (Int × List Nat) :=
  match ReadUvarint r with
  | .error e => .error e
  | .ok (ux, r) =>
    let x := int64 ((ux >>> 1 : Nat) : Int)
    .ok (if ux &&& 1 ≠ 0 then -x - 1 else x, r)

/-! ## The bunch codec -/

/-- Type `IdRef` of the source: an id with its list of refs. -/
structure IdRef where
  id : Int
  refs : List Int
  deriving DecidableEq, Repr

/-- The buffer growth step that precedes every write in the three loops of `MarshalBunch`:
`if len(buf)-nextPos < binary.MaxVarintLen64 { tmp := make([]byte, len(buf)*2); copy(tmp, buf); buf = tmp }`. -/
def growBuf (buf : List Nat) (nextPos : Nat) : List Nat :=
  if buf.length - nextPos < MaxVarintLen64 then buf ++ List.replicate buf.length 0 else buf

/-- First loop of `MarshalBunch`: the id deltas. -/
def marshalIds : List IdRef → List Nat → Nat → Int → Except Panic (List Nat × Nat)
  | [], buf, nextPos, _ => .ok (buf, nextPos)
  | idRef :: rest, buf, nextPos, lastId =>
    match PutVarint (growBuf buf nextPos) nextPos (int64 (idRef.id - lastId)) with
    | .error p => .error p
    | .ok (buf, n) => marshalIds rest buf (nextPos + n) idRef.id

/-- Second loop of `MarshalBunch`: the ref counts. -/
def marshalCounts : List IdRef → List Nat → Nat → Except Panic (List Nat × Nat)
  | [], buf, nextPos => .ok (buf, nextPos)
  | idRef :: rest, buf, nextPos =>
    match PutUvarint (growBuf buf nextPos) nextPos (idRef.refs.length % 0x10000000000000000) with
    | .error p => .error p
    | .ok (buf, n) => marshalCounts rest buf (nextPos + n)

/-- Inner loop of the third loop of `MarshalBunch`: the ref deltas of one pair. -/
def marshalRefList : List Int → List Nat → Nat → Int → Except Panic (List Nat × Nat × Int)
  | [], buf, nextPos, lastRef => .ok (buf, nextPos, lastRef)
  | ref :: rest, buf, nextPos, lastRef =>
    match PutVarint (growBuf buf nextPos) nextPos (int64 (ref - lastRef)) with
    | .error p => .error p
    | .ok (buf, n) => marshalRefList rest buf (nextPos + n) ref

/-- Third loop of `MarshalBunch`: the ref deltas of all pairs; `lastRef` is carried over. -/
def marshalRefs : List IdRef → List Nat → Nat → Int → Except Panic (List Nat × Nat × Int)
  | [], buf, nextPos, lastRef => .ok (buf, nextPos, lastRef)
  | idRef :: rest, buf, nextPos, lastRef =>
    match marshalRefList idRef.refs buf nextPos lastRef with
    | .error p => .error p
    | .ok (buf, nextPos, lastRef) => marshalRefs rest buf nextPos lastRef

/-- Function `MarshalBunch`. -/
def MarshalBunch (idRefs : List IdRef) : Except Panic (List Nat) :=
  let buf := List.replicate (idRefs.length * (4 + 1 + 6) + MaxVarintLen64) 0
  match PutUvarint buf 0 (idRefs.length % 0x10000000000000000) with
  | .error p => .error p
  | .ok (buf, n) =>
    match marshalIds idRefs buf n 0 with
    | .error p => .error p
    | .ok (buf, nextPos) =>
      match marshalCounts idRefs buf nextPos with
      | .error p => .error p
      | .ok (buf, nextPos) =>
        match marshalRefs idRefs buf nextPos 0 with
        | .error p => .error p
        | .ok (buf, nextPos, _) => .ok (buf.take nextPos)

/-- First loop of `UnmarshalBunch`: reads `n` id deltas, `last` is the running sum. -/
def unmarshalIds : Nat → Int → List Nat → Except Panic (List Int × List Nat)
  | 0, _, r => .ok ([], r)
  | n + 1, last, r =>
    match ReadVarint r with
    | .error e => .error (.error e)
    | .ok (d, r) =>
      match unmarshalIds n (int64 (d + last)) r with
      | .error p => .error p
      | .ok (ids, r) => .ok (int64 (d + last) :: ids, r)

/-- Second loop of `UnmarshalBunch`: reads `n` ref counts. -/
def unmarshalCounts : Nat → List Nat → Except Panic (List Nat × List Nat)
  | 0, r => .ok ([], r)
  | n + 1, r =>
    match ReadUvarint r with
    | .error e => .error (.error e)
    | .ok (numRefs, r) =>
      match unmarshalCounts n r with
      | .error p => .error p
      | .ok (counts, r) => .ok (numRefs :: counts, r)

/-- Inner loop of the third loop of `UnmarshalBunch`: fills one ref list of length `numRefs`. -/
def unmarshalRefList : Nat → Int → List Nat → Except Panic (List Int × Int × List Nat)
  | 0, last, r => .ok ([], last, r)
  | numRefs + 1, last, r =>
    match ReadVarint r with
    | .error e => .error (.error e)
    | .ok (d, r) =>
      match unmarshalRefList numRefs (int64 (d + last)) r with
      | .error p => .error p
      | .ok (refs, last1, r) => .ok (int64 (d + last) :: refs, last1, r)

/-- Third loop of `UnmarshalBunch`: fills the ref lists of all pairs; `last` is carried over. -/
def unmarshalRefs : List Nat → Int → List Nat → Except Panic (List (List Int) × List Nat)
  | [], _, r => .ok ([], r)
  | numRefs :: counts, last, r =>
    match unmarshalRefList numRefs last r with
    | .error p => .error p
    | .ok (refs, last, r) =>
      match unmarshalRefs counts last r with
      | .error p => .error p
      | .ok (refss, r) => .ok (refs :: refss, r)

/-- Function `UnmarshalBunch`: `.ok none` is the `return nil` after a failed read of the
count, `.error` is a `panic(err)`, `.ok (some idRefs)` is the final `return idRefs`.
The slices that `make` allocates are built as lists; limits of the allocator are not part of
the embedding. -/
def UnmarshalBunch (buf : List Nat) : Except Panic (Option (List IdRef)) :=
  match ReadUvarint buf with
  | .error _ => .ok none
  | .ok (n, r) =>
    match unmarshalIds n 0 r with
    | .error p => .error p
    | .ok (ids, r) =>
      match unmarshalCounts n r with
      | .error p => .error p
      | .ok (counts, r) =>
        match unmarshalRefs counts 0 r with
        | .error p => .error p
        | .ok (refss, _) => .ok (some (List.zipWith IdRef.mk ids refss))

deriving instance DecidableEq for Except

/-! ## The encoding layout in the words of the specification -/

/-- Unsigned varint of `x`: seven bits per byte, least significant group first, the high
bit set on every byte but the last. -/
def uvarint (x : Nat) : List Nat :=
  if x < 128 then [x] else (x % 128 + 128) :: uvarint (x / 128)
decreasing_by omega

/-- Zig-zag mapping of a signed value to an unsigned one. -/
def zigzag (v : Int) : Nat :=
  if 0 ≤ v then (2 * v).toNat else (-2 * v - 1).toNat

/-- Signed zig-zag varint of `v`. -/
def varint (v : Int) : List Nat :=
  uvarint (zigzag v)

/-- Successive differences in wrapping `int64` arithmetic, the first relative to `last`. -/
def deltas : Int → List Int → List Int
  | _, [] => []
  | last, v :: vs => int64 (v - last) :: deltas v vs

/-- Running sums in wrapping `int64` arithmetic, starting from `last`. -/
def sums : Int → List Int → List Int
  | _, [] => []
  | last, d :: ds => int64 (d + last) :: sums (int64 (d + last)) ds

/-- The last element of `l`, or `last` when `l` is empty. -/
def lastOf (last : Int) (l : List Int) : Int :=
  l.foldl (fun _ v => v) last

/-- Differences of the concatenation of the lists, regrouped as the lists were. -/
def deltasSplit : Int → List (List Int) → List (List Int)
  | _, [] => []
  | last, l :: ls => deltas last l :: deltasSplit (lastOf last l) ls

/-- Running sums of the concatenation of the lists, regrouped as the lists were: the sum is
carried from one list to the next. -/
def sumsSplit : Int → List (List Int) → List (List Int)
  | _, [] => []
  | last, l :: ls => sums last l :: sumsSplit (lastOf last (sums last l)) ls

/-- The four passes of the encoding layout (specification, section 4.2). -/
def encodeLayout (x : List IdRef) : List Nat :=
  uvarint x.length
    ++ (deltas 0 (x.map (fun p => p.id))).flatMap varint
    ++ x.flatMap (fun p => uvarint p.refs.length)
    ++ (deltas 0 (x.flatMap (fun p => p.refs))).flatMap varint

/-- Every id and ref is an `int64`, and every length fits the `int` type of `len`. -/
def WellTyped (x : List IdRef) : Prop :=
  x.length < 0x8000000000000000 ∧
    ∀ p ∈ x, IsInt64 p.id ∧ p.refs.length < 0x8000000000000000 ∧ ∀ v ∈ p.refs, IsInt64 v

instance (x : List IdRef) : Decidable (WellTyped x) := by
  unfold WellTyped; exact inferInstance

/-! ## Partition routing -/

/-- Method `getBunchId`: `id / 64`, Go's integer division, which truncates toward zero. -/
def getBunchId (id : Int) : Int :=
  Int.tdiv id 64

/-! ## Go maps -/

/-- Map read `v, ok := m[k]` on an association list. -/
def mapGet {κ β : Type} [DecidableEq κ] : List (κ × β) → κ → Option β
  | [], _ => none
  | (k1, v) :: m, k => if k1 = k then some v else mapGet m k

/-- Map write `m[k] = v` on an association list: replaces the entry of `k`, or adds one. -/
def mapSet {κ β : Type} [DecidableEq κ] : List (κ × β) → κ → β → List (κ × β)
  | [], k, v => [(k, v)]
  | (k1, v1) :: m, k, v => if k1 = k then (k, v) :: m else (k1, v1) :: mapSet m k v

/-- Type `RefBunch` of the source, `map[int64][]int64`. -/
abbrev RefBunch := List (Int × List Int)

/-- Type `bunchCache` of the source, `map[int64]RefBunch`. -/
abbrev bunchCache := List (Int × RefBunch)

/-! ## What the file takes from the rest of the repository and from its environment -/

/-- The functions and the constant that `diffbunch.go` uses and that are declared in other
files of the package. -/
structure Deps where
  insertRefs : List Int → Int → List Int
  idToKeyBuf : Int → List Nat
  cacheSize : Nat

/-- The sorted-unique insert contract of `insertRefs` (specification, section 4.1): on a
strictly ascending list the result is strictly ascending and holds the old values and the
new one, nothing else. -/
def InsertContract (ins : List Int → Int → List Int) : Prop :=
  ∀ refs ref, refs.Sorted (· < ·) →
    (ins refs ref).Sorted (· < ·) ∧ ∀ v, v ∈ ins refs ref ↔ v ∈ refs ∨ v = ref

/-- Modelled from the spec: `insertRefs` is not in `diffbunch.go`; section 4.1 describes it
as the insert that keeps a ref list sorted and free of duplicates. -/
def insertRefs : List Int → Int → List Int
  | [], ref => [ref]
  | r :: refs, ref =>
    if ref < r then ref :: r :: refs
    else if ref = r then r :: refs
    else r :: insertRefs refs ref

/-- Modelled from the spec: `idToKeyBuf` is not in `diffbunch.go`; section 6 describes the
partition key as the fixed-width big-endian encoding of the partition id. -/
def idToKeyBuf (id : Int) : List Nat :=
  let u := uint64 id
  [u / 0x100000000000000 % 256, u / 0x1000000000000 % 256, u / 0x10000000000 % 256,
    u / 0x100000000 % 256, u / 0x1000000 % 256, u / 0x10000 % 256, u / 0x100 % 256, u % 256]

/-- The dependencies as the specification describes them, with a given `cacheSize`. -/
def Deps.model (cacheSize : Nat) : Deps :=
  ⟨Cache.insertRefs, Cache.idToKeyBuf, cacheSize⟩

/-- The order in which each `range` over a map visits the entries during one flush:
`rangeCache` for `range idRefs` in `writeRefs` (and so the order in which the workers
deliver their results), `rangeNew` and `rangeMerged` for `range newBunch` and
`range bunch` in the `loadMergeMarshal` call for a key. -/
structure Sched where
  rangeCache : bunchCache → bunchCache
  rangeNew : List Nat → RefBunch → RefBunch
  rangeMerged : List Nat → RefBunch → RefBunch

/-- Every `range` visits every entry once. -/
def Sched.Valid (s : Sched) : Prop :=
  (∀ c, (s.rangeCache c).Perm c) ∧ (∀ k m, (s.rangeNew k m).Perm m) ∧
    (∀ k m, (s.rangeMerged k m).Perm m)

/-- The schedule that visits every map in the order of its association list. -/
def Sched.inOrder : Sched :=
  ⟨fun c => c, fun _ m => m, fun _ m => m⟩

/-- Modelled from the spec: the key-value store (levigo) is outside the repository;
section 6 gives its contract, point reads and an atomic batch of puts.  `data` is the
content, `getFails` and `writeFails` say which calls the environment lets fail. -/
structure DB where
  data : List (List Nat × List Nat)
  getFails : List Nat → Bool
  writeFails : Bool

/-- Call `index.db.Get(index.ro, key)`: the value, `none` for a nil result, or the error. -/
def DB.Get (db : DB) (key : List Nat) : Except Error (Option (List Nat)) :=
  if db.getFails key then .error .dbError else .ok (mapGet db.data key)

/-- Call `index.db.Write(index.wo, batch)`: the returned error and the store afterwards;
the puts of the batch are applied in order, or not at all. -/
def DB.Write (db : DB) (batch : List (List Nat × List Nat)) : Option Error × DB :=
  if db.writeFails then (some .dbError, db)
  else (none, { db with data := batch.foldl (fun d kv => mapSet d kv.1 kv.2) db.data })

/-! ## The hot cache -/

/-- Method `addToCache`. -/
def addToCache (deps : Deps) (cache : bunchCache) (id ref : Int) : bunchCache :=
  let bunchId := getBunchId id
  let bunch := (mapGet cache bunchId).getD []
  let refs := (mapGet bunch id).getD []
  let refs := deps.insertRefs refs ref
  mapSet cache bunchId (mapSet bunch id refs)

/-- The loop of `dispatch` over the intake sequence: the snapshots sent to `index.write`
and the hot cache that is left.  After a hand-off the hot cache is an empty map (a
recycled one, which `writeRefs` has emptied, or a new one). -/
def dispatchLoop (deps : Deps) : List (Int × Int) → bunchCache → List bunchCache × bunchCache
  | [], cache => ([], cache)
  | idRef :: rest, cache =>
    if deps.cacheSize ≤ (addToCache deps cache idRef.1 idRef.2).length then
      ((addToCache deps cache idRef.1 idRef.2) :: (dispatchLoop deps rest []).1,
        (dispatchLoop deps rest []).2)
    else dispatchLoop deps rest (addToCache deps cache idRef.1 idRef.2)

/-- Method `dispatch` run on an intake sequence that is then closed: all snapshots sent to
`index.write`, in order. -/
def dispatch (deps : Deps) (intake : List (Int × Int)) : List bunchCache :=
  if 0 < (dispatchLoop deps intake []).2.length then
    (dispatchLoop deps intake []).1 ++ [(dispatchLoop deps intake []).2]
  else (dispatchLoop deps intake []).1

/-! ## Merge and flush -/

/-- Lines 184-190 of `loadMergeMarshal`: the map built from the persisted record. -/
def loadBunch (data : Option (List Nat)) : Except Panic RefBunch :=
  match data with
  | none => .ok []
  | some d =>
    match UnmarshalBunch d with
    | .error p => .error p
    | .ok none => .ok []
    | .ok (some idRefs) =>
      .ok (idRefs.foldl (fun bunch idRef => mapSet bunch idRef.id idRef.refs) [])

/-- Body of the loop at lines 195-207 of `loadMergeMarshal` for one entry of `newBunch`. -/
def mergeEntry (deps : Deps) (bunch : RefBunch) (e : Int × List Int) : RefBunch :=
  match mapGet bunch e.1 with
  | none => mapSet bunch e.1 e.2
  | some refs => mapSet bunch e.1 (e.2.foldl deps.insertRefs refs)

/-- Lines 195-207 of `loadMergeMarshal`, the entries of `newBunch` taken in the given
order (`bunch` is never nil there, so the branch `bunch = newBunch` is dead). -/
def mergeBunch (deps : Deps) (bunch newBunch : RefBunch) : RefBunch :=
  newBunch.foldl (mergeEntry deps) bunch

/-- Lines 179-208 of `loadMergeMarshal`: the merged bunch, before it is encoded. -/
def loadMerge (deps : Deps) (s : Sched) (db : DB) (keyBuf : List Nat) (newBunch : RefBunch) :
    Except Panic RefBunch :=
  match db.Get keyBuf with
  | .error e => .error (.error e)
  | .ok data =>
    match loadBunch data with
    | .error p => .error p
    | .ok bunch => .ok (mergeBunch deps bunch (s.rangeNew keyBuf newBunch))

/-- Lines 210-213 of `loadMergeMarshal`: `bunchList := make([]IdRef, len(bunch))` followed
by one `append` per entry of `bunch`. -/
def bunchListOf (s : Sched) (keyBuf : List Nat) (bunch : RefBunch) : List IdRef :=
  List.replicate bunch.length ⟨0, []⟩ ++
    (s.rangeMerged keyBuf bunch).map (fun e => ⟨e.1, e.2⟩)

/-- Method `loadMergeMarshal`. -/
def loadMergeMarshal (deps : Deps) (s : Sched) (db : DB) (keyBuf : List Nat)
    (newBunch : RefBunch) : Except Panic (List Nat) :=
  match loadMerge deps s db keyBuf newBunch with
  | .error p => .error p
  | .ok bunch => MarshalBunch (bunchListOf s keyBuf bunch)

/-- The puts that `writeRefs` collects from its workers, for the partitions in the order
in which they are delivered. -/
def collectPuts (deps : Deps) (s : Sched) (db : DB) :
    List (Int × RefBunch) → Except Panic (List (List Nat × List Nat))
  | [] => .ok []
  | item :: rest =>
    match loadMergeMarshal deps s db (deps.idToKeyBuf item.1) item.2 with
    | .error p => .error p
    | .ok data =>
      match collectPuts deps s db rest with
      | .error p => .error p
      | .ok batch => .ok ((deps.idToKeyBuf item.1, data) :: batch)

/-- Method `writeRefs`: the error it returns and the store afterwards; a panic of a worker
is a panic of the call. -/
def writeRefs (deps : Deps) (s : Sched) (db : DB) (idRefs : bunchCache) :
    Except Panic (Option Error × DB) :=
  match collectPuts deps s db (s.rangeCache idRefs) with
  | .error p => .error p
  | .ok batch => .ok (db.Write batch)

/-- Method `Get`: `none` is the nil result.  The ref lists that `UnmarshalBunch` returns are
made with `make`, so the result for an id that is found is never nil. -/
def Get (deps : Deps) (db : DB) (id : Int) : Except Panic (Option (List Int)) :=
  match db.Get (deps.idToKeyBuf (getBunchId id)) with
  | .error e => .error (.error e)
  | .ok none => .ok none
  | .ok (some data) =>
    match UnmarshalBunch data with
    | .error p => .error p
    | .ok none => .ok none
    | .ok (some idRefs) =>
      match idRefs.find? (fun idRef => decide (idRef.id = id)) with
      | some idRef => .ok (some idRef.refs)
      | none => .ok none

/-- The hot cache after the given `addToCache` calls, starting from an empty map. -/
def hotCache (deps : Deps) (records : List (Int × Int)) : bunchCache :=
  records.foldl (fun cache r => addToCache deps cache r.1 r.2) []

/-- The store states reached from an empty store by completed flushes, with the pairs
recorded by those flushes: a completed flush fills a hot cache by `addToCache` calls and
runs `writeRefs` on it, which returns without an error. -/
inductive Reach (deps : Deps) : List (Int × Int) → DB → Prop where
  | empty (db : DB) (h : db.data = []) : Reach deps [] db
  | flush (hist records : List (Int × Int)) (s : Sched) (db db0 db1 : DB)
      (hr : Reach deps hist db) (hd : db0.data = db.data) (hs : s.Valid)
      (hrec : ∀ r ∈ records, IsInt64 r.1 ∧ IsInt64 r.2)
      (hw : writeRefs deps s db0 (hotCache deps records) = .ok (none, db1)) :
      Reach deps (hist ++ records) db1

/-! ## Invariants of the hot cache and of the store -/

/-- Invariant of a hot cache filled from the pairs `records`: it is a map of maps, and
every ref list in it is strictly ascending and holds refs recorded for its id. -/
def CacheOK (records : List (Int × Int)) (cache : bunchCache) : Prop :=
  (cache.map Prod.fst).Nodup ∧
    ∀ e ∈ cache, (e.2.map Prod.fst).Nodup ∧
      ∀ x ∈ e.2, x.1 ∈ records.map Prod.fst ∧ x.2.Sorted (· < ·) ∧
        ∀ v ∈ x.2, v ∈ records.map Prod.snd

/-- Invariant of one stored entry after the pairs `hist` were recorded: the id is a
recorded id or 0, the ref list is strictly ascending and holds recorded refs. -/
def EntryOK (hist : List (Int × Int)) (id : Int) (refs : List Int) : Prop :=
  (id = 0 ∨ id ∈ hist.map Prod.fst) ∧ refs.Sorted (· < ·) ∧ ∀ v ∈ refs, v ∈ hist.map Prod.snd

/-- Invariant of a pair list encoded into the store after the pairs `hist` were recorded:
every entry is as `EntryOK` says, and there are at most two entries per id. -/
def GoodPairs (hist : List (Int × Int)) (l : List IdRef) : Prop :=
  l.length ≤ 2 * (hist.length + 1) ∧ ∀ p ∈ l, EntryOK hist p.id p.refs

/-- Invariant of the store content: every record is the encoding of a good pair list. -/
def StoreOK (hist : List (Int × Int)) (data : List (List Nat × List Nat)) : Prop :=
  ∀ e ∈ data, ∃ l, GoodPairs hist l ∧ e.2 = encodeLayout l

/-- The empty store, on which no call fails. -/
def DB.empty : DB :=
  ⟨[], fun _ => false, false⟩

/-- A store with the given content, on which no call fails. -/
def DB.ofData (data : List (List Nat × List Nat)) : DB :=
  ⟨data, fun _ => false, false⟩

/-- The hot cache or snapshot `cache` holds the pair `(id, ref)`: the bunch of the
partition of `id` has a ref list for `id`, and `ref` is in it. -/
def Contains (cache : bunchCache) (id ref : Int) : Prop :=
  ∃ bunch refs, mapGet cache (getBunchId id) = some bunch ∧ mapGet bunch id = some refs ∧
    ref ∈ refs

/-- Invariant of the store content for the ids other than 0: the record of the partition
of every recorded pair `(id, ref)` is the encoding of a good pair list that has an entry
for `id`, and every entry for `id` in it holds `ref`. -/
def Recorded (deps : Deps) (hist : List (Int × Int)) (data : List (List Nat × List Nat)) :
    Prop :=
  ∀ r ∈ hist, r.1 ≠ 0 →
    ∃ d l, mapGet data (deps.idToKeyBuf (getBunchId r.1)) = some d ∧ d = encodeLayout l ∧
      GoodPairs hist l ∧ (∃ p ∈ l, p.id = r.1) ∧ ∀ p ∈ l, p.id = r.1 → r.2 ∈ p.refs

/-- The partition keys of int64 partition ids are pairwise different. -/
def KeysInjective (deps : Deps) : Prop :=
  ∀ a b, IsInt64 a → IsInt64 b → deps.idToKeyBuf a = deps.idToKeyBuf b → a = b

/-! ## The state of the cache, and the writer loop -/

/-- Type `BunchRefCache` of the source, with the fields that `addToCache` and `Get` read and
write: the hot cache `index.cache` and the store `index.db`. -/
structure BunchRefCache where
  cache : bunchCache
  db : DB

/-- Method `addToCache` as a step on the state of the index. -/
def BunchRefCache.addToCache (deps : Deps) (index : BunchRefCache) (id ref : Int) :
    BunchRefCache :=
  { index with cache := Cache.addToCache deps index.cache id ref }

/-- Method `Get` on the state of the index. -/
def BunchRefCache.Get (deps : Deps) (index : BunchRefCache) (id : Int) :
    Except Panic (Option (List Int)) :=
  Cache.Get deps index.db id

/-- One pass of the loop of `writer`: the snapshot received from `index.write`, the order of
the `range` loops of the pass, and which store calls the environment lets fail during it. -/
structure Cycle where
  cache : bunchCache
  sched : Sched
  getFails : List Nat → Bool
  writeFails : Bool

/-- The store as `writeRefs` sees it during a cycle: the given content and the failures of
the cycle. -/
def Cycle.db (c : Cycle) (data : List (List Nat × List Nat)) : DB :=
  ⟨data, c.getFails, c.writeFails⟩

/-- Method `writer` on the snapshots handed to `index.write`, from the given store content:
`for cache := range index.write { if err := index.writeRefs(cache); err != nil { log... } }`.
The result is the store content afterwards, the errors that were logged, and the panic that
ended the process, if there was one: a panic of `writeRefs` is not recovered. -/
def writer (deps : Deps) :
    List (List Nat × List Nat) → List Cycle →
      List (List Nat × List Nat) × List Error × Option Panic
  | data, [] => (data, [], none)
  | data, c :: rest =>
    match writeRefs deps c.sched (c.db data) c.cache with
    | .error p => (data, [], some p)
    | .ok (none, db1) => writer deps db1.data rest
    | .ok (some err, db1) =>
      ((writer deps db1.data rest).1, err :: (writer deps db1.data rest).2.1,
        (writer deps db1.data rest).2.2)

/-! ## The hot cache, exactly -/

/-- Invariant of a hot cache filled from the pairs `records`: it is a map of maps, every id
is stored under the partition key `id / 64`, the list of an id is strictly ascending and
holds exactly the refs recorded for the id, and every recorded id is stored. -/
def CacheExact (records : List (Int × Int)) (cache : bunchCache) : Prop :=
  (cache.map Prod.fst).Nodup ∧
    (∀ e ∈ cache, (e.2.map Prod.fst).Nodup ∧
      ∀ x ∈ e.2, getBunchId x.1 = e.1 ∧ x.2.Sorted (· < ·) ∧
        ∀ v, v ∈ x.2 ↔ (x.1, v) ∈ records) ∧
    ∀ r ∈ records, ∃ bunch refs,
      mapGet cache (getBunchId r.1) = some bunch ∧ mapGet bunch r.1 = some refs

/-! ## The buffer space at the writes of `MarshalBunch` -/

/-- The length of the slice `buf[nextPos:]` at each `PutVarint` call of the first loop of
`MarshalBunch`, in the order of the calls. -/
def marshalIdsSpare : List IdRef → List Nat → Nat → Int → List Nat
  | [], _, _, _ => []
  | idRef :: rest, buf, nextPos, lastId =>
    ((growBuf buf nextPos).length - nextPos) ::
      match PutVarint (growBuf buf nextPos) nextPos (int64 (idRef.id - lastId)) with
      | .error _ => []
      | .ok (buf, n) => marshalIdsSpare rest buf (nextPos + n) idRef.id

/-- The length of the slice `buf[nextPos:]` at each `PutUvarint` call of the second loop. -/
def marshalCountsSpare : List IdRef → List Nat → Nat → List Nat
  | [], _, _ => []
  | idRef :: rest, buf, nextPos =>
    ((growBuf buf nextPos).length - nextPos) ::
      match PutUvarint (growBuf buf nextPos) nextPos
          (idRef.refs.length % 0x10000000000000000) with
      | .error _ => []
      | .ok (buf, n) => marshalCountsSpare rest buf (nextPos + n)

/-- The length of the slice `buf[nextPos:]` at each `PutVarint` call of the inner loop of
the third loop, for one pair. -/
def marshalRefListSpare : List Int → List Nat → Nat → Int → List Nat
  | [], _, _, _ => []
  | ref :: rest, buf, nextPos, lastRef =>
    ((growBuf buf nextPos).length - nextPos) ::
      match PutVarint (growBuf buf nextPos) nextPos (int64 (ref - lastRef)) with
      | .error _ => []
      | .ok (buf, n) => marshalRefListSpare rest buf (nextPos + n) ref

/-- The length of the slice `buf[nextPos:]` at each `PutVarint` call of the third loop. -/
def marshalRefsSpare : List IdRef → List Nat → Nat → Int → List Nat
  | [], _, _, _ => []
  | idRef :: rest, buf, nextPos, lastRef =>
    marshalRefListSpare idRef.refs buf nextPos lastRef ++
      match marshalRefList idRef.refs buf nextPos lastRef with
      | .error _ => []
      | .ok (buf, nextPos, lastRef) => marshalRefsSpare rest buf nextPos lastRef

/-- The length of the slice `buf[nextPos:]` at every `PutUvarint` and `PutVarint` call of
`MarshalBunch`, in the order of the calls. -/
def MarshalBunchSpare (idRefs : List IdRef) : List Nat :=
  ((List.replicate (idRefs.length * (4 + 1 + 6) + MaxVarintLen64) 0).length - 0) ::
    match PutUvarint (List.replicate (idRefs.length * (4 + 1 + 6) + MaxVarintLen64) 0) 0
        (idRefs.length % 0x10000000000000000) with
    | .error _ => []
    | .ok (buf, n) =>
      marshalIdsSpare idRefs buf n 0 ++
        match marshalIds idRefs buf n 0 with
        | .error _ => []
        | .ok (buf, nextPos) =>
          marshalCountsSpare idRefs buf nextPos ++
            match marshalCounts idRefs buf nextPos with
            | .error _ => []
            | .ok (buf, nextPos) => marshalRefsSpare idRefs buf nextPos 0

/-- The buffer and the write position of `MarshalBunch` at its `return buf[:nextPos]`. -/
def marshalFinal (idRefs : List IdRef) : Except Panic (List Nat × Nat) :=
  match PutUvarint (List.replicate (idRefs.length * (4 + 1 + 6) + MaxVarintLen64) 0) 0
      (idRefs.length % 0x10000000000000000) with
  | .error p => .error p
  | .ok (buf, n) =>
    match marshalIds idRefs buf n 0 with
    | .error p => .error p
    | .ok (buf, nextPos) =>
      match marshalCounts idRefs buf nextPos with
      | .error p => .error p
      | .ok (buf, nextPos) =>
        match marshalRefs idRefs buf nextPos 0 with
        | .error p => .error p
        | .ok (buf, nextPos, _) => .ok (buf, nextPos)

/-! # Theorems -/

/-! ## Varints: the encoder side -/

theorem lor_0x80 : ∀ b < 256, b ||| 0x80 = b % 128 + 128 := by
  set_option maxRecDepth 100000 in decide

theorem uvarint_lt {x : Nat} (h : x < 128) : uvarint x = [x] := by
  rw [uvarint, if_pos h]

theorem uvarint_ge {x : Nat} (h : 128 ≤ x) :
    uvarint x = (x % 128 + 128) :: uvarint (x / 128) := by
  rw [uvarint, if_neg (by omega)]

theorem uvarint_length_pos (x : Nat) : 0 < (uvarint x).length := by
  by_cases h : x < 128
  · simp [uvarint_lt h]
  · simp [uvarint_ge (Nat.le_of_not_lt h)]

theorem uvarint_length_le : ∀ (k x : Nat), x < 128 ^ (k + 1) → (uvarint x).length ≤ k + 1
  | 0, x, h => by
    rw [uvarint_lt (by simpa using h)]; simp
  | k + 1, x, h => by
    by_cases hx : x < 128
    · rw [uvarint_lt hx]; simp
    · rw [uvarint_ge (Nat.le_of_not_lt hx)]
      have : x / 128 < 128 ^ (k + 1) := by
        rw [Nat.div_lt_iff_lt_mul (by norm_num)]
        calc x < 128 ^ (k + 1 + 1) := h
          _ = 128 ^ (k + 1) * 128 := by ring
      have := uvarint_length_le k (x / 128) this
      simp only [List.length_cons]; omega

theorem uvarint_length_le_ten {x : Nat} (h : x < 0x10000000000000000) :
    (uvarint x).length ≤ 10 := by
  apply uvarint_length_le 9 x
  calc x < 0x10000000000000000 := h
    _ ≤ 128 ^ (9 + 1) := by norm_num

theorem set_length_append {α : Type} (pre tail : List α) (t b : α) :
    (pre ++ t :: tail).set pre.length b = pre ++ b :: tail := by
  induction pre with
  | nil => rfl
  | cons a pre ih => simp [ih]

/-- The loop equation of `binary.PutUvarint`: the counter of `putUvarintLoop` does not cut
the loop short. -/
theorem putUvarintLoop_step (c x : Nat) (hc : x ≤ c) (buf : List Nat) (off i : Nat) :
    putUvarintLoop c buf off i x =
      if 0x80 ≤ x then
        if off + i < buf.length then
          putUvarintLoop (c - 1) (buf.set (off + i) ((x % 256) ||| 0x80)) off (i + 1) (x >>> 7)
        else .error .indexOutOfRange
      else if off + i < buf.length then .ok (buf.set (off + i) (x % 256), i + 1)
      else .error .indexOutOfRange := by
  cases c with
  | zero =>
    have : x = 0 := by omega
    subst this
    simp [putUvarintLoop]
  | succ c => simp [putUvarintLoop]

theorem putUvarintLoop_spec : ∀ (c x : Nat) (pre tail : List Nat) (off i : Nat),
    x ≤ c → pre.length = off + i → (uvarint x).length ≤ tail.length →
    putUvarintLoop c (pre ++ tail) off i x =
      .ok (pre ++ uvarint x ++ tail.drop (uvarint x).length, i + (uvarint x).length) := by
  intro c
  induction c with
  | zero =>
    intro x pre tail off i hx hpre hlen
    have hx0 : x = 0 := by omega
    subst hx0
    rw [uvarint_lt (by norm_num)] at hlen ⊢
    cases tail with
    | nil => simp at hlen
    | cons t tail =>
      have := set_length_append pre tail t 0
      simp [putUvarintLoop, ← hpre, this]
  | succ c ih =>
    intro x pre tail off i hx hpre hlen
    by_cases h : x < 128
    · rw [uvarint_lt h] at hlen ⊢
      cases tail with
      | nil => simp at hlen
      | cons t tail =>
        have := set_length_append pre tail t x
        have hm : x % 256 = x := by omega
        simp [putUvarintLoop, ← hpre, this, hm, Nat.not_le.mpr h]
    · have h128 : 128 ≤ x := Nat.le_of_not_lt h
      rw [uvarint_ge h128] at hlen ⊢
      cases tail with
      | nil => simp at hlen
      | cons t tail =>
        have hb : (x % 256) ||| 0x80 = x % 128 + 128 := by
          rw [lor_0x80 _ (Nat.mod_lt _ (by norm_num))]; omega
        have hs := set_length_append pre tail t (x % 128 + 128)
        have hsh : x >>> 7 = x / 128 := by
          rw [Nat.shiftRight_eq_div_pow]
        have hrec := ih (x / 128) (pre ++ [x % 128 + 128]) tail off (i + 1)
          (by omega) (by simp; omega) (by simpa using hlen)
        simp only [putUvarintLoop, h128, if_true, hb, hsh]
        rw [if_pos (by simp; omega), ← hpre, hs]
        have e : pre ++ (x % 128 + 128) :: tail = (pre ++ [x % 128 + 128]) ++ tail := by simp
        rw [e, hrec]
        simp
        omega

theorem PutUvarint_spec (x : Nat) (pre tail : List Nat)
    (hlen : (uvarint x).length ≤ tail.length) :
    PutUvarint (pre ++ tail) pre.length x =
      .ok (pre ++ uvarint x ++ tail.drop (uvarint x).length, (uvarint x).length) := by
  have := putUvarintLoop_spec x x pre tail pre.length 0 (le_refl _) rfl hlen
  simpa [PutUvarint] using this

theorem zigzag_lt {v : Int} (h : IsInt64 v) : zigzag v < 0x10000000000000000 := by
  unfold IsInt64 at h
  unfold zigzag
  split <;> omega

theorem int64_isInt64 (v : Int) : IsInt64 (int64 v) := by
  unfold IsInt64 int64
  omega

theorem int64_of_isInt64 {v : Int} (h : IsInt64 v) : int64 v = v := by
  unfold IsInt64 at h
  unfold int64
  omega

theorem PutVarint_spec (v : Int) (hv : IsInt64 v) (pre tail : List Nat)
    (hlen : (varint v).length ≤ tail.length) :
    PutVarint (pre ++ tail) pre.length v =
      .ok (pre ++ varint v ++ tail.drop (varint v).length, (varint v).length) := by
  have hz : (if v < 0 then 0xFFFFFFFFFFFFFFFF - (uint64 v <<< 1) % 0x10000000000000000
      else (uint64 v <<< 1) % 0x10000000000000000) = zigzag v := by
    unfold IsInt64 at hv
    unfold zigzag uint64
    rw [Nat.shiftLeft_eq]
    split <;> split <;> omega
  unfold PutVarint
  simp only [hz]
  exact PutUvarint_spec (zigzag v) pre tail hlen

/-! ## `MarshalBunch` writes the layout -/

theorem growBuf_spec (out tail : List Nat) (h : 10 ≤ (out ++ tail).length) :
    ∃ tail2, growBuf (out ++ tail) out.length = out ++ tail2 ∧ 10 ≤ tail2.length := by
  unfold growBuf MaxVarintLen64
  split
  · refine ⟨tail ++ List.replicate (out ++ tail).length 0, by simp, ?_⟩
    simp at h ⊢
    omega
  · refine ⟨tail, rfl, ?_⟩
    simp at *
    omega

theorem putUvarint_grow (out tail : List Nat) (x : Nat) (hx : x < 0x10000000000000000)
    (h : 10 ≤ (out ++ tail).length) :
    ∃ tail2, PutUvarint (growBuf (out ++ tail) out.length) out.length x =
        .ok ((out ++ uvarint x) ++ tail2, (uvarint x).length) ∧
      10 ≤ ((out ++ uvarint x) ++ tail2).length := by
  obtain ⟨t2, hg, ht2⟩ := growBuf_spec out tail h
  have hl := uvarint_length_le_ten hx
  rw [hg, PutUvarint_spec x out t2 (by omega)]
  refine ⟨t2.drop (uvarint x).length, rfl, ?_⟩
  simp
  omega

theorem putVarint_grow (out tail : List Nat) (v : Int) (hv : IsInt64 v)
    (h : 10 ≤ (out ++ tail).length) :
    ∃ tail2, PutVarint (growBuf (out ++ tail) out.length) out.length v =
        .ok ((out ++ varint v) ++ tail2, (varint v).length) ∧
      10 ≤ ((out ++ varint v) ++ tail2).length := by
  obtain ⟨t2, hg, ht2⟩ := growBuf_spec out tail h
  have hl : (varint v).length ≤ 10 := uvarint_length_le_ten (zigzag_lt hv)
  rw [hg, PutVarint_spec v hv out t2 (by omega)]
  refine ⟨t2.drop (varint v).length, rfl, ?_⟩
  simp
  omega

theorem marshalIds_spec : ∀ (l : List IdRef) (out tail : List Nat) (last : Int),
    10 ≤ (out ++ tail).length →
    ∃ tail2, marshalIds l (out ++ tail) out.length last =
        .ok ((out ++ (deltas last (l.map (fun p => p.id))).flatMap varint) ++ tail2,
          (out ++ (deltas last (l.map (fun p => p.id))).flatMap varint).length) ∧
      10 ≤ ((out ++ (deltas last (l.map (fun p => p.id))).flatMap varint) ++ tail2).length := by
  intro l
  induction l with
  | nil =>
    intro out tail last h
    exact ⟨tail, by simp [marshalIds, deltas], by simpa [deltas] using h⟩
  | cons p l ih =>
    intro out tail last h
    obtain ⟨t2, hp, h2⟩ := putVarint_grow out tail (int64 (p.id - last)) (int64_isInt64 _) h
    obtain ⟨t3, hr, h3⟩ := ih (out ++ varint (int64 (p.id - last))) t2 p.id h2
    refine ⟨t3, ?_, ?_⟩
    · simp only [marshalIds, hp]
      have e : out.length + (varint (int64 (p.id - last))).length
          = (out ++ varint (int64 (p.id - last))).length := by simp
      rw [e, hr]
      simp [deltas]
    · simpa [deltas] using h3

theorem marshalCounts_spec : ∀ (l : List IdRef) (out tail : List Nat),
    (∀ p ∈ l, p.refs.length < 0x10000000000000000) →
    10 ≤ (out ++ tail).length →
    ∃ tail2, marshalCounts l (out ++ tail) out.length =
        .ok ((out ++ l.flatMap (fun p => uvarint p.refs.length)) ++ tail2,
          (out ++ l.flatMap (fun p => uvarint p.refs.length)).length) ∧
      10 ≤ ((out ++ l.flatMap (fun p => uvarint p.refs.length)) ++ tail2).length := by
  intro l
  induction l with
  | nil =>
    intro out tail _ h
    exact ⟨tail, by simp [marshalCounts], by simpa using h⟩
  | cons p l ih =>
    intro out tail hl h
    have hp0 : p.refs.length < 0x10000000000000000 := hl p (by simp)
    have hmod : p.refs.length % 0x10000000000000000 = p.refs.length := Nat.mod_eq_of_lt hp0
    obtain ⟨t2, hp, h2⟩ := putUvarint_grow out tail p.refs.length hp0 h
    obtain ⟨t3, hr, h3⟩ := ih (out ++ uvarint p.refs.length) t2
      (fun q hq => hl q (by simp [hq])) h2
    refine ⟨t3, ?_, ?_⟩
    · simp only [marshalCounts, hmod, hp]
      have e : out.length + (uvarint p.refs.length).length
          = (out ++ uvarint p.refs.length).length := by simp
      rw [e, hr]
      simp
    · simpa using h3

theorem lastOf_nil (last : Int) : lastOf last [] = last := rfl

theorem lastOf_cons (last v : Int) (l : List Int) : lastOf last (v :: l) = lastOf v l := rfl

theorem deltas_append : ∀ (a b : List Int) (last : Int),
    deltas last (a ++ b) = deltas last a ++ deltas (lastOf last a) b
  | [], b, last => by simp [deltas, lastOf_nil]
  | v :: a, b, last => by simp [deltas, lastOf_cons, deltas_append a b v]

theorem lastOf_append : ∀ (a b : List Int) (last : Int),
    lastOf last (a ++ b) = lastOf (lastOf last a) b := by
  intro a b last
  simp [lastOf]

theorem marshalRefList_spec : ∀ (l : List Int) (out tail : List Nat) (last : Int),
    10 ≤ (out ++ tail).length →
    ∃ tail2, marshalRefList l (out ++ tail) out.length last =
        .ok ((out ++ (deltas last l).flatMap varint) ++ tail2,
          (out ++ (deltas last l).flatMap varint).length, lastOf last l) ∧
      10 ≤ ((out ++ (deltas last l).flatMap varint) ++ tail2).length := by
  intro l
  induction l with
  | nil =>
    intro out tail last h
    exact ⟨tail, by simp [marshalRefList, deltas, lastOf_nil], by simpa [deltas] using h⟩
  | cons v l ih =>
    intro out tail last h
    obtain ⟨t2, hp, h2⟩ := putVarint_grow out tail (int64 (v - last)) (int64_isInt64 _) h
    obtain ⟨t3, hr, h3⟩ := ih (out ++ varint (int64 (v - last))) t2 v h2
    refine ⟨t3, ?_, ?_⟩
    · simp only [marshalRefList, hp]
      have e : out.length + (varint (int64 (v - last))).length
          = (out ++ varint (int64 (v - last))).length := by simp
      rw [e, hr]
      simp [deltas, lastOf_cons]
    · simpa [deltas] using h3

theorem marshalRefs_spec : ∀ (l : List IdRef) (out tail : List Nat) (last : Int),
    10 ≤ (out ++ tail).length →
    ∃ tail2, marshalRefs l (out ++ tail) out.length last =
        .ok ((out ++ (deltas last (l.flatMap (fun p => p.refs))).flatMap varint) ++ tail2,
          (out ++ (deltas last (l.flatMap (fun p => p.refs))).flatMap varint).length,
          lastOf last (l.flatMap (fun p => p.refs))) ∧
      10 ≤ ((out ++ (deltas last (l.flatMap (fun p => p.refs))).flatMap varint)
        ++ tail2).length := by
  intro l
  induction l with
  | nil =>
    intro out tail last h
    exact ⟨tail, by simp [marshalRefs, deltas, lastOf_nil], by simpa [deltas] using h⟩
  | cons p l ih =>
    intro out tail last h
    obtain ⟨t2, hp, h2⟩ := marshalRefList_spec p.refs out tail last h
    obtain ⟨t3, hr, h3⟩ := ih (out ++ (deltas last p.refs).flatMap varint) t2
      (lastOf last p.refs) h2
    refine ⟨t3, ?_, ?_⟩
    · simp only [marshalRefs, hp, hr]
      simp [deltas_append, lastOf_append]
    · simpa [deltas_append] using h3

/-- `MarshalBunch` returns, without running out of its buffer, the four passes of the
layout. -/
theorem MarshalBunch_eq_layout (x : List IdRef) (hn : x.length < 0x10000000000000000)
    (hl : ∀ p ∈ x, p.refs.length < 0x10000000000000000) :
    MarshalBunch x = .ok (encodeLayout x) := by
  have hmod : x.length % 0x10000000000000000 = x.length := Nat.mod_eq_of_lt hn
  have h0 := PutUvarint_spec x.length []
    (List.replicate (x.length * (4 + 1 + 6) + MaxVarintLen64) 0)
    (by have := uvarint_length_le_ten hn; simp [MaxVarintLen64]; omega)
  simp only [List.nil_append, List.length_nil] at h0
  have h10 : 10 ≤ (uvarint x.length ++ List.drop (uvarint x.length).length
      (List.replicate (x.length * (4 + 1 + 6) + MaxVarintLen64) 0)).length := by
    have := uvarint_length_le_ten hn
    simp [MaxVarintLen64]
    omega
  obtain ⟨t1, e1, g1⟩ := marshalIds_spec x _ _ 0 h10
  obtain ⟨t2, e2, g2⟩ := marshalCounts_spec x _ _ hl g1
  obtain ⟨t3, e3, g3⟩ := marshalRefs_spec x _ _ 0 g2
  simp only [MarshalBunch, hmod, h0, e1, e2, e3, encodeLayout]
  exact congrArg Except.ok (List.take_left' rfl)

/-! ## Varints: the decoder side -/

theorem lor_shift (acc b s : Nat) (h : acc < 2 ^ s) : acc ||| (b * 2 ^ s) = acc + b * 2 ^ s := by
  rw [Nat.lor_comm, Nat.mul_comm b, ← Nat.mul_add_lt_is_or h]
  omega

theorem and_0x7f (b : Nat) : b &&& 0x7f = b % 128 := by
  have := Nat.and_pow_two_sub_one_eq_mod b 7
  simpa using this

theorem readUvarintLoop_spec : ∀ (k i acc s x : Nat) (rest : List Nat),
    i + k = 10 → i < 10 → s = 7 * i → acc < 2 ^ s → acc + x * 2 ^ s < 0x10000000000000000 →
    readUvarintLoop k i acc s (uvarint x ++ rest) = .ok (acc + x * 2 ^ s, rest) := by
  intro k
  induction k with
  | zero => intro i acc s x rest h1 h2; omega
  | succ k ih =>
    intro i acc s x rest hik hi hs hacc htot
    have hP : 0 < 2 ^ s := Nat.two_pow_pos s
    by_cases hx : x < 128
    · rw [uvarint_lt hx]
      have hb : x * 2 ^ s < 0x10000000000000000 := by omega
      have hov : ¬ (i = MaxVarintLen64 - 1 ∧ 1 < x) := by
        rintro ⟨h9, h1x⟩
        simp only [MaxVarintLen64] at h9
        subst hs
        subst h9
        norm_num at hb
        omega
      simp only [List.singleton_append, readUvarintLoop, hx, if_true, hov, if_false]
      rw [Nat.shiftLeft_eq, Nat.mod_eq_of_lt hb, lor_shift _ _ _ hacc]
    · have h128 : 128 ≤ x := Nat.le_of_not_lt hx
      rw [uvarint_ge h128]
      have hdm : x * 2 ^ s = (x / 128) * (2 ^ s * 128) + (x % 128) * 2 ^ s := by
        conv_lhs => rw [← Nat.div_add_mod x 128]
        ring
      have hlow : (x % 128) * 2 ^ s ≤ 127 * 2 ^ s :=
        Nat.mul_le_mul_right _ (by omega)
      have hhigh : 1 * (2 ^ s * 128) ≤ (x / 128) * (2 ^ s * 128) :=
        Nat.mul_le_mul_right _ (by omega)
      have hi9 : i + 1 < 10 := by
        by_contra hc
        have h9 : i = 9 := by omega
        subst hs
        subst h9
        norm_num at hhigh htot hdm
        omega
      have hnb : ¬ (x % 128 + 128 < 0x80) := by omega
      have hand : (x % 128 + 128) &&& 0x7f = x % 128 := by
        rw [and_0x7f]; omega
      have hb : (x % 128) * 2 ^ s < 0x10000000000000000 := by omega
      have hpow : 2 ^ (s + 7) = 2 ^ s * 128 := by
        rw [pow_add]; norm_num
      simp only [List.cons_append, readUvarintLoop, hnb, if_false, hand]
      rw [Nat.shiftLeft_eq, Nat.mod_eq_of_lt hb, lor_shift _ _ _ hacc]
      rw [ih (i + 1) (acc + x % 128 * 2 ^ s) (s + 7) (x / 128) rest (by omega) hi9 (by omega)
        (by rw [hpow]; omega) (by rw [hpow]; omega)]
      rw [hpow, hdm]
      congr 2
      omega

theorem ReadUvarint_uvarint (x : Nat) (hx : x < 0x10000000000000000) (rest : List Nat) :
    ReadUvarint (uvarint x ++ rest) = .ok (x, rest) := by
  have := readUvarintLoop_spec 10 0 0 0 x rest (by norm_num) (by norm_num) (by norm_num)
    (by norm_num) (by simpa using hx)
  simpa [ReadUvarint, MaxVarintLen64] using this

theorem ReadVarint_varint (v : Int) (hv : IsInt64 v) (rest : List Nat) :
    ReadVarint (varint v ++ rest) = .ok (v, rest) := by
  unfold ReadVarint varint
  rw [ReadUvarint_uvarint _ (zigzag_lt hv)]
  simp only [Nat.and_one_is_mod, Nat.shiftRight_eq_div_pow]
  unfold IsInt64 at hv
  unfold zigzag int64
  congr 1
  rw [Prod.mk.injEq]
  refine ⟨?_, rfl⟩
  split <;> split <;> omega

/-! ## The three reading passes of `UnmarshalBunch` -/

theorem unmarshalIds_spec : ∀ (ds : List Int) (last : Int) (rest : List Nat),
    (∀ d ∈ ds, IsInt64 d) →
    unmarshalIds ds.length last (ds.flatMap varint ++ rest) = .ok (sums last ds, rest)
  | [], last, rest, _ => by simp [unmarshalIds, sums]
  | d :: ds, last, rest, h => by
    have hd : IsInt64 d := h d (by simp)
    have ih := unmarshalIds_spec ds (int64 (d + last)) rest (fun e he => h e (by simp [he]))
    simp only [List.flatMap_cons, List.append_assoc, List.length_cons, unmarshalIds,
      ReadVarint_varint d hd, ih, sums]

theorem unmarshalCounts_spec : ∀ (cs : List Nat) (rest : List Nat),
    (∀ c ∈ cs, c < 0x10000000000000000) →
    unmarshalCounts cs.length (cs.flatMap uvarint ++ rest) = .ok (cs, rest)
  | [], rest, _ => by simp [unmarshalCounts]
  | c :: cs, rest, h => by
    have hc : c < 0x10000000000000000 := h c (by simp)
    have ih := unmarshalCounts_spec cs rest (fun e he => h e (by simp [he]))
    simp only [List.flatMap_cons, List.append_assoc, List.length_cons, unmarshalCounts,
      ReadUvarint_uvarint c hc, ih]

theorem unmarshalRefList_spec : ∀ (ds : List Int) (last : Int) (rest : List Nat),
    (∀ d ∈ ds, IsInt64 d) →
    unmarshalRefList ds.length last (ds.flatMap varint ++ rest) =
      .ok (sums last ds, lastOf last (sums last ds), rest)
  | [], last, rest, _ => by simp [unmarshalRefList, sums, lastOf_nil]
  | d :: ds, last, rest, h => by
    have hd : IsInt64 d := h d (by simp)
    have ih := unmarshalRefList_spec ds (int64 (d + last)) rest (fun e he => h e (by simp [he]))
    simp only [List.flatMap_cons, List.append_assoc, List.length_cons, unmarshalRefList,
      ReadVarint_varint d hd, ih, sums, lastOf_cons]

theorem unmarshalRefs_spec : ∀ (rs : List (List Int)) (last : Int) (rest : List Nat),
    (∀ r ∈ rs, ∀ d ∈ r, IsInt64 d) →
    unmarshalRefs (rs.map List.length) last (rs.flatten.flatMap varint ++ rest) =
      .ok (sumsSplit last rs, rest)
  | [], last, rest, _ => by simp [unmarshalRefs, sumsSplit]
  | r :: rs, last, rest, h => by
    have hr : ∀ d ∈ r, IsInt64 d := h r (by simp)
    have ih := unmarshalRefs_spec rs (lastOf last (sums last r)) rest
      (fun e he => h e (by simp [he]))
    simp only [List.flatten_cons, List.flatMap_append, List.append_assoc, List.map_cons,
      unmarshalRefs, unmarshalRefList_spec r last _ hr, ih, sumsSplit]

/-- What `UnmarshalBunch` returns on a buffer made of a count, id deltas `ds`, the lengths
of the groups `rs` of ref deltas, and the ref deltas, followed by any bytes `rest`. -/
theorem UnmarshalBunch_stream (ds : List Int) (rs : List (List Int)) (rest : List Nat)
    (hlen : rs.length = ds.length) (hn : ds.length < 0x10000000000000000)
    (hds : ∀ d ∈ ds, IsInt64 d)
    (hrs : ∀ r ∈ rs, r.length < 0x10000000000000000 ∧ ∀ d ∈ r, IsInt64 d) :
    UnmarshalBunch (uvarint ds.length ++ ds.flatMap varint
        ++ rs.flatMap (fun r => uvarint r.length) ++ rs.flatten.flatMap varint ++ rest) =
      .ok (some (List.zipWith IdRef.mk (sums 0 ds) (sumsSplit 0 rs))) := by
  have hc : rs.flatMap (fun r => uvarint r.length) = (rs.map List.length).flatMap uvarint := by
    rw [List.flatMap_map]
  have h2 := unmarshalCounts_spec (rs.map List.length) (rs.flatten.flatMap varint ++ rest)
    (by
      intro c hcm
      obtain ⟨r, hr, rfl⟩ := List.mem_map.mp hcm
      exact (hrs r hr).1)
  rw [List.length_map, hlen] at h2
  simp only [UnmarshalBunch, List.append_assoc, ReadUvarint_uvarint _ hn,
    unmarshalIds_spec ds 0 _ hds, hc, h2,
    unmarshalRefs_spec rs 0 rest (fun r hr => (hrs r hr).2)]

/-! ## Differences and running sums -/

theorem sums_deltas : ∀ (l : List Int) (last : Int), (∀ v ∈ l, IsInt64 v) →
    sums last (deltas last l) = l
  | [], _, _ => rfl
  | v :: l, last, h => by
    have hv : IsInt64 v := h v (by simp)
    have e : int64 (int64 (v - last) + last) = v := by
      unfold IsInt64 at hv
      unfold int64
      omega
    simp only [deltas, sums, e, sums_deltas l v (fun w hw => h w (by simp [hw]))]

theorem deltas_isInt64 : ∀ (l : List Int) (last : Int), ∀ d ∈ deltas last l, IsInt64 d
  | [], _, d, hd => by simp [deltas] at hd
  | v :: l, last, d, hd => by
    simp only [deltas, List.mem_cons] at hd
    rcases hd with rfl | hd
    · exact int64_isInt64 _
    · exact deltas_isInt64 l v d hd

theorem deltas_length : ∀ (l : List Int) (last : Int), (deltas last l).length = l.length
  | [], _ => rfl
  | v :: l, last => by simp [deltas, deltas_length l v]

theorem sums_length : ∀ (l : List Int) (last : Int), (sums last l).length = l.length
  | [], _ => rfl
  | v :: l, last => by simp [sums, sums_length l]

theorem sums_isInt64 : ∀ (l : List Int) (last : Int), ∀ d ∈ sums last l, IsInt64 d
  | [], _, d, hd => by simp [sums] at hd
  | v :: l, last, d, hd => by
    simp only [sums, List.mem_cons] at hd
    rcases hd with rfl | hd
    · exact int64_isInt64 _
    · exact sums_isInt64 l _ d hd

theorem flatten_deltasSplit : ∀ (xs : List (List Int)) (last : Int),
    (deltasSplit last xs).flatten = deltas last xs.flatten
  | [], _ => rfl
  | l :: xs, last => by
    simp [deltasSplit, deltas_append, flatten_deltasSplit xs]

theorem map_length_deltasSplit : ∀ (xs : List (List Int)) (last : Int),
    (deltasSplit last xs).map List.length = xs.map List.length
  | [], _ => rfl
  | l :: xs, last => by
    simp [deltasSplit, deltas_length, map_length_deltasSplit xs]

theorem sumsSplit_deltasSplit : ∀ (xs : List (List Int)) (last : Int),
    (∀ l ∈ xs, ∀ v ∈ l, IsInt64 v) → sumsSplit last (deltasSplit last xs) = xs
  | [], _, _ => rfl
  | l :: xs, last, h => by
    have hl : ∀ v ∈ l, IsInt64 v := h l (by simp)
    simp only [deltasSplit, sumsSplit, sums_deltas l last hl,
      sumsSplit_deltasSplit xs _ (fun m hm => h m (by simp [hm]))]

theorem sums_append : ∀ (a b : List Int) (last : Int),
    sums last (a ++ b) = sums last a ++ sums (lastOf last (sums last a)) b
  | [], b, last => by simp [sums, lastOf_nil]
  | v :: a, b, last => by simp [sums, lastOf_cons, sums_append a b]

theorem flatten_sumsSplit : ∀ (rs : List (List Int)) (last : Int),
    (sumsSplit last rs).flatten = sums last rs.flatten
  | [], _ => rfl
  | r :: rs, last => by
    simp [sumsSplit, sums_append, flatten_sumsSplit rs]

theorem map_length_sumsSplit : ∀ (rs : List (List Int)) (last : Int),
    (sumsSplit last rs).map List.length = rs.map List.length
  | [], _ => rfl
  | r :: rs, last => by
    simp [sumsSplit, sums_length, map_length_sumsSplit rs]

theorem zipWith_mk_map (x : List IdRef) :
    List.zipWith IdRef.mk (x.map (fun p => p.id)) (x.map (fun p => p.refs)) = x := by
  induction x with
  | nil => rfl
  | cons p x ih => simp [ih]

/-- The layout of `x` as a stream of deltas. -/
theorem encodeLayout_eq_stream (x : List IdRef) :
    encodeLayout x =
      uvarint (deltas 0 (x.map (fun p => p.id))).length
        ++ (deltas 0 (x.map (fun p => p.id))).flatMap varint
        ++ (deltasSplit 0 (x.map (fun p => p.refs))).flatMap (fun r => uvarint r.length)
        ++ (deltasSplit 0 (x.map (fun p => p.refs))).flatten.flatMap varint := by
  have h1 : (deltasSplit 0 (x.map (fun p => p.refs))).flatMap (fun r => uvarint r.length)
      = x.flatMap (fun p => uvarint p.refs.length) := by
    have := map_length_deltasSplit (x.map (fun p => p.refs)) 0
    calc (deltasSplit 0 (x.map (fun p => p.refs))).flatMap (fun r => uvarint r.length)
        = ((deltasSplit 0 (x.map (fun p => p.refs))).map List.length).flatMap uvarint := by
          rw [List.flatMap_map]
      _ = ((x.map (fun p => p.refs)).map List.length).flatMap uvarint := by rw [this]
      _ = x.flatMap (fun p => uvarint p.refs.length) := by
          rw [List.map_map, List.flatMap_map]; rfl
  have h2 : (x.map (fun p => p.refs)).flatten = x.flatMap (fun p => p.refs) := by
    rw [List.flatMap_def]
  rw [h1, flatten_deltasSplit, h2, deltas_length, List.length_map, encodeLayout]

/-- Decoding the layout of a well-typed list gives the list back, whatever follows it. -/
theorem UnmarshalBunch_layout (x : List IdRef) (hx : WellTyped x) (rest : List Nat) :
    UnmarshalBunch (encodeLayout x ++ rest) = .ok (some x) := by
  obtain ⟨hn, hp⟩ := hx
  have hs := UnmarshalBunch_stream (deltas 0 (x.map (fun p => p.id)))
    (deltasSplit 0 (x.map (fun p => p.refs))) rest
    (by
      have := congrArg List.length (map_length_deltasSplit (x.map (fun p => p.refs)) 0)
      simpa [deltas_length] using this)
    (by rw [deltas_length, List.length_map]; omega)
    (deltas_isInt64 _ _)
    (by
      intro r hr
      constructor
      · have hm : r.length ∈ (deltasSplit 0 (x.map (fun p => p.refs))).map List.length :=
          List.mem_map_of_mem _ hr
        rw [map_length_deltasSplit] at hm
        simp only [List.map_map, List.mem_map, Function.comp] at hm
        obtain ⟨p, hpx, hpl⟩ := hm
        have := (hp p hpx).2.1
        omega
      · intro d hd
        have hf : d ∈ (deltasSplit 0 (x.map (fun p => p.refs))).flatten :=
          List.mem_flatten.mpr ⟨r, hr, hd⟩
        rw [flatten_deltasSplit] at hf
        exact deltas_isInt64 _ _ d hf)
  rw [← encodeLayout_eq_stream] at hs
  rw [hs, sums_deltas _ _ (by
      intro v hv
      obtain ⟨p, hpx, rfl⟩ := List.mem_map.mp hv
      exact (hp p hpx).1),
    sumsSplit_deltasSplit _ _ (by
      intro l hl v hv
      obtain ⟨p, hpx, rfl⟩ := List.mem_map.mp hl
      exact (hp p hpx).2.2 v hv),
    zipWith_mk_map]

/-! ## Truncated buffers -/

theorem readUvarintLoop_take : ∀ (k i acc s x m : Nat), m < (uvarint x).length →
    ∃ e, readUvarintLoop k i acc s ((uvarint x).take m) = .error e := by
  intro k
  induction k with
  | zero => intro i acc s x m _; exact ⟨_, rfl⟩
  | succ k ih =>
    intro i acc s x m hm
    by_cases hx : x < 128
    · rw [uvarint_lt hx] at hm ⊢
      have : m = 0 := by simpa using hm
      subst this
      exact ⟨_, rfl⟩
    · rw [uvarint_ge (Nat.le_of_not_lt hx)] at hm ⊢
      cases m with
      | zero => exact ⟨_, rfl⟩
      | succ m =>
        have hnb : ¬ (x % 128 + 128 < 0x80) := by omega
        simp only [List.take_succ_cons, readUvarintLoop, hnb, if_false]
        exact ih _ _ _ _ _ (by simpa using hm)

theorem ReadUvarint_take (x m : Nat) (hm : m < (uvarint x).length) :
    ∃ e, ReadUvarint ((uvarint x).take m) = .error e :=
  readUvarintLoop_take _ _ _ _ x m hm

theorem ReadVarint_take (v : Int) (m : Nat) (hm : m < (varint v).length) :
    ∃ e, ReadVarint ((varint v).take m) = .error e := by
  obtain ⟨e, he⟩ := ReadUvarint_take (zigzag v) m hm
  exact ⟨e, by simp [ReadVarint, varint, he]⟩

theorem take_append_lt {α : Type} (a b : List α) (m : Nat) (h : m < a.length) :
    (a ++ b).take m = a.take m :=
  List.take_append_of_le_length (Nat.le_of_lt h)

theorem take_append_ge {α : Type} (a b : List α) (m : Nat) (h : a.length ≤ m) :
    (a ++ b).take m = a ++ b.take (m - a.length) := by
  rw [List.take_append_eq_append_take, List.take_of_length_le h]

theorem unmarshalIds_take : ∀ (ds : List Int) (last : Int) (m : Nat),
    (∀ d ∈ ds, IsInt64 d) → m < (ds.flatMap varint).length →
    ∃ e, unmarshalIds ds.length last ((ds.flatMap varint).take m) = .error (.error e)
  | [], _, m, _, hm => by simp at hm
  | d :: ds, last, m, h, hm => by
    have hd : IsInt64 d := h d (by simp)
    simp only [List.flatMap_cons, List.length_append] at hm
    simp only [List.flatMap_cons, List.length_cons, unmarshalIds]
    by_cases hlt : m < (varint d).length
    · obtain ⟨e, he⟩ := ReadVarint_take d m hlt
      rw [take_append_lt _ _ _ hlt, he]
      exact ⟨e, rfl⟩
    · rw [take_append_ge _ _ _ (Nat.le_of_not_lt hlt), ReadVarint_varint d hd]
      obtain ⟨e, he⟩ := unmarshalIds_take ds (int64 (d + last)) (m - (varint d).length)
        (fun e he => h e (by simp [he])) (by omega)
      exact ⟨e, by simp only [he]⟩

theorem unmarshalCounts_take : ∀ (cs : List Nat) (m : Nat),
    (∀ c ∈ cs, c < 0x10000000000000000) → m < (cs.flatMap uvarint).length →
    ∃ e, unmarshalCounts cs.length ((cs.flatMap uvarint).take m) = .error (.error e)
  | [], m, _, hm => by simp at hm
  | c :: cs, m, h, hm => by
    have hc : c < 0x10000000000000000 := h c (by simp)
    simp only [List.flatMap_cons, List.length_append] at hm
    simp only [List.flatMap_cons, List.length_cons, unmarshalCounts]
    by_cases hlt : m < (uvarint c).length
    · obtain ⟨e, he⟩ := ReadUvarint_take c m hlt
      rw [take_append_lt _ _ _ hlt, he]
      exact ⟨e, rfl⟩
    · rw [take_append_ge _ _ _ (Nat.le_of_not_lt hlt), ReadUvarint_uvarint c hc]
      obtain ⟨e, he⟩ := unmarshalCounts_take cs (m - (uvarint c).length)
        (fun e he => h e (by simp [he])) (by omega)
      exact ⟨e, by simp only [he]⟩

theorem unmarshalRefList_take : ∀ (ds : List Int) (last : Int) (m : Nat),
    (∀ d ∈ ds, IsInt64 d) → m < (ds.flatMap varint).length →
    ∃ e, unmarshalRefList ds.length last ((ds.flatMap varint).take m) = .error (.error e)
  | [], _, m, _, hm => by simp at hm
  | d :: ds, last, m, h, hm => by
    have hd : IsInt64 d := h d (by simp)
    simp only [List.flatMap_cons, List.length_append] at hm
    simp only [List.flatMap_cons, List.length_cons, unmarshalRefList]
    by_cases hlt : m < (varint d).length
    · obtain ⟨e, he⟩ := ReadVarint_take d m hlt
      rw [take_append_lt _ _ _ hlt, he]
      exact ⟨e, rfl⟩
    · rw [take_append_ge _ _ _ (Nat.le_of_not_lt hlt), ReadVarint_varint d hd]
      obtain ⟨e, he⟩ := unmarshalRefList_take ds (int64 (d + last)) (m - (varint d).length)
        (fun e he => h e (by simp [he])) (by omega)
      exact ⟨e, by simp only [he]⟩

theorem unmarshalRefs_take : ∀ (rs : List (List Int)) (last : Int) (m : Nat),
    (∀ r ∈ rs, ∀ d ∈ r, IsInt64 d) → m < (rs.flatten.flatMap varint).length →
    ∃ e, unmarshalRefs (rs.map List.length) last ((rs.flatten.flatMap varint).take m)
      = .error (.error e)
  | [], _, m, _, hm => by simp at hm
  | r :: rs, last, m, h, hm => by
    have hr : ∀ d ∈ r, IsInt64 d := h r (by simp)
    simp only [List.flatten_cons, List.flatMap_append, List.length_append] at hm
    simp only [List.flatten_cons, List.flatMap_append, List.map_cons, unmarshalRefs]
    by_cases hlt : m < (r.flatMap varint).length
    · obtain ⟨e, he⟩ := unmarshalRefList_take r last m hr hlt
      rw [take_append_lt _ _ _ hlt, he]
      exact ⟨e, rfl⟩
    · rw [take_append_ge _ _ _ (Nat.le_of_not_lt hlt), unmarshalRefList_spec r last _ hr]
      obtain ⟨e, he⟩ := unmarshalRefs_take rs (lastOf last (sums last r))
        (m - (r.flatMap varint).length) (fun e he => h e (by simp [he])) (by omega)
      exact ⟨e, by simp only [he]⟩

/-- On a proper initial part of a delta stream `UnmarshalBunch` returns nil when the cut is
inside the count, and panics with the read error otherwise. -/
theorem UnmarshalBunch_stream_take (ds : List Int) (rs : List (List Int)) (m : Nat)
    (hlen : rs.length = ds.length) (hn : ds.length < 0x10000000000000000)
    (hds : ∀ d ∈ ds, IsInt64 d)
    (hrs : ∀ r ∈ rs, r.length < 0x10000000000000000 ∧ ∀ d ∈ r, IsInt64 d)
    (hm : m < (uvarint ds.length ++ ds.flatMap varint
        ++ rs.flatMap (fun r => uvarint r.length) ++ rs.flatten.flatMap varint).length) :
    (m < (uvarint ds.length).length →
      UnmarshalBunch ((uvarint ds.length ++ ds.flatMap varint
        ++ rs.flatMap (fun r => uvarint r.length) ++ rs.flatten.flatMap varint).take m)
        = .ok none) ∧
    ((uvarint ds.length).length ≤ m →
      ∃ e, UnmarshalBunch ((uvarint ds.length ++ ds.flatMap varint
        ++ rs.flatMap (fun r => uvarint r.length) ++ rs.flatten.flatMap varint).take m)
        = .error (.error e)) := by
  have hc : rs.flatMap (fun r => uvarint r.length) = (rs.map List.length).flatMap uvarint := by
    rw [List.flatMap_map]
  have hcs : ∀ c ∈ rs.map List.length, c < 0x10000000000000000 := by
    intro c hcm
    obtain ⟨r, hr, rfl⟩ := List.mem_map.mp hcm
    exact (hrs r hr).1
  have hcl : (rs.map List.length).length = ds.length := by rw [List.length_map, hlen]
  rw [hc] at hm ⊢
  simp only [List.append_assoc, List.length_append] at hm ⊢
  constructor
  · intro h1
    obtain ⟨e, he⟩ := ReadUvarint_take ds.length m h1
    rw [take_append_lt _ _ _ h1]
    simp [UnmarshalBunch, he]
  · intro h1
    rw [take_append_ge _ _ _ h1]
    simp only [UnmarshalBunch, ReadUvarint_uvarint _ hn]
    by_cases h2 : m - (uvarint ds.length).length < (ds.flatMap varint).length
    · obtain ⟨e, he⟩ := unmarshalIds_take ds 0 _ hds h2
      rw [take_append_lt _ _ _ h2, he]
      exact ⟨e, rfl⟩
    · rw [take_append_ge _ _ _ (Nat.le_of_not_lt h2), unmarshalIds_spec ds 0 _ hds]
      simp only []
      by_cases h3 : m - (uvarint ds.length).length - (ds.flatMap varint).length
          < ((rs.map List.length).flatMap uvarint).length
      · obtain ⟨e, he⟩ := unmarshalCounts_take (rs.map List.length) _ hcs h3
        rw [hcl] at he
        rw [take_append_lt _ _ _ h3, he]
        exact ⟨e, rfl⟩
      · have h4 := unmarshalCounts_spec (rs.map List.length)
          ((rs.flatten.flatMap varint).take (m - (uvarint ds.length).length
            - (ds.flatMap varint).length - ((rs.map List.length).flatMap uvarint).length)) hcs
        rw [hcl] at h4
        rw [take_append_ge _ _ _ (Nat.le_of_not_lt h3), h4]
        simp only []
        obtain ⟨e, he⟩ := unmarshalRefs_take rs 0 (m - (uvarint ds.length).length
            - (ds.flatMap varint).length - ((rs.map List.length).flatMap uvarint).length)
          (fun r hr => (hrs r hr).2) (by omega)
        exact ⟨e, by simp only [he]⟩

theorem zipWith_mk_id : ∀ (a : List Int) (b : List (List Int)), a.length = b.length →
    (List.zipWith IdRef.mk a b).map (fun p => p.id) = a
  | [], [], _ => rfl
  | [], _ :: _, h => by simp at h
  | _ :: _, [], h => by simp at h
  | v :: a, r :: b, h => by
    simp [zipWith_mk_id a b (by simpa using h)]

theorem zipWith_mk_refs : ∀ (a : List Int) (b : List (List Int)), a.length = b.length →
    (List.zipWith IdRef.mk a b).map (fun p => p.refs) = b
  | [], [], _ => rfl
  | [], _ :: _, h => by simp at h
  | _ :: _, [], h => by simp at h
  | v :: a, r :: b, h => by
    simp [zipWith_mk_refs a b (by simpa using h)]

/-- C1: for every list `x` of IdRef pairs whose ids and refs are int64 values (in any order,
also when successive differences overflow) and whose lengths fit Go's `int`,
`MarshalBunch x` returns a buffer and `UnmarshalBunch` of that buffer returns, without
error, exactly `x`: same length, same ids, same refs, same order. -/
theorem C1_roundtrip (x : List IdRef) (hx : WellTyped x) :
    ∃ buf, MarshalBunch x = .ok buf ∧ UnmarshalBunch buf = .ok (some x) := by
  refine ⟨encodeLayout x, ?_, ?_⟩
  · exact MarshalBunch_eq_layout x (by have := hx.1; omega)
      (fun p hp => by have := (hx.2 p hp).2.1; omega)
  · simpa using UnmarshalBunch_layout x hx []

/-- C1 at three pairs, one with no refs and one with the extreme int64 values. -/
theorem C1_roundtrip_witness :
    WellTyped [⟨10, [50, 100]⟩, ⟨3, []⟩,
        ⟨-9223372036854775808, [9223372036854775807, -9223372036854775808]⟩] ∧
      ∃ buf, MarshalBunch [⟨10, [50, 100]⟩, ⟨3, []⟩,
          ⟨-9223372036854775808, [9223372036854775807, -9223372036854775808]⟩] = .ok buf ∧
        UnmarshalBunch buf = .ok (some [⟨10, [50, 100]⟩, ⟨3, []⟩,
          ⟨-9223372036854775808, [9223372036854775807, -9223372036854775808]⟩]) :=
  ⟨by decide, C1_roundtrip _ (by decide)⟩

/-- C4 (counterexample): the empty buffer is a truncation of the encoding of one pair, and
`UnmarshalBunch` returns nil for it without reporting an error. -/
theorem C4_counterexample :
    MarshalBunch [⟨10, [50, 100]⟩] = .ok [1, 20, 2, 100, 100] ∧
      ([] : List Nat) <+: [1, 20, 2, 100, 100] ∧ ([] : List Nat) ≠ [1, 20, 2, 100, 100] ∧
      UnmarshalBunch [] = .ok none := by
  refine ⟨by decide, ⟨_, rfl⟩, by decide, by decide⟩

/-- C4 (amended): for every well-typed list `x` and every proper initial part `b` of
`MarshalBunch x`, `UnmarshalBunch b` returns nil without an error when `b` ends inside the
count header (the empty buffer included), and panics with the read error, returning no
list, when `b` holds the whole count header. -/
theorem C4_truncated (x : List IdRef) (hx : WellTyped x) (out b : List Nat)
    (hout : MarshalBunch x = .ok out) (hb : b <+: out) (hne : b ≠ out) :
    (b.length < (uvarint x.length).length → UnmarshalBunch b = .ok none) ∧
    ((uvarint x.length).length ≤ b.length → ∃ e, UnmarshalBunch b = .error (.error e)) := by
  have hlay := MarshalBunch_eq_layout x (by have := hx.1; omega)
      (fun p hp => by have := (hx.2 p hp).2.1; omega)
  rw [hlay] at hout
  have hout2 : out = encodeLayout x := by
    injection hout with h; exact h.symm
  subst hout2
  have hbt : b = (encodeLayout x).take b.length := List.prefix_iff_eq_take.mp hb
  have hbl : b.length < (encodeLayout x).length := by
    rcases Nat.lt_or_ge b.length (encodeLayout x).length with h | h
    · exact h
    · exfalso
      apply hne
      rw [hbt, List.take_of_length_le h]
  obtain ⟨hn, hp⟩ := hx
  rw [encodeLayout_eq_stream] at hbt hbl
  have hs := UnmarshalBunch_stream_take (deltas 0 (x.map (fun p => p.id)))
    (deltasSplit 0 (x.map (fun p => p.refs))) b.length
    (by
      have := congrArg List.length (map_length_deltasSplit (x.map (fun p => p.refs)) 0)
      simpa [deltas_length] using this)
    (by rw [deltas_length, List.length_map]; omega)
    (deltas_isInt64 _ _)
    (by
      intro r hr
      constructor
      · have hm : r.length ∈ (deltasSplit 0 (x.map (fun p => p.refs))).map List.length :=
          List.mem_map_of_mem _ hr
        rw [map_length_deltasSplit] at hm
        simp only [List.map_map, List.mem_map, Function.comp] at hm
        obtain ⟨p, hpx, hpl⟩ := hm
        have := (hp p hpx).2.1
        omega
      · intro d hd
        have hf : d ∈ (deltasSplit 0 (x.map (fun p => p.refs))).flatten :=
          List.mem_flatten.mpr ⟨r, hr, hd⟩
        rw [flatten_deltasSplit] at hf
        exact deltas_isInt64 _ _ d hf)
    hbl
  rw [← hbt, deltas_length, List.length_map] at hs
  exact hs

/-- C4 (amended) at the encoding of one pair: cut after three bytes `UnmarshalBunch`
panics, cut to the empty buffer it returns nil. -/
theorem C4_truncated_witness :
    WellTyped [⟨10, [50, 100]⟩] ∧
      MarshalBunch [⟨10, [50, 100]⟩] = .ok [1, 20, 2, 100, 100] ∧
      ([1, 20, 2] : List Nat) <+: [1, 20, 2, 100, 100] ∧
      ([1, 20, 2] : List Nat) ≠ [1, 20, 2, 100, 100] ∧
      (∃ e, UnmarshalBunch [1, 20, 2] = .error (.error e)) ∧
      ([] : List Nat) <+: [1, 20, 2, 100, 100] ∧
      ([] : List Nat) ≠ [1, 20, 2, 100, 100] ∧
      UnmarshalBunch [] = .ok none :=
  ⟨by decide, by decide, ⟨_, rfl⟩, by decide,
    (C4_truncated [⟨10, [50, 100]⟩] (by decide) [1, 20, 2, 100, 100] [1, 20, 2]
      (by decide) ⟨_, rfl⟩ (by decide)).2
      (by rw [List.length_singleton, uvarint_lt (by norm_num)]; decide),
    ⟨_, rfl⟩, by decide,
    (C4_truncated [⟨10, [50, 100]⟩] (by decide) [1, 20, 2, 100, 100] []
      (by decide) ⟨_, rfl⟩ (by decide)).1
      (by rw [List.length_singleton, uvarint_lt (by norm_num)]; decide)⟩

/-- C8: `MarshalBunch x` is exactly the concatenation of the unsigned varint of the number
of pairs, the zig-zag varints of the id differences (the first relative to 0), the unsigned
varints of the ref counts, and the zig-zag varints of the differences of all refs of all
pairs in order, the previous ref starting at 0 and not being reset between pairs
(differences wrap in int64).  Likewise `UnmarshalBunch`, on a buffer made of a count, id
deltas `ds`, the sizes of the groups `rs` and the ref deltas, returns pairs whose ids
are the running sums of `ds` and whose refs, taken together over all pairs, are the running
sums of all ref deltas: the sum is carried from one pair to the next. -/
theorem C8_layout (x : List IdRef) (ds : List Int) (rs : List (List Int))
    (hxn : x.length < 0x8000000000000000)
    (hxl : ∀ p ∈ x, p.refs.length < 0x8000000000000000)
    (hlen : rs.length = ds.length) (hn : ds.length < 0x8000000000000000)
    (hds : ∀ d ∈ ds, IsInt64 d)
    (hrs : ∀ r ∈ rs, r.length < 0x8000000000000000 ∧ ∀ d ∈ r, IsInt64 d) :
    MarshalBunch x = .ok
        (uvarint x.length
          ++ (deltas 0 (x.map (fun p => p.id))).flatMap varint
          ++ x.flatMap (fun p => uvarint p.refs.length)
          ++ (deltas 0 (x.flatMap (fun p => p.refs))).flatMap varint) ∧
      ∃ y, UnmarshalBunch (uvarint ds.length ++ ds.flatMap varint
            ++ rs.flatMap (fun r => uvarint r.length) ++ rs.flatten.flatMap varint)
          = .ok (some y) ∧
        y.map (fun p => p.id) = sums 0 ds ∧
        y.map (fun p => p.refs.length) = rs.map List.length ∧
        y.flatMap (fun p => p.refs) = sums 0 rs.flatten := by
  constructor
  · exact MarshalBunch_eq_layout x (by omega) (fun p hp => by have := hxl p hp; omega)
  · have hs := UnmarshalBunch_stream ds rs [] hlen (by omega) hds
      (fun r hr => ⟨by have := (hrs r hr).1; omega, (hrs r hr).2⟩)
    rw [List.append_nil] at hs
    have hl : (sums 0 ds).length = (sumsSplit 0 rs).length := by
      have := congrArg List.length (map_length_sumsSplit rs 0)
      simp only [List.length_map] at this
      rw [sums_length, this, hlen]
    refine ⟨_, hs, zipWith_mk_id _ _ hl, ?_, ?_⟩
    · have := congrArg (List.map List.length) (zipWith_mk_refs _ _ hl)
      rw [map_length_sumsSplit, List.map_map] at this
      exact this
    · rw [List.flatMap_def, zipWith_mk_refs _ _ hl, flatten_sumsSplit]

/-- C8 at two pairs, and at the delta stream of those two pairs. -/
theorem C8_layout_witness :
    ([⟨10, [50, 100]⟩, ⟨74, [200]⟩] : List IdRef).length < 0x8000000000000000 ∧
      (∀ p ∈ ([⟨10, [50, 100]⟩, ⟨74, [200]⟩] : List IdRef),
        p.refs.length < 0x8000000000000000) ∧
      ([[50, 50], [100]] : List (List Int)).length = ([10, 64] : List Int).length ∧
      ([10, 64] : List Int).length < 0x8000000000000000 ∧
      (∀ d ∈ ([10, 64] : List Int), IsInt64 d) ∧
      (∀ r ∈ ([[50, 50], [100]] : List (List Int)),
        r.length < 0x8000000000000000 ∧ ∀ d ∈ r, IsInt64 d) ∧
      (MarshalBunch [⟨10, [50, 100]⟩, ⟨74, [200]⟩] = .ok
        (uvarint ([⟨10, [50, 100]⟩, ⟨74, [200]⟩] : List IdRef).length
          ++ (deltas 0 (([⟨10, [50, 100]⟩, ⟨74, [200]⟩] : List IdRef).map
                (fun p => p.id))).flatMap varint
          ++ ([⟨10, [50, 100]⟩, ⟨74, [200]⟩] : List IdRef).flatMap
                (fun p => uvarint p.refs.length)
          ++ (deltas 0 (([⟨10, [50, 100]⟩, ⟨74, [200]⟩] : List IdRef).flatMap
                (fun p => p.refs))).flatMap varint) ∧
        ∃ y, UnmarshalBunch (uvarint ([10, 64] : List Int).length
              ++ ([10, 64] : List Int).flatMap varint
              ++ ([[50, 50], [100]] : List (List Int)).flatMap (fun r => uvarint r.length)
              ++ ([[50, 50], [100]] : List (List Int)).flatten.flatMap varint)
            = .ok (some y) ∧
          y.map (fun p => p.id) = sums 0 [10, 64] ∧
          y.map (fun p => p.refs.length) = ([[50, 50], [100]] : List (List Int)).map List.length ∧
          y.flatMap (fun p => p.refs) = sums 0 ([[50, 50], [100]] : List (List Int)).flatten) :=
  ⟨by decide, by decide, by decide, by decide, by decide, by decide,
    C8_layout [⟨10, [50, 100]⟩, ⟨74, [200]⟩] [10, 64] [[50, 50], [100]]
      (by decide) (by decide) (by decide) (by decide) (by decide) (by decide)⟩

theorem getBunchId_nonneg {id : Int} (h : 0 ≤ id) : getBunchId id = id / 64 := by
  unfold getBunchId
  exact Int.tdiv_eq_ediv h (by norm_num)

theorem getBunchId_neg {id : Int} (h : id < 0) : getBunchId id = -((-id) / 64) := by
  unfold getBunchId
  have h1 : Int.tdiv (-(-id)) 64 = -Int.tdiv (-id) 64 := Int.neg_tdiv (-id) 64
  rw [neg_neg] at h1
  rw [h1, Int.tdiv_eq_ediv (by omega) (by norm_num)]

/-- The ids that `getBunchId` sends to the partition `p`. -/
theorem getBunchId_eq_iff (id p : Int) :
    getBunchId id = p ↔
      (0 < p ∧ 64 * p ≤ id ∧ id ≤ 64 * p + 63) ∨
      (p = 0 ∧ -63 ≤ id ∧ id ≤ 63) ∨
      (p < 0 ∧ 64 * p - 63 ≤ id ∧ id ≤ 64 * p) := by
  rcases lt_or_le id 0 with h | h
  · rw [getBunchId_neg h]; omega
  · rw [getBunchId_nonneg h]; omega

/-- C5 (counterexample): partition 0 is not a run of exactly 64 consecutive ids, since the
ids -63 and 63 are both sent to it. -/
theorem C5_counterexample :
    ¬ ∀ p : Int, (∃ id, IsInt64 id ∧ getBunchId id = p) →
      ∃ a : Int, ∀ id, IsInt64 id → (getBunchId id = p ↔ a ≤ id ∧ id < a + 64) := by
  intro hall
  obtain ⟨a, ha⟩ := hall 0 ⟨0, by decide, by decide⟩
  have h1 := (ha (-63) (by decide)).mp (by decide)
  have h2 := (ha 63 (by decide)).mp (by decide)
  omega

/-- C5 (amended): `getBunchId` sends every id to exactly one partition id; the ids of a
partition `p > 0` are the 64 consecutive ids `64p .. 64p+63`, the ids of a partition
`p < 0` are the int64 ids among the 64 consecutive ids `64p-63 .. 64p` (the division
truncates toward zero), and partition 0 holds the 127 consecutive ids `-63 .. 63`. -/
theorem C5_partition (id p : Int) :
    (∃ q, getBunchId id = q ∧ ∀ r, getBunchId id = r → r = q) ∧
    (getBunchId id = p ↔
      (0 < p ∧ 64 * p ≤ id ∧ id < 64 * p + 64) ∨
      (p < 0 ∧ 64 * p - 63 ≤ id ∧ id < 64 * p - 63 + 64) ∨
      (p = 0 ∧ -63 ≤ id ∧ id < -63 + 127)) := by
  have h := getBunchId_eq_iff id p
  refine ⟨⟨getBunchId id, rfl, fun r hr => hr.symm⟩, ?_⟩
  rw [h]
  omega

/-- C5 (amended) at the id -100, which Go's division sends to partition -1. -/
theorem C5_partition_witness :
    (∃ q, getBunchId (-100) = q ∧ ∀ r, getBunchId (-100) = r → r = q) ∧
    (getBunchId (-100) = -1 ↔
      ((0 : Int) < -1 ∧ 64 * (-1) ≤ (-100 : Int) ∧ (-100 : Int) < 64 * (-1) + 64) ∨
      ((-1 : Int) < 0 ∧ 64 * (-1) - 63 ≤ (-100 : Int) ∧ (-100 : Int) < 64 * (-1) - 63 + 64) ∨
      ((-1 : Int) = 0 ∧ -63 ≤ (-100 : Int) ∧ (-100 : Int) < -63 + 127)) :=
  C5_partition (-100) (-1)

/-! ## Go maps as association lists -/

section maps
variable {κ β : Type} [DecidableEq κ]

theorem mapGet_mapSet (m : List (κ × β)) (k k1 : κ) (v : β) :
    mapGet (mapSet m k v) k1 = if k = k1 then some v else mapGet m k1 := by
  induction m with
  | nil => simp [mapSet, mapGet]
  | cons e m ih =>
    obtain ⟨a, b⟩ := e
    by_cases h : a = k
    · subst h
      by_cases h1 : a = k1 <;> simp [mapSet, mapGet, h1]
    · by_cases h1 : a = k1
      · subst h1
        simp [mapSet, mapGet, h, Ne.symm h]
      · simp [mapSet, mapGet, h, h1, ih]

theorem mapGet_mapSet_self (m : List (κ × β)) (k : κ) (v : β) :
    mapGet (mapSet m k v) k = some v := by
  rw [mapGet_mapSet, if_pos rfl]

theorem mapGet_mapSet_ne (m : List (κ × β)) {k k1 : κ} (v : β) (h : k ≠ k1) :
    mapGet (mapSet m k v) k1 = mapGet m k1 := by
  rw [mapGet_mapSet, if_neg h]

theorem mem_mapSet (m : List (κ × β)) (k : κ) (v : β) (e : κ × β) :
    e ∈ mapSet m k v → e = (k, v) ∨ e ∈ m := by
  induction m with
  | nil => simp [mapSet]
  | cons e1 m ih =>
    obtain ⟨a, b⟩ := e1
    by_cases h : a = k
    · simp only [mapSet, h, if_true, List.mem_cons]
      rintro (h1 | h1)
      · exact Or.inl h1
      · exact Or.inr (Or.inr h1)
    · simp only [mapSet, h, if_false, List.mem_cons]
      rintro (h1 | h1)
      · exact Or.inr (Or.inl h1)
      · rcases ih h1 with h2 | h2
        · exact Or.inl h2
        · exact Or.inr (Or.inr h2)

theorem mem_keys_mapSet (m : List (κ × β)) (k k1 : κ) (v : β) :
    k1 ∈ (mapSet m k v).map Prod.fst ↔ k1 = k ∨ k1 ∈ m.map Prod.fst := by
  induction m with
  | nil => simp [mapSet]
  | cons e1 m ih =>
    obtain ⟨a, b⟩ := e1
    by_cases h : a = k
    · subst h
      simp [mapSet]
    · simp only [mapSet, h, if_false, List.map_cons, List.mem_cons, ih]
      tauto

theorem nodup_keys_mapSet (m : List (κ × β)) (k : κ) (v : β)
    (h : (m.map Prod.fst).Nodup) : ((mapSet m k v).map Prod.fst).Nodup := by
  induction m with
  | nil => simp [mapSet]
  | cons e1 m ih =>
    obtain ⟨a, b⟩ := e1
    simp only [List.map_cons, List.nodup_cons] at h
    by_cases h1 : a = k
    · subst h1
      simpa [mapSet] using h
    · simp only [mapSet, h1, if_false, List.map_cons, List.nodup_cons, mem_keys_mapSet]
      exact ⟨by tauto, ih h.2⟩

theorem mapGet_eq_none_iff (m : List (κ × β)) (k : κ) :
    mapGet m k = none ↔ k ∉ m.map Prod.fst := by
  induction m with
  | nil => simp [mapGet]
  | cons e1 m ih =>
    obtain ⟨a, b⟩ := e1
    by_cases h : a = k
    · simp [mapGet, h]
    · simp [mapGet, h, ih, Ne.symm h]

theorem mem_of_mapGet (m : List (κ × β)) (k : κ) (v : β) (h : mapGet m k = some v) :
    (k, v) ∈ m := by
  induction m with
  | nil => simp [mapGet] at h
  | cons e1 m ih =>
    obtain ⟨a, b⟩ := e1
    by_cases h1 : a = k
    · subst h1
      simp only [mapGet, if_true, Option.some.injEq] at h
      simp [h]
    · simp only [mapGet, h1, if_false] at h
      exact List.mem_cons_of_mem _ (ih h)

theorem mapGet_of_mem (m : List (κ × β)) (k : κ) (v : β) (hn : (m.map Prod.fst).Nodup)
    (h : (k, v) ∈ m) : mapGet m k = some v := by
  induction m with
  | nil => simp at h
  | cons e1 m ih =>
    obtain ⟨a, b⟩ := e1
    simp only [List.map_cons, List.nodup_cons] at hn
    simp only [List.mem_cons, Prod.mk.injEq] at h
    rcases h with ⟨rfl, rfl⟩ | h
    · simp [mapGet]
    · have hne : a ≠ k := by
        rintro rfl
        exact hn.1 (List.mem_map_of_mem Prod.fst h)
      simp only [mapGet, hne, if_false]
      exact ih hn.2 h

theorem mapGet_eq_some_iff (m : List (κ × β)) (k : κ) (v : β) (hn : (m.map Prod.fst).Nodup) :
    mapGet m k = some v ↔ (k, v) ∈ m :=
  ⟨mem_of_mapGet m k v, mapGet_of_mem m k v hn⟩

theorem mapGet_perm {m1 m2 : List (κ × β)} (hp : m1.Perm m2) (hn : (m2.map Prod.fst).Nodup)
    (k : κ) : mapGet m1 k = mapGet m2 k := by
  have hn1 : (m1.map Prod.fst).Nodup := (hp.map Prod.fst).nodup_iff.mpr hn
  cases h2 : mapGet m2 k with
  | none =>
    rw [mapGet_eq_none_iff] at h2 ⊢
    intro hk
    exact h2 ((hp.map Prod.fst).mem_iff.mp hk)
  | some v =>
    rw [mapGet_eq_some_iff _ _ _ hn] at h2
    rw [mapGet_eq_some_iff _ _ _ hn1]
    exact hp.mem_iff.mpr h2

theorem length_mapSet_le (m : List (κ × β)) (k : κ) (v : β) :
    (mapSet m k v).length ≤ m.length + 1 := by
  induction m with
  | nil => simp [mapSet]
  | cons e1 m ih =>
    obtain ⟨a, b⟩ := e1
    by_cases h : a = k <;> simp [mapSet, h]
    omega

/-- Writing the entries of an association list with distinct keys into a map, one after
the other. -/
theorem mapGet_foldl_mapSet : ∀ (l b : List (κ × β)) (k : κ), (l.map Prod.fst).Nodup →
    mapGet (l.foldl (fun m e => mapSet m e.1 e.2) b) k =
      match mapGet l k with
      | some v => some v
      | none => mapGet b k
  | [], b, k, _ => by simp [mapGet]
  | (a, v) :: l, b, k, hn => by
    simp only [List.map_cons, List.nodup_cons] at hn
    rw [List.foldl_cons, mapGet_foldl_mapSet l _ k hn.2]
    by_cases h : a = k
    · subst h
      have : mapGet l a = none := (mapGet_eq_none_iff l a).mpr hn.1
      simp [this, mapGet, mapGet_mapSet_self]
    · simp [mapGet, h, mapGet_mapSet_ne _ _ h]

theorem nodup_keys_foldl_mapSet : ∀ (l b : List (κ × β)), (b.map Prod.fst).Nodup →
    ((l.foldl (fun m e => mapSet m e.1 e.2) b).map Prod.fst).Nodup
  | [], b, hb => by simpa using hb
  | e :: l, b, hb => by
    rw [List.foldl_cons]
    exact nodup_keys_foldl_mapSet l _ (nodup_keys_mapSet b e.1 e.2 hb)

theorem mem_foldl_mapSet : ∀ (l b : List (κ × β)) (e : κ × β),
    e ∈ l.foldl (fun m e => mapSet m e.1 e.2) b → e ∈ l ∨ e ∈ b
  | [], b, e, h => Or.inr (by simpa using h)
  | e1 :: l, b, e, h => by
    rw [List.foldl_cons] at h
    rcases mem_foldl_mapSet l _ e h with h1 | h1
    · exact Or.inl (List.mem_cons_of_mem _ h1)
    · rcases mem_mapSet b e1.1 e1.2 e h1 with h2 | h2
      · exact Or.inl (by rw [h2]; simp)
      · exact Or.inr h2

end maps

/-! ## The merge of `loadMergeMarshal` -/

theorem foldl_insert_spec {ins : List Int → Int → List Int} (hI : InsertContract ins) :
    ∀ (nr refs : List Int), refs.Sorted (· < ·) →
      (nr.foldl ins refs).Sorted (· < ·) ∧ ∀ v, v ∈ nr.foldl ins refs ↔ v ∈ refs ∨ v ∈ nr
  | [], refs, h => by simpa using h
  | r :: nr, refs, h => by
    obtain ⟨h1, h2⟩ := hI refs r h
    obtain ⟨h3, h4⟩ := foldl_insert_spec hI nr (ins refs r) h1
    refine ⟨by simpa using h3, fun v => ?_⟩
    rw [List.foldl_cons, h4, h2, List.mem_cons]
    tauto

theorem mergeBunch_get (deps : Deps) : ∀ (nl b : RefBunch) (id : Int),
    (nl.map Prod.fst).Nodup →
    mapGet (mergeBunch deps b nl) id =
      match mapGet nl id with
      | none => mapGet b id
      | some nr =>
        match mapGet b id with
        | none => some nr
        | some r => some (nr.foldl deps.insertRefs r)
  | [], b, id, _ => by simp [mergeBunch, mapGet]
  | (a, nr) :: nl, b, id, hn => by
    simp only [List.map_cons, List.nodup_cons] at hn
    have ih := mergeBunch_get deps nl (mergeEntry deps b (a, nr)) id hn.2
    simp only [mergeBunch, List.foldl_cons] at ih ⊢
    rw [ih]
    by_cases h : a = id
    · subst h
      have hnone : mapGet nl a = none := (mapGet_eq_none_iff nl a).mpr hn.1
      simp only [hnone, mapGet, if_true, mergeEntry]
      cases hb : mapGet b a with
      | none => simp [mapGet_mapSet_self]
      | some r => simp [mapGet_mapSet_self]
    · have hme : mapGet (mergeEntry deps b (a, nr)) id = mapGet b id := by
        simp only [mergeEntry]
        cases hb : mapGet b a with
        | none => simp [mapGet_mapSet_ne _ _ h]
        | some r => simp [mapGet_mapSet_ne _ _ h]
      simp only [mapGet, h, if_false, hme]

theorem nodup_keys_mergeBunch (deps : Deps) : ∀ (nl b : RefBunch),
    (b.map Prod.fst).Nodup → ((mergeBunch deps b nl).map Prod.fst).Nodup
  | [], b, hb => by simpa [mergeBunch] using hb
  | e :: nl, b, hb => by
    have h1 : ((mergeEntry deps b e).map Prod.fst).Nodup := by
      simp only [mergeEntry]
      cases mapGet b e.1 with
      | none => exact nodup_keys_mapSet _ _ _ hb
      | some r => exact nodup_keys_mapSet _ _ _ hb
    have := nodup_keys_mergeBunch deps nl _ h1
    simpa [mergeBunch] using this

/-- The map that `loadBunch` builds from decoded pairs. -/
theorem loadBunch_some (d : List Nat) (l : List IdRef) (h : UnmarshalBunch d = .ok (some l)) :
    loadBunch (some d) =
      .ok ((l.map (fun p => (p.id, p.refs))).foldl (fun m e => mapSet m e.1 e.2) []) := by
  simp only [loadBunch, h, List.foldl_map]

/-! ## The modelled `insertRefs` meets its contract -/

theorem insertRefs_mem : ∀ (refs : List Int) (ref v : Int),
    v ∈ insertRefs refs ref ↔ v ∈ refs ∨ v = ref
  | [], ref, v => by simp [insertRefs]
  | r :: refs, ref, v => by
    unfold insertRefs
    split
    · simp only [List.mem_cons]; tauto
    · split
      · rename_i h
        subst h
        simp only [List.mem_cons]; tauto
      · simp only [List.mem_cons, insertRefs_mem refs ref v]; tauto

theorem insertRefs_contract : InsertContract insertRefs := by
  intro refs ref hs
  refine ⟨?_, insertRefs_mem refs ref⟩
  induction refs with
  | nil => simp [insertRefs]
  | cons r refs ih =>
    have hs2 := List.sorted_cons.mp hs
    unfold insertRefs
    split
    · rename_i hlt
      refine List.sorted_cons.mpr ⟨?_, hs⟩
      intro b hb
      rcases List.mem_cons.mp hb with rfl | hb
      · exact hlt
      · exact lt_trans hlt (hs2.1 b hb)
    · split
      · exact hs
      · rename_i h1 h2
        refine List.sorted_cons.mpr ⟨?_, ih hs2.2⟩
        intro b hb
        rcases (insertRefs_mem refs ref b).mp hb with hb | rfl
        · exact hs2.1 b hb
        · omega

theorem inOrder_valid : Sched.inOrder.Valid :=
  ⟨fun _ => List.Perm.refl _, fun _ _ => List.Perm.refl _, fun _ _ => List.Perm.refl _⟩

/-! ## The hot cache invariant -/

theorem CacheOK_nil (recs : List (Int × Int)) : CacheOK recs [] := by
  simp [CacheOK]

theorem addToCache_ok (deps : Deps) (hI : InsertContract deps.insertRefs)
    (recs : List (Int × Int)) (cache : bunchCache) (id ref : Int) (h : CacheOK recs cache) :
    CacheOK (recs ++ [(id, ref)]) (addToCache deps cache id ref) := by
  obtain ⟨hn, he⟩ := h
  -- the bunch of the partition, before the call
  have hbunch : (((mapGet cache (getBunchId id)).getD []).map Prod.fst).Nodup ∧
      ∀ x ∈ (mapGet cache (getBunchId id)).getD [], x.1 ∈ recs.map Prod.fst ∧
        x.2.Sorted (· < ·) ∧ ∀ v ∈ x.2, v ∈ recs.map Prod.snd := by
    cases hg : mapGet cache (getBunchId id) with
    | none => simp
    | some b => exact he _ (mem_of_mapGet _ _ _ hg)
  have hrefs : ((mapGet ((mapGet cache (getBunchId id)).getD []) id).getD []).Sorted (· < ·) ∧
      ∀ v ∈ (mapGet ((mapGet cache (getBunchId id)).getD []) id).getD [],
        v ∈ recs.map Prod.snd := by
    cases hg : mapGet ((mapGet cache (getBunchId id)).getD []) id with
    | none => simp
    | some r =>
      have := hbunch.2 _ (mem_of_mapGet _ _ _ hg)
      exact ⟨this.2.1, this.2.2⟩
  obtain ⟨hs1, hs2⟩ := hI _ ref hrefs.1
  refine ⟨nodup_keys_mapSet _ _ _ hn, ?_⟩
  intro e hmem
  rcases mem_mapSet _ _ _ _ hmem with rfl | hold
  · refine ⟨nodup_keys_mapSet _ _ _ hbunch.1, ?_⟩
    intro x hx
    rcases mem_mapSet _ _ _ _ hx with rfl | hxo
    · refine ⟨by simp, hs1, ?_⟩
      intro v hv
      rcases (hs2 v).mp hv with hv | rfl
      · have := hrefs.2 v hv
        simp only [List.map_append, List.mem_append]
        exact Or.inl this
      · simp
    · obtain ⟨h1, h2, h3⟩ := hbunch.2 x hxo
      refine ⟨by simp only [List.map_append, List.mem_append]; exact Or.inl h1, h2, ?_⟩
      intro v hv
      simp only [List.map_append, List.mem_append]
      exact Or.inl (h3 v hv)
  · obtain ⟨h0, hx⟩ := he e hold
    refine ⟨h0, ?_⟩
    intro x hxm
    obtain ⟨h1, h2, h3⟩ := hx x hxm
    refine ⟨by simp only [List.map_append, List.mem_append]; exact Or.inl h1, h2, ?_⟩
    intro v hv
    simp only [List.map_append, List.mem_append]
    exact Or.inl (h3 v hv)

theorem foldl_addToCache_ok (deps : Deps) (hI : InsertContract deps.insertRefs) :
    ∀ (records recs : List (Int × Int)) (cache : bunchCache), CacheOK recs cache →
      CacheOK (recs ++ records)
        (records.foldl (fun cache r => addToCache deps cache r.1 r.2) cache)
  | [], recs, cache, h => by simpa using h
  | r :: records, recs, cache, h => by
    have h1 := addToCache_ok deps hI recs cache r.1 r.2 h
    have h2 := foldl_addToCache_ok deps hI records (recs ++ [(r.1, r.2)]) _ h1
    simpa using h2

theorem hotCache_ok (deps : Deps) (hI : InsertContract deps.insertRefs)
    (records : List (Int × Int)) : CacheOK records (hotCache deps records) := by
  have := foldl_addToCache_ok deps hI records [] [] (CacheOK_nil [])
  simpa [hotCache] using this

theorem exists_entry_iff {m : RefBunch} (hn : (m.map Prod.fst).Nodup) (id v : Int) :
    (∃ e ∈ m, e.1 = id ∧ v ∈ e.2) ↔ ∃ r, mapGet m id = some r ∧ v ∈ r := by
  constructor
  · rintro ⟨⟨a, r⟩, he, rfl, hv⟩
    exact ⟨r, mapGet_of_mem m a r hn he, hv⟩
  · rintro ⟨r, hr, hv⟩
    exact ⟨(id, r), mem_of_mapGet m id r hr, rfl, hv⟩

theorem exists_pair_iff (l : List IdRef) (id v : Int) :
    (∃ p ∈ l, p.id = id ∧ v ∈ p.refs) ↔
      ∃ e ∈ l.map (fun p => (p.id, p.refs)), e.1 = id ∧ v ∈ e.2 := by
  constructor
  · rintro ⟨p, hp, h1, h2⟩
    exact ⟨(p.id, p.refs), List.mem_map_of_mem _ hp, h1, h2⟩
  · rintro ⟨e, he, h1, h2⟩
    obtain ⟨p, hp, rfl⟩ := List.mem_map.mp he
    exact ⟨p, hp, h1, h2⟩

/-- The merged bunch of `loadMerge` in terms of the decoded pairs and the new bunch. -/
theorem loadMerge_spec (deps : Deps) (s : Sched) (db : DB) (keyBuf : List Nat)
    (persisted : List IdRef) (newBunch : RefBunch) (hs : s.Valid)
    (hdb : (db.Get keyBuf = .ok none ∧ persisted = []) ∨
      ∃ d, db.Get keyBuf = .ok (some d) ∧ UnmarshalBunch d = .ok (some persisted))
    (hpn : (persisted.map (fun p => p.id)).Nodup)
    (hnn : (newBunch.map Prod.fst).Nodup) :
    ∃ bunch, loadMerge deps s db keyBuf newBunch = .ok bunch ∧
      (bunch.map Prod.fst).Nodup ∧
      ∀ id, mapGet bunch id =
        match mapGet newBunch id with
        | none => mapGet (persisted.map (fun p => (p.id, p.refs))) id
        | some nr =>
          match mapGet (persisted.map (fun p => (p.id, p.refs))) id with
          | none => some nr
          | some r => some (nr.foldl deps.insertRefs r) := by
  have hL : ((persisted.map (fun p => (p.id, p.refs))).map Prod.fst).Nodup := by
    rw [List.map_map]; exact hpn
  have hload : ∃ data, db.Get keyBuf = .ok data ∧ loadBunch data =
      .ok ((persisted.map (fun p => (p.id, p.refs))).foldl
        (fun m e => mapSet m e.1 e.2) []) := by
    rcases hdb with ⟨h1, h2⟩ | ⟨d, h1, h2⟩
    · exact ⟨none, h1, by subst h2; rfl⟩
    · exact ⟨some d, h1, loadBunch_some d persisted h2⟩
  obtain ⟨data, hget, hlb⟩ := hload
  have hperm := hs.2.1 keyBuf newBunch
  have hnl : ((s.rangeNew keyBuf newBunch).map Prod.fst).Nodup :=
    (hperm.map Prod.fst).nodup_iff.mpr hnn
  refine ⟨mergeBunch deps ((persisted.map (fun p => (p.id, p.refs))).foldl
      (fun m e => mapSet m e.1 e.2) []) (s.rangeNew keyBuf newBunch),
    by simp only [loadMerge, hget, hlb], ?_, ?_⟩
  · exact nodup_keys_mergeBunch deps _ _ (nodup_keys_foldl_mapSet _ _ (by simp))
  · intro id
    rw [mergeBunch_get deps _ _ id hnl, mapGet_perm hperm hnn,
      mapGet_foldl_mapSet _ _ id hL]
    cases mapGet (persisted.map (fun p => (p.id, p.refs))) id <;>
      cases mapGet newBunch id <;> simp [mapGet]

/-- C3: with `insertRefs` meeting the sorted-unique insert contract, a persisted record that
is absent or decodes to pairs with distinct ids and strictly ascending ref lists, and a new
bunch with strictly ascending ref lists, the merged bunch that `loadMergeMarshal` builds
before encoding maps every id present in either input to a strictly ascending list whose
values are exactly the persisted refs and the new refs of that id, and has no other id. -/
theorem C3_merge_union (deps : Deps) (s : Sched) (db : DB) (keyBuf : List Nat)
    (persisted : List IdRef) (newBunch : RefBunch)
    (hI : InsertContract deps.insertRefs) (hs : s.Valid)
    (hdb : (db.Get keyBuf = .ok none ∧ persisted = []) ∨
      ∃ d, db.Get keyBuf = .ok (some d) ∧ UnmarshalBunch d = .ok (some persisted))
    (hpn : (persisted.map (fun p => p.id)).Nodup)
    (hps : ∀ p ∈ persisted, p.refs.Sorted (· < ·))
    (hnn : (newBunch.map Prod.fst).Nodup)
    (hns : ∀ e ∈ newBunch, e.2.Sorted (· < ·)) :
    ∃ bunch, loadMerge deps s db keyBuf newBunch = .ok bunch ∧
      (bunch.map Prod.fst).Nodup ∧
      ∀ id,
        ((id ∈ persisted.map (fun p => p.id) ∨ id ∈ newBunch.map Prod.fst) →
          ∃ refs, mapGet bunch id = some refs ∧ refs.Sorted (· < ·) ∧
            ∀ v, v ∈ refs ↔ (∃ p ∈ persisted, p.id = id ∧ v ∈ p.refs) ∨
              (∃ e ∈ newBunch, e.1 = id ∧ v ∈ e.2)) ∧
        ((id ∉ persisted.map (fun p => p.id) ∧ id ∉ newBunch.map Prod.fst) →
          mapGet bunch id = none) := by
  obtain ⟨bunch, hb, hnd, hget⟩ := loadMerge_spec deps s db keyBuf persisted newBunch hs hdb
    hpn hnn
  have hL : ((persisted.map (fun p => (p.id, p.refs))).map Prod.fst).Nodup := by
    rw [List.map_map]; exact hpn
  have hkeys : (persisted.map (fun p => (p.id, p.refs))).map Prod.fst
      = persisted.map (fun p => p.id) := by
    rw [List.map_map]; rfl
  have hsortP : ∀ id r, mapGet (persisted.map (fun p => (p.id, p.refs))) id = some r →
      r.Sorted (· < ·) := by
    intro id r h
    obtain ⟨p, hp, he⟩ := List.mem_map.mp (mem_of_mapGet _ _ _ h)
    have : p.refs = r := by injection he
    rw [← this]
    exact hps p hp
  have hsortN : ∀ id r, mapGet newBunch id = some r → r.Sorted (· < ·) :=
    fun id r h => hns (id, r) (mem_of_mapGet _ _ _ h)
  refine ⟨bunch, hb, hnd, fun id => ⟨?_, ?_⟩⟩
  · intro _
    have hg := hget id
    simp only [exists_pair_iff, exists_entry_iff hL, exists_entry_iff hnn]
    cases hN : mapGet newBunch id with
    | none =>
      cases hP : mapGet (persisted.map (fun p => (p.id, p.refs))) id with
      | none =>
        exfalso
        rw [mapGet_eq_none_iff] at hN hP
        rw [hkeys] at hP
        tauto
      | some r =>
        rw [hN, hP] at hg
        exact ⟨r, hg, hsortP id r hP, fun v => by simp⟩
    | some nr =>
      cases hP : mapGet (persisted.map (fun p => (p.id, p.refs))) id with
      | none =>
        rw [hN, hP] at hg
        exact ⟨nr, hg, hsortN id nr hN, fun v => by simp⟩
      | some r =>
        rw [hN, hP] at hg
        obtain ⟨h1, h2⟩ := foldl_insert_spec hI nr r (hsortP id r hP)
        exact ⟨_, hg, h1, fun v => by simp [h2]⟩
  · rintro ⟨h1, h2⟩
    rw [← hkeys, ← mapGet_eq_none_iff] at h1
    rw [← mapGet_eq_none_iff] at h2
    rw [hget id, h2, h1]

/-- C3 at a persisted record with the refs 50 and 100 for id 10, and a new bunch with the
ref 70 for id 10 and the ref 5 for id 11. -/
theorem C3_merge_union_witness :
    InsertContract (Deps.model 4).insertRefs ∧ Sched.inOrder.Valid ∧
    (((DB.ofData [(idToKeyBuf 0, [1, 20, 2, 100, 100])]).Get (idToKeyBuf 0) = .ok none ∧
        ([⟨10, [50, 100]⟩] : List IdRef) = []) ∨
      ∃ d, (DB.ofData [(idToKeyBuf 0, [1, 20, 2, 100, 100])]).Get (idToKeyBuf 0)
          = .ok (some d) ∧ UnmarshalBunch d = .ok (some [⟨10, [50, 100]⟩])) ∧
    (([⟨10, [50, 100]⟩] : List IdRef).map (fun p => p.id)).Nodup ∧
    (∀ p ∈ ([⟨10, [50, 100]⟩] : List IdRef), p.refs.Sorted (· < ·)) ∧
    ((([(10, [70]), (11, [5])] : RefBunch)).map Prod.fst).Nodup ∧
    (∀ e ∈ ([(10, [70]), (11, [5])] : RefBunch), e.2.Sorted (· < ·)) ∧
    ∃ bunch, loadMerge (Deps.model 4) Sched.inOrder
        (DB.ofData [(idToKeyBuf 0, [1, 20, 2, 100, 100])]) (idToKeyBuf 0)
        [(10, [70]), (11, [5])] = .ok bunch ∧
      (bunch.map Prod.fst).Nodup ∧
      ∀ id,
        ((id ∈ ([⟨10, [50, 100]⟩] : List IdRef).map (fun p => p.id) ∨
            id ∈ ([(10, [70]), (11, [5])] : RefBunch).map Prod.fst) →
          ∃ refs, mapGet bunch id = some refs ∧ refs.Sorted (· < ·) ∧
            ∀ v, v ∈ refs ↔ (∃ p ∈ ([⟨10, [50, 100]⟩] : List IdRef), p.id = id ∧ v ∈ p.refs) ∨
              (∃ e ∈ ([(10, [70]), (11, [5])] : RefBunch), e.1 = id ∧ v ∈ e.2)) ∧
        ((id ∉ ([⟨10, [50, 100]⟩] : List IdRef).map (fun p => p.id) ∧
            id ∉ ([(10, [70]), (11, [5])] : RefBunch).map Prod.fst) →
          mapGet bunch id = none) :=
  ⟨insertRefs_contract, inOrder_valid, Or.inr ⟨_, rfl, by decide⟩, by decide, by decide,
    by decide, by decide,
    C3_merge_union (Deps.model 4) Sched.inOrder
      (DB.ofData [(idToKeyBuf 0, [1, 20, 2, 100, 100])]) (idToKeyBuf 0)
      [⟨10, [50, 100]⟩] [(10, [70]), (11, [5])] insertRefs_contract inOrder_valid
      (Or.inr ⟨_, rfl, by decide⟩) (by decide) (by decide) (by decide) (by decide)⟩

/-! ## The store invariant is kept by a flush -/

theorem EntryOK_mono {hist : List (Int × Int)} (records : List (Int × Int)) {id : Int}
    {refs : List Int} (h : EntryOK hist id refs) : EntryOK (hist ++ records) id refs := by
  obtain ⟨h1, h2, h3⟩ := h
  refine ⟨?_, h2, ?_⟩
  · rcases h1 with h1 | h1
    · exact Or.inl h1
    · exact Or.inr (by simp only [List.map_append, List.mem_append]; exact Or.inl h1)
  · intro v hv
    simp only [List.map_append, List.mem_append]
    exact Or.inl (h3 v hv)

theorem EntryOK_new (hist : List (Int × Int)) {records : List (Int × Int)} {id : Int}
    {refs : List Int} (h1 : id ∈ records.map Prod.fst) (h2 : refs.Sorted (· < ·))
    (h3 : ∀ v ∈ refs, v ∈ records.map Prod.snd) : EntryOK (hist ++ records) id refs := by
  refine ⟨Or.inr ?_, h2, ?_⟩
  · simp only [List.map_append, List.mem_append]; exact Or.inr h1
  · intro v hv
    simp only [List.map_append, List.mem_append]
    exact Or.inr (h3 v hv)

theorem GoodPairs_mono {hist : List (Int × Int)} (records : List (Int × Int))
    {l : List IdRef} (h : GoodPairs hist l) : GoodPairs (hist ++ records) l := by
  refine ⟨?_, fun p hp => EntryOK_mono records (h.2 p hp)⟩
  have := h.1
  simp only [List.length_append]
  omega

theorem length_le_of_nodup_subset {α : Type} {l1 l2 : List α} (hn : l1.Nodup)
    (hs : ∀ a ∈ l1, a ∈ l2) : l1.length ≤ l2.length :=
  (hn.subperm hs).length_le

theorem GoodPairs_wellTyped {hist : List (Int × Int)} {l : List IdRef}
    (h : GoodPairs hist l) (hint : ∀ r ∈ hist, IsInt64 r.1 ∧ IsInt64 r.2)
    (hb : 2 * (hist.length + 1) < 0x8000000000000000) : WellTyped l := by
  refine ⟨by have := h.1; omega, ?_⟩
  intro p hp
  obtain ⟨h1, h2, h3⟩ := h.2 p hp
  refine ⟨?_, ?_, ?_⟩
  · rcases h1 with h1 | h1
    · rw [h1]; decide
    · obtain ⟨r, hr, hre⟩ := List.mem_map.mp h1
      rw [← hre]; exact (hint r hr).1
  · have := length_le_of_nodup_subset h2.nodup h3
    simp only [List.length_map] at this
    omega
  · intro v hv
    obtain ⟨r, hr, hre⟩ := List.mem_map.mp (h3 v hv)
    rw [← hre]; exact (hint r hr).2

/-- The map that `loadMergeMarshal` builds from the record of a key of a good store. -/
theorem loadBunch_good {hist : List (Int × Int)} {data : List (List Nat × List Nat)}
    (hstore : StoreOK hist data) (hint : ∀ r ∈ hist, IsInt64 r.1 ∧ IsInt64 r.2)
    (hb : 2 * (hist.length + 1) < 0x8000000000000000) (key : List Nat) :
    ∃ b0, loadBunch (mapGet data key) = .ok b0 ∧ (b0.map Prod.fst).Nodup ∧
      ∀ x ∈ b0, EntryOK hist x.1 x.2 := by
  cases hg : mapGet data key with
  | none => exact ⟨[], rfl, by simp, by simp⟩
  | some d =>
    obtain ⟨l, hl, hd⟩ := hstore _ (mem_of_mapGet _ _ _ hg)
    simp only at hd
    have hu := UnmarshalBunch_layout l (GoodPairs_wellTyped hl hint hb) []
    rw [List.append_nil, ← hd] at hu
    refine ⟨_, loadBunch_some d l hu, nodup_keys_foldl_mapSet _ _ (by simp), ?_⟩
    intro x hx
    rcases mem_foldl_mapSet _ _ _ hx with h1 | h1
    · obtain ⟨p, hp, rfl⟩ := List.mem_map.mp h1
      exact hl.2 p hp
    · simp at h1

theorem mergeBunch_good (deps : Deps) (hI : InsertContract deps.insertRefs)
    {hist records : List (Int × Int)} {b0 nl : RefBunch}
    (hb0n : (b0.map Prod.fst).Nodup) (hb0 : ∀ x ∈ b0, EntryOK hist x.1 x.2)
    (hnln : (nl.map Prod.fst).Nodup)
    (hnl : ∀ x ∈ nl, x.1 ∈ records.map Prod.fst ∧ x.2.Sorted (· < ·) ∧
      ∀ v ∈ x.2, v ∈ records.map Prod.snd) :
    ((mergeBunch deps b0 nl).map Prod.fst).Nodup ∧
      ∀ x ∈ mergeBunch deps b0 nl, EntryOK (hist ++ records) x.1 x.2 := by
  have hnd := nodup_keys_mergeBunch deps nl b0 hb0n
  refine ⟨hnd, ?_⟩
  rintro ⟨id, refs⟩ hx
  have hg := mapGet_of_mem _ _ _ hnd hx
  rw [mergeBunch_get deps nl b0 id hnln] at hg
  simp only
  cases hN : mapGet nl id with
  | none =>
    rw [hN] at hg
    exact EntryOK_mono records (hb0 _ (mem_of_mapGet _ _ _ hg))
  | some nr =>
    obtain ⟨n1, n2, n3⟩ := hnl _ (mem_of_mapGet _ _ _ hN)
    cases hP : mapGet b0 id with
    | none =>
      rw [hN, hP] at hg
      simp only [Option.some.injEq] at hg
      subst hg
      exact EntryOK_new hist n1 n2 n3
    | some r =>
      rw [hN, hP] at hg
      simp only [Option.some.injEq] at hg
      subst hg
      obtain ⟨p1, p2, p3⟩ := hb0 _ (mem_of_mapGet _ _ _ hP)
      obtain ⟨f1, f2⟩ := foldl_insert_spec hI nr r p2
      refine ⟨Or.inr ?_, f1, ?_⟩
      · simp only [List.map_append, List.mem_append]; exact Or.inr n1
      · intro v hv
        simp only [List.map_append, List.mem_append]
        rcases (f2 v).mp hv with hv | hv
        · exact Or.inl (p3 v hv)
        · exact Or.inr (n3 v hv)

theorem bunchListOf_good (s : Sched) (hs : s.Valid) (key : List Nat)
    {hist : List (Int × Int)} {bunch : RefBunch} (hn : (bunch.map Prod.fst).Nodup)
    (he : ∀ x ∈ bunch, EntryOK hist x.1 x.2) : GoodPairs hist (bunchListOf s key bunch) := by
  have hperm := hs.2.2 key bunch
  constructor
  · have hlen : bunch.length ≤ hist.length + 1 := by
      have := @length_le_of_nodup_subset Int (bunch.map Prod.fst) (0 :: hist.map Prod.fst) hn (by
        intro a ha
        obtain ⟨x, hx, rfl⟩ := List.mem_map.mp ha
        rcases (he x hx).1 with h | h
        · simp [h]
        · exact List.mem_cons_of_mem _ h)
      simpa using this
    simp only [bunchListOf, List.length_append, List.length_replicate, List.length_map,
      hperm.length_eq]
    omega
  · intro p hp
    simp only [bunchListOf, List.mem_append, List.mem_map] at hp
    rcases hp with hp | ⟨x, hx, rfl⟩
    · have := List.eq_of_mem_replicate hp
      subst this
      exact ⟨Or.inl rfl, by simp, by simp⟩
    · exact he x (hperm.mem_iff.mp hx)

theorem DB_Get_ok {db : DB} {key : List Nat} {data : Option (List Nat)}
    (h : db.Get key = .ok data) : data = mapGet db.data key := by
  unfold DB.Get at h
  split at h
  · cases h
  · injection h with h; exact h.symm

theorem loadMergeMarshal_good (deps : Deps) (hI : InsertContract deps.insertRefs)
    (s : Sched) (hs : s.Valid) (db : DB) {hist records : List (Int × Int)}
    (hstore : StoreOK hist db.data)
    (hint : ∀ r ∈ hist ++ records, IsInt64 r.1 ∧ IsInt64 r.2)
    (hb : 2 * ((hist ++ records).length + 1) < 0x8000000000000000)
    (key : List Nat) (newBunch : RefBunch) (hnn : (newBunch.map Prod.fst).Nodup)
    (hne : ∀ x ∈ newBunch, x.1 ∈ records.map Prod.fst ∧ x.2.Sorted (· < ·) ∧
      ∀ v ∈ x.2, v ∈ records.map Prod.snd)
    (out : List Nat) (hout : loadMergeMarshal deps s db key newBunch = .ok out) :
    ∃ l, GoodPairs (hist ++ records) l ∧ out = encodeLayout l := by
  have hb1 : 2 * (hist.length + 1) < 0x8000000000000000 := by
    simp only [List.length_append] at hb; omega
  have hint1 : ∀ r ∈ hist, IsInt64 r.1 ∧ IsInt64 r.2 :=
    fun r hr => hint r (List.mem_append_left _ hr)
  simp only [loadMergeMarshal, loadMerge] at hout
  cases hg : db.Get key with
  | error e => rw [hg] at hout; cases hout
  | ok data =>
    rw [hg] at hout
    have hdata := DB_Get_ok hg
    subst hdata
    obtain ⟨b0, hb0, hb0n, hb0e⟩ := loadBunch_good hstore hint1 hb1 key
    simp only [hb0] at hout
    have hperm := hs.2.1 key newBunch
    obtain ⟨hmn, hme⟩ := @mergeBunch_good deps hI hist records _ _ hb0n hb0e
      ((hperm.map Prod.fst).nodup_iff.mpr hnn) (fun x hx => hne x (hperm.mem_iff.mp hx))
    have hgood := bunchListOf_good s hs key hmn hme
    have hwt := GoodPairs_wellTyped hgood hint hb
    have hlay := MarshalBunch_eq_layout
      (bunchListOf s key (mergeBunch deps b0 (s.rangeNew key newBunch)))
      (by have := hwt.1; omega)
      (fun p hp => by have := (hwt.2 p hp).2.1; omega)
    rw [hlay] at hout
    injection hout with hout
    exact ⟨_, hgood, hout.symm⟩

theorem collectPuts_good (deps : Deps) (hI : InsertContract deps.insertRefs)
    (s : Sched) (hs : s.Valid) (db : DB) {hist records : List (Int × Int)}
    (hstore : StoreOK hist db.data)
    (hint : ∀ r ∈ hist ++ records, IsInt64 r.1 ∧ IsInt64 r.2)
    (hb : 2 * ((hist ++ records).length + 1) < 0x8000000000000000) :
    ∀ (items : List (Int × RefBunch)) (batch : List (List Nat × List Nat)),
      (∀ e ∈ items, (e.2.map Prod.fst).Nodup ∧
        ∀ x ∈ e.2, x.1 ∈ records.map Prod.fst ∧ x.2.Sorted (· < ·) ∧
          ∀ v ∈ x.2, v ∈ records.map Prod.snd) →
      collectPuts deps s db items = .ok batch →
      ∀ kv ∈ batch, ∃ l, GoodPairs (hist ++ records) l ∧ kv.2 = encodeLayout l
  | [], batch, _, hc => by
    simp only [collectPuts] at hc
    injection hc with hc
    subst hc
    simp
  | item :: items, batch, hit, hc => by
    simp only [collectPuts] at hc
    cases h1 : loadMergeMarshal deps s db (deps.idToKeyBuf item.1) item.2 with
    | error p => rw [h1] at hc; cases hc
    | ok out =>
      rw [h1] at hc
      simp only at hc
      cases h2 : collectPuts deps s db items with
      | error p => rw [h2] at hc; cases hc
      | ok rest =>
        rw [h2] at hc
        simp only at hc
        injection hc with hc
        subst hc
        intro kv hkv
        rcases List.mem_cons.mp hkv with rfl | hkv
        · exact loadMergeMarshal_good deps hI s hs db hstore hint hb _ item.2
            (hit item (by simp)).1 (hit item (by simp)).2 out h1
        · exact collectPuts_good deps hI s hs db hstore hint hb items rest
            (fun e he => hit e (List.mem_cons_of_mem _ he)) h2 kv hkv

/-- The invariant of the store after a completed flush. -/
theorem writeRefs_good (deps : Deps) (hI : InsertContract deps.insertRefs)
    (s : Sched) (hs : s.Valid) (db db1 : DB) {hist records : List (Int × Int)}
    (hstore : StoreOK hist db.data)
    (hint : ∀ r ∈ hist ++ records, IsInt64 r.1 ∧ IsInt64 r.2)
    (hb : 2 * ((hist ++ records).length + 1) < 0x8000000000000000)
    (hw : writeRefs deps s db (hotCache deps records) = .ok (none, db1)) :
    StoreOK (hist ++ records) db1.data := by
  simp only [writeRefs] at hw
  cases hc : collectPuts deps s db (s.rangeCache (hotCache deps records)) with
  | error p => rw [hc] at hw; cases hw
  | ok batch =>
    rw [hc] at hw
    simp only at hw
    injection hw with hw
    have hcache := hotCache_ok deps hI records
    have hbatch := collectPuts_good deps hI s hs db hstore hint hb _ batch
      (fun e he => hcache.2 e ((hs.1 _).mem_iff.mp he)) hc
    unfold DB.Write at hw
    split at hw
    · simp at hw
    · simp only [Prod.mk.injEq, true_and] at hw
      subst hw
      intro e he
      simp only at he
      rcases mem_foldl_mapSet _ _ _ he with h1 | h1
      · exact hbatch e h1
      · obtain ⟨l, hl, hle⟩ := hstore e h1
        exact ⟨l, GoodPairs_mono records hl, hle⟩

/-- Every store reached by completed flushes satisfies the store invariant, and the
recorded pairs are int64 values. -/
theorem Reach_good (deps : Deps) (hI : InsertContract deps.insertRefs)
    {hist : List (Int × Int)} {db : DB} (hR : Reach deps hist db) :
    2 * (hist.length + 1) < 0x8000000000000000 →
      StoreOK hist db.data ∧ ∀ r ∈ hist, IsInt64 r.1 ∧ IsInt64 r.2 := by
  induction hR with
  | empty db h =>
    intro _
    refine ⟨?_, by simp⟩
    intro e he
    rw [h] at he
    simp at he
  | flush hist records s db db0 db1 hr hd hs hrec hw ih =>
    intro hb
    have hb1 : 2 * (hist.length + 1) < 0x8000000000000000 := by
      simp only [List.length_append] at hb; omega
    obtain ⟨ih1, ih2⟩ := ih hb1
    have hint : ∀ r ∈ hist ++ records, IsInt64 r.1 ∧ IsInt64 r.2 := by
      intro r hr
      rcases List.mem_append.mp hr with h | h
      · exact ih2 r h
      · exact hrec r h
    refine ⟨?_, hint⟩
    exact writeRefs_good deps hI s hs db0 db1 (by rw [hd]; exact ih1) hint hb hw

/-- C9: on every store reached from an empty store by completed flushes (with
`insertRefs` meeting the sorted-unique insert contract and pair lists that fit Go's
`int`), `Get(id)` returns when the store read succeeds, and the list it returns, when it
is not the nil result, is strictly ascending, so without a repeated value. -/
theorem C9_get_sorted (deps : Deps) (hist : List (Int × Int)) (db : DB) (id : Int)
    (hI : InsertContract deps.insertRefs) (hR : Reach deps hist db)
    (hb : 2 * (hist.length + 1) < 0x8000000000000000)
    (hread : db.getFails (deps.idToKeyBuf (getBunchId id)) = false) :
    ∃ r, Get deps db id = .ok r ∧ ∀ refs, r = some refs → refs.Sorted (· < ·) := by
  obtain ⟨hstore, hint⟩ := Reach_good deps hI hR hb
  simp only [Get, DB.Get, hread]
  cases hg : mapGet db.data (deps.idToKeyBuf (getBunchId id)) with
  | none => exact ⟨none, rfl, by simp⟩
  | some d =>
    obtain ⟨l, hl, hd⟩ := hstore _ (mem_of_mapGet _ _ _ hg)
    simp only at hd
    have hu := UnmarshalBunch_layout l (GoodPairs_wellTyped hl hint hb) []
    rw [List.append_nil, ← hd] at hu
    simp only [Bool.false_eq_true, if_false, hu]
    cases hf : l.find? (fun idRef => decide (idRef.id = id)) with
    | none => exact ⟨none, rfl, by simp⟩
    | some p =>
      refine ⟨some p.refs, rfl, ?_⟩
      intro refs hrefs
      injection hrefs with hrefs
      subst hrefs
      exact (hl.2 p (List.mem_of_find?_eq_some hf)).2.1

/-- C9 at the store reached by one flush of Record(10, 100), Record(10, 50),
Record(74, 200). -/
theorem C9_get_sorted_witness :
    InsertContract (Deps.model 4).insertRefs ∧
      Reach (Deps.model 4) [(10, 100), (10, 50), (74, 200)]
        (DB.ofData [(idToKeyBuf 0, [2, 0, 20, 0, 2, 100, 100]),
          (idToKeyBuf 1, [2, 0, 148, 1, 0, 1, 144, 3])]) ∧
      2 * (([(10, 100), (10, 50), (74, 200)] : List (Int × Int)).length + 1)
        < 0x8000000000000000 ∧
      (DB.ofData [(idToKeyBuf 0, [2, 0, 20, 0, 2, 100, 100]),
          (idToKeyBuf 1, [2, 0, 148, 1, 0, 1, 144, 3])]).getFails
        ((Deps.model 4).idToKeyBuf (getBunchId 10)) = false ∧
      ∃ r, Get (Deps.model 4) (DB.ofData [(idToKeyBuf 0, [2, 0, 20, 0, 2, 100, 100]),
          (idToKeyBuf 1, [2, 0, 148, 1, 0, 1, 144, 3])]) 10 = .ok r ∧
        ∀ refs, r = some refs → refs.Sorted (· < ·) :=
  have hR : Reach (Deps.model 4) [(10, 100), (10, 50), (74, 200)]
      (DB.ofData [(idToKeyBuf 0, [2, 0, 20, 0, 2, 100, 100]),
        (idToKeyBuf 1, [2, 0, 148, 1, 0, 1, 144, 3])]) :=
    Reach.flush [] [(10, 100), (10, 50), (74, 200)] Sched.inOrder DB.empty DB.empty _
      (Reach.empty DB.empty rfl) rfl inOrder_valid (by decide) (by rfl)
  ⟨insertRefs_contract, hR, by decide, rfl,
    C9_get_sorted (Deps.model 4) _ _ 10 insertRefs_contract hR (by decide) rfl⟩

/-- C2 (the code at the failing input): from the empty store, Record(0, 5) followed by a
completed flush stores for partition 0 a list of two pairs, a zero-valued one and
`(0, [5])`, and `Get(0)` then returns the empty ref list of the zero-valued pair, which
does not hold the recorded ref 5.  The scenario of the claim, Record(10, 100),
Record(10, 50), Record(74, 200) and a flush, gives `Get(10) = [50, 100]` and
`Get(74) = [200]`, read from two store records. -/
theorem C2_get_zero :
    writeRefs (Deps.model 4) Sched.inOrder DB.empty (hotCache (Deps.model 4) [(0, 5)])
        = .ok (none, DB.ofData [(idToKeyBuf 0, [2, 0, 0, 0, 1, 10])]) ∧
      UnmarshalBunch [2, 0, 0, 0, 1, 10] = .ok (some [⟨0, []⟩, ⟨0, [5]⟩]) ∧
      Get (Deps.model 4) (DB.ofData [(idToKeyBuf 0, [2, 0, 0, 0, 1, 10])]) 0
        = .ok (some []) ∧
      writeRefs (Deps.model 4) Sched.inOrder DB.empty
          (hotCache (Deps.model 4) [(10, 100), (10, 50), (74, 200)])
        = .ok (none, DB.ofData [(idToKeyBuf 0, [2, 0, 20, 0, 2, 100, 100]),
            (idToKeyBuf 1, [2, 0, 148, 1, 0, 1, 144, 3])]) ∧
      Get (Deps.model 4) (DB.ofData [(idToKeyBuf 0, [2, 0, 20, 0, 2, 100, 100]),
            (idToKeyBuf 1, [2, 0, 148, 1, 0, 1, 144, 3])]) 10 = .ok (some [50, 100]) ∧
      Get (Deps.model 4) (DB.ofData [(idToKeyBuf 0, [2, 0, 20, 0, 2, 100, 100]),
            (idToKeyBuf 1, [2, 0, 148, 1, 0, 1, 144, 3])]) 74 = .ok (some [200]) :=
  ⟨by rfl, by decide, by decide, by rfl, by decide, by decide⟩

/-- C6 (the code at the failing input): the persisted record `d = MarshalBunch [(1, [2])]`
is `[1, 2, 1, 4]`, and `loadMergeMarshal` on a store holding `d`, with an empty new bunch,
returns `[2, 0, 2, 0, 1, 4]`, the encoding of a zero-valued pair followed by `(1, [2])`. -/
theorem C6_reencode :
    MarshalBunch [⟨1, [2]⟩] = .ok [1, 2, 1, 4] ∧
      loadMergeMarshal (Deps.model 4) Sched.inOrder (DB.ofData [(idToKeyBuf 0, [1, 2, 1, 4])])
        (idToKeyBuf 0) [] = .ok [2, 0, 2, 0, 1, 4] ∧
      MarshalBunch [⟨0, []⟩, ⟨1, [2]⟩] = .ok [2, 0, 2, 0, 1, 4] :=
  ⟨by decide, by decide, by decide⟩

/-- C7 (the code at the failing input): from the empty store, Record(10, 100) followed by
a completed flush; no pair was recorded for id 0, and `Get(0)` returns an empty ref list
(a non-nil slice), not the nil result. -/
theorem C7_get_unrecorded :
    writeRefs (Deps.model 4) Sched.inOrder DB.empty (hotCache (Deps.model 4) [(10, 100)])
        = .ok (none, DB.ofData [(idToKeyBuf 0, [2, 0, 20, 0, 1, 200, 1])]) ∧
      Get (Deps.model 4) (DB.ofData [(idToKeyBuf 0, [2, 0, 20, 0, 1, 200, 1])]) 0
        = .ok (some []) ∧
      Get (Deps.model 4) (DB.ofData [(idToKeyBuf 0, [2, 0, 20, 0, 1, 200, 1])]) 11
        = .ok none :=
  ⟨by rfl, by decide, by decide⟩

/-! ## The dispatch loop -/

theorem addToCache_eq (deps : Deps) (cache : bunchCache) (id ref : Int) :
    addToCache deps cache id ref =
      mapSet cache (getBunchId id)
        (mapSet ((mapGet cache (getBunchId id)).getD []) id
          (deps.insertRefs ((mapGet ((mapGet cache (getBunchId id)).getD []) id).getD [])
            ref)) := rfl

theorem contains_addToCache_new (deps : Deps) (hI : InsertContract deps.insertRefs)
    {recs : List (Int × Int)} {cache : bunchCache} (h : CacheOK recs cache) (id ref : Int) :
    Contains (addToCache deps cache id ref) id ref := by
  refine ⟨_, _, by rw [addToCache_eq, mapGet_mapSet_self], mapGet_mapSet_self _ _ _, ?_⟩
  have hsorted : ((mapGet ((mapGet cache (getBunchId id)).getD []) id).getD []).Sorted
      (· < ·) := by
    cases hg : mapGet cache (getBunchId id) with
    | none => simp [mapGet]
    | some b =>
      cases hg2 : mapGet b id with
      | none => simp [hg2]
      | some r =>
        simp only [Option.getD_some, hg2]
        exact ((h.2 _ (mem_of_mapGet _ _ _ hg)).2 _ (mem_of_mapGet _ _ _ hg2)).2.1
  exact ((hI _ ref hsorted).2 ref).mpr (Or.inr rfl)

theorem contains_addToCache_old (deps : Deps) (hI : InsertContract deps.insertRefs)
    {recs : List (Int × Int)} {cache : bunchCache} (h : CacheOK recs cache)
    (id ref id2 ref2 : Int) (hc : Contains cache id ref) :
    Contains (addToCache deps cache id2 ref2) id ref := by
  obtain ⟨bunch, refs, h1, h2, h3⟩ := hc
  rw [addToCache_eq]
  by_cases hb : getBunchId id2 = getBunchId id
  · rw [hb, h1]
    simp only [Option.getD_some]
    by_cases hid : id2 = id
    · subst hid
      rw [h2]
      simp only [Option.getD_some]
      have hsorted : refs.Sorted (· < ·) :=
        ((h.2 _ (mem_of_mapGet _ _ _ h1)).2 _ (mem_of_mapGet _ _ _ h2)).2.1
      exact ⟨_, _, mapGet_mapSet_self _ _ _, mapGet_mapSet_self _ _ _,
        ((hI _ ref2 hsorted).2 ref).mpr (Or.inl h3)⟩
    · exact ⟨_, refs, mapGet_mapSet_self _ _ _, by rw [mapGet_mapSet_ne _ _ hid]; exact h2, h3⟩
  · exact ⟨bunch, refs, by rw [mapGet_mapSet_ne _ _ hb]; exact h1, h2, h3⟩

theorem contains_length_pos {cache : bunchCache} {id ref : Int} (h : Contains cache id ref) :
    0 < cache.length := by
  obtain ⟨bunch, refs, h1, _, _⟩ := h
  cases cache with
  | nil => simp [mapGet] at h1
  | cons e c => simp

theorem dispatch_eq (deps : Deps) (intake : List (Int × Int)) :
    dispatch deps intake = (dispatchLoop deps intake []).1 ++
      (if 0 < (dispatchLoop deps intake []).2.length then [(dispatchLoop deps intake []).2]
        else []) := by
  unfold dispatch
  split <;> simp

theorem dispatchLoop_append (deps : Deps) : ∀ (a b : List (Int × Int)) (cache : bunchCache),
    dispatchLoop deps (a ++ b) cache =
      ((dispatchLoop deps a cache).1 ++
          (dispatchLoop deps b (dispatchLoop deps a cache).2).1,
        (dispatchLoop deps b (dispatchLoop deps a cache).2).2)
  | [], b, cache => by simp [dispatchLoop]
  | r :: a, b, cache => by
    simp only [List.cons_append, dispatchLoop]
    split
    · simp [dispatchLoop_append deps a b []]
    · exact dispatchLoop_append deps a b _

theorem dispatchLoop_cacheOK (deps : Deps) (hI : InsertContract deps.insertRefs) :
    ∀ (l : List (Int × Int)) (cache : bunchCache) (recs : List (Int × Int)),
      CacheOK recs cache → ∃ recs1, CacheOK recs1 (dispatchLoop deps l cache).2
  | [], cache, recs, h => ⟨recs, h⟩
  | r :: l, cache, recs, h => by
    simp only [dispatchLoop]
    split
    · exact dispatchLoop_cacheOK deps hI l [] [] (CacheOK_nil [])
    · exact dispatchLoop_cacheOK deps hI l _ _ (addToCache_ok deps hI recs cache r.1 r.2 h)

/-- A pair held by the hot cache is held by the next snapshot that the loop hands off, or,
when the loop hands off none, by the hot cache that is left. -/
theorem dispatchLoop_next (deps : Deps) (hI : InsertContract deps.insertRefs) (id ref : Int) :
    ∀ (l : List (Int × Int)) (cache : bunchCache) (recs : List (Int × Int)),
      CacheOK recs cache → Contains cache id ref →
      (∃ snap rest, (dispatchLoop deps l cache).1 = snap :: rest ∧ Contains snap id ref) ∨
        ((dispatchLoop deps l cache).1 = [] ∧ Contains (dispatchLoop deps l cache).2 id ref)
  | [], cache, recs, _, hc => Or.inr ⟨rfl, hc⟩
  | r :: l, cache, recs, h, hc => by
    have hc1 := contains_addToCache_old deps hI h id ref r.1 r.2 hc
    simp only [dispatchLoop]
    split
    · exact Or.inl ⟨_, _, rfl, hc1⟩
    · exact dispatchLoop_next deps hI id ref l _ _
        (addToCache_ok deps hI recs cache r.1 r.2 h) hc1

theorem getElem?_append_length {α : Type} (a b : List α) :
    (a ++ b)[a.length]? = b[0]? := by
  rw [List.getElem?_append_right (le_refl _)]
  simp

/-- Without a hand-off the loop leaves the hot cache that the `addToCache` calls build. -/
theorem dispatchLoop_below (deps : Deps) (ps : List Int) (hps : ps.length < deps.cacheSize) :
    ∀ (l : List (Int × Int)) (cache : bunchCache),
      (cache.map Prod.fst).Nodup → (∀ k ∈ cache.map Prod.fst, k ∈ ps) →
      (∀ r ∈ l, getBunchId r.1 ∈ ps) →
      dispatchLoop deps l cache =
        ([], l.foldl (fun cache r => addToCache deps cache r.1 r.2) cache)
  | [], cache, _, _, _ => rfl
  | r :: l, cache, hn, hk, hl => by
    have hn1 : ((addToCache deps cache r.1 r.2).map Prod.fst).Nodup := by
      rw [addToCache_eq]; exact nodup_keys_mapSet _ _ _ hn
    have hk1 : ∀ k ∈ (addToCache deps cache r.1 r.2).map Prod.fst, k ∈ ps := by
      intro k hkm
      rw [addToCache_eq, mem_keys_mapSet] at hkm
      rcases hkm with rfl | hkm
      · exact hl r (by simp)
      · exact hk k hkm
    have hlen : (addToCache deps cache r.1 r.2).length ≤ ps.length := by
      have := length_le_of_nodup_subset hn1 hk1
      simpa using this
    simp only [dispatchLoop, List.foldl_cons]
    rw [if_neg (by omega)]
    exact dispatchLoop_below deps ps hps l _ hn1 hk1 (fun x hx => hl x (List.mem_cons_of_mem _ hx))

theorem foldl_addToCache_contains (deps : Deps) (hI : InsertContract deps.insertRefs) :
    ∀ (l : List (Int × Int)) (cache : bunchCache) (recs : List (Int × Int)),
      CacheOK recs cache → ∀ r ∈ l,
        Contains (l.foldl (fun cache r => addToCache deps cache r.1 r.2) cache) r.1 r.2 := by
  have keep : ∀ (l : List (Int × Int)) (cache : bunchCache) (recs : List (Int × Int))
      (id ref : Int), CacheOK recs cache → Contains cache id ref →
      Contains (l.foldl (fun cache r => addToCache deps cache r.1 r.2) cache) id ref := by
    intro l
    induction l with
    | nil => intro cache recs id ref _ hc; exact hc
    | cons x l ih =>
      intro cache recs id ref h hc
      exact ih _ _ id ref (addToCache_ok deps hI recs cache x.1 x.2 h)
        (contains_addToCache_old deps hI h id ref x.1 x.2 hc)
  intro l
  induction l with
  | nil => intro cache recs _ r hr; simp at hr
  | cons x l ih =>
    intro cache recs h r hr
    have h1 := addToCache_ok deps hI recs cache x.1 x.2 h
    rcases List.mem_cons.mp hr with rfl | hr
    · exact keep l _ _ _ _ h1 (contains_addToCache_new deps hI h _ _)
    · exact ih _ _ h1 r hr

/-- C10: with the dispatch loop modelled as a sequential fold over the intake sequence
(and `insertRefs` meeting its contract), every recorded pair is held by the next snapshot
handed to the write channel after it was added; when the intake is closed the hot cache
that is left is handed off once if it is non-empty and not at all if it is empty; and at
least one Record call, with all calls together touching fewer than `cacheSize` partitions,
gives exactly one handed-off snapshot, which holds every recorded pair. -/
theorem C10_dispatch (deps : Deps) (hI : InsertContract deps.insertRefs)
    (intake : List (Int × Int)) :
    (∀ pre id ref post, intake = pre ++ (id, ref) :: post →
      ∃ snap, (dispatch deps intake)[(dispatchLoop deps pre []).1.length]? = some snap ∧
        Contains snap id ref) ∧
    (dispatch deps intake = (dispatchLoop deps intake []).1 ++
      (if (dispatchLoop deps intake []).2 = [] then [] else [(dispatchLoop deps intake []).2])) ∧
    (intake ≠ [] →
      ((intake.map (fun r => getBunchId r.1)).dedup).length < deps.cacheSize →
      dispatch deps intake = [hotCache deps intake] ∧
        ∀ r ∈ intake, Contains (hotCache deps intake) r.1 r.2) := by
  refine ⟨?_, ?_, ?_⟩
  · intro pre id ref post hin
    obtain ⟨recs, hok⟩ := dispatchLoop_cacheOK deps hI pre [] [] (CacheOK_nil [])
    have hnew := contains_addToCache_new deps hI hok id ref
    have hok1 := addToCache_ok deps hI recs _ id ref hok
    rw [dispatch_eq, hin, dispatchLoop_append]
    simp only [List.append_assoc]
    rw [getElem?_append_length]
    simp only [dispatchLoop]
    split
    · exact ⟨_, by simp, hnew⟩
    · rcases dispatchLoop_next deps hI id ref post _ _ hok1 hnew with
        ⟨snap, rest, h1, h2⟩ | ⟨h1, h2⟩
      · exact ⟨snap, by rw [h1]; simp, h2⟩
      · refine ⟨_, ?_, h2⟩
        rw [h1, if_pos (contains_length_pos h2)]
        simp
  · rw [dispatch_eq]
    congr 1
    cases (dispatchLoop deps intake []).2 <;> simp
  · intro hne hlt
    have hloop := dispatchLoop_below deps _ hlt intake [] (by simp) (by simp)
      (fun r hr => List.mem_dedup.mpr (List.mem_map_of_mem _ hr))
    have hall := foldl_addToCache_contains deps hI intake [] [] (CacheOK_nil [])
    refine ⟨?_, hall⟩
    rw [dispatch_eq, hloop]
    obtain ⟨r, hr⟩ := List.exists_mem_of_ne_nil intake hne
    have hpos := contains_length_pos (hall r hr)
    simp only [List.nil_append]
    rw [if_pos hpos]
    rfl

/-- C10 at three Record calls that touch two partitions, with `cacheSize = 4`. -/
theorem C10_dispatch_witness :
    InsertContract (Deps.model 4).insertRefs ∧
    ([(10, 100), (10, 50), (74, 200)] : List (Int × Int))
      = [(10, 100), (10, 50)] ++ (74, 200) :: [] ∧
    ([(10, 100), (10, 50), (74, 200)] : List (Int × Int)) ≠ [] ∧
    ((([(10, 100), (10, 50), (74, 200)] : List (Int × Int)).map
        (fun r => getBunchId r.1)).dedup).length < (Deps.model 4).cacheSize ∧
    (∃ snap, (dispatch (Deps.model 4) [(10, 100), (10, 50), (74, 200)])[
        (dispatchLoop (Deps.model 4) [(10, 100), (10, 50)] []).1.length]? = some snap ∧
      Contains snap 74 200) ∧
    (dispatch (Deps.model 4) [(10, 100), (10, 50), (74, 200)] =
      (dispatchLoop (Deps.model 4) [(10, 100), (10, 50), (74, 200)] []).1 ++
      (if (dispatchLoop (Deps.model 4) [(10, 100), (10, 50), (74, 200)] []).2 = []
        then [] else [(dispatchLoop (Deps.model 4) [(10, 100), (10, 50), (74, 200)] []).2])) ∧
    (dispatch (Deps.model 4) [(10, 100), (10, 50), (74, 200)]
        = [hotCache (Deps.model 4) [(10, 100), (10, 50), (74, 200)]] ∧
      ∀ r ∈ ([(10, 100), (10, 50), (74, 200)] : List (Int × Int)),
        Contains (hotCache (Deps.model 4) [(10, 100), (10, 50), (74, 200)]) r.1 r.2) :=
  ⟨insertRefs_contract, rfl, by decide, by decide,
    (C10_dispatch (Deps.model 4) insertRefs_contract [(10, 100), (10, 50), (74, 200)]).1
      [(10, 100), (10, 50)] 74 200 [] rfl,
    (C10_dispatch (Deps.model 4) insertRefs_contract [(10, 100), (10, 50), (74, 200)]).2.1,
    (C10_dispatch (Deps.model 4) insertRefs_contract [(10, 100), (10, 50), (74, 200)]).2.2
      (by decide) (by decide)⟩

/-! ## Recorded pairs of ids other than 0 are found again -/

theorem mem_keys_foldl_mapSet {κ β : Type} [DecidableEq κ] :
    ∀ (l b : List (κ × β)) (k : κ),
      k ∈ (l.foldl (fun m e => mapSet m e.1 e.2) b).map Prod.fst ↔
        k ∈ l.map Prod.fst ∨ k ∈ b.map Prod.fst
  | [], b, k => by simp
  | e :: l, b, k => by
    rw [List.foldl_cons, mem_keys_foldl_mapSet l _ k, mem_keys_mapSet]
    simp only [List.map_cons, List.mem_cons]
    tauto

theorem exists_mapGet_of_mem_keys {κ β : Type} [DecidableEq κ] (m : List (κ × β)) (k : κ)
    (h : k ∈ m.map Prod.fst) : ∃ v, mapGet m k = some v := by
  cases hg : mapGet m k with
  | none => exact absurd h ((mapGet_eq_none_iff m k).mp hg)
  | some v => exact ⟨v, rfl⟩

theorem mapGet_foldl_mapSet_of_not_mem {κ β : Type} [DecidableEq κ] :
    ∀ (l b : List (κ × β)) (k : κ), k ∉ l.map Prod.fst →
      mapGet (l.foldl (fun m e => mapSet m e.1 e.2) b) k = mapGet b k
  | [], b, k, _ => rfl
  | e :: l, b, k, h => by
    simp only [List.map_cons, List.mem_cons, not_or] at h
    rw [List.foldl_cons, mapGet_foldl_mapSet_of_not_mem l _ k h.2,
      mapGet_mapSet_ne _ _ (Ne.symm h.1)]

theorem getBunchId_isInt64 {id : Int} (h : IsInt64 id) : IsInt64 (getBunchId id) := by
  unfold IsInt64 at h ⊢
  rcases lt_or_le id 0 with h0 | h0
  · rw [getBunchId_neg h0]; omega
  · rw [getBunchId_nonneg h0]; omega

/-- The keys of the hot cache are partition ids of recorded ids. -/
theorem foldl_addToCache_keys (deps : Deps) :
    ∀ (records : List (Int × Int)) (cache : bunchCache) (k : Int),
      k ∈ (records.foldl (fun cache r => addToCache deps cache r.1 r.2) cache).map Prod.fst →
      k ∈ cache.map Prod.fst ∨ ∃ r ∈ records, k = getBunchId r.1
  | [], cache, k, h => Or.inl h
  | r :: records, cache, k, h => by
    rw [List.foldl_cons] at h
    rcases foldl_addToCache_keys deps records _ k h with h1 | ⟨x, hx, hk⟩
    · rw [addToCache_eq, mem_keys_mapSet] at h1
      rcases h1 with h1 | h1
      · exact Or.inr ⟨r, by simp, h1⟩
      · exact Or.inl h1
    · exact Or.inr ⟨x, List.mem_cons_of_mem _ hx, hk⟩

theorem hotCache_keys (deps : Deps) (records : List (Int × Int)) (k : Int)
    (h : k ∈ (hotCache deps records).map Prod.fst) : ∃ r ∈ records, k = getBunchId r.1 := by
  rcases foldl_addToCache_keys deps records [] k h with h1 | h1
  · simp at h1
  · exact h1

/-- What `loadMergeMarshal` returns on a good store, with the map it has loaded. -/
theorem loadMergeMarshal_struct (deps : Deps) (hI : InsertContract deps.insertRefs)
    (s : Sched) (hs : s.Valid) (db : DB) {hist records : List (Int × Int)}
    (hstore : StoreOK hist db.data)
    (hint : ∀ r ∈ hist ++ records, IsInt64 r.1 ∧ IsInt64 r.2)
    (hb : 2 * ((hist ++ records).length + 1) < 0x8000000000000000)
    (key : List Nat) (newBunch : RefBunch) (hnn : (newBunch.map Prod.fst).Nodup)
    (hne : ∀ x ∈ newBunch, x.1 ∈ records.map Prod.fst ∧ x.2.Sorted (· < ·) ∧
      ∀ v ∈ x.2, v ∈ records.map Prod.snd)
    (out : List Nat) (hout : loadMergeMarshal deps s db key newBunch = .ok out) :
    ∃ b0, loadBunch (mapGet db.data key) = .ok b0 ∧ (b0.map Prod.fst).Nodup ∧
      (∀ x ∈ b0, EntryOK hist x.1 x.2) ∧
      ((mergeBunch deps b0 (s.rangeNew key newBunch)).map Prod.fst).Nodup ∧
      GoodPairs (hist ++ records)
        (bunchListOf s key (mergeBunch deps b0 (s.rangeNew key newBunch))) ∧
      out = encodeLayout (bunchListOf s key (mergeBunch deps b0 (s.rangeNew key newBunch))) := by
  have hb1 : 2 * (hist.length + 1) < 0x8000000000000000 := by
    simp only [List.length_append] at hb; omega
  have hint1 : ∀ r ∈ hist, IsInt64 r.1 ∧ IsInt64 r.2 :=
    fun r hr => hint r (List.mem_append_left _ hr)
  simp only [loadMergeMarshal, loadMerge] at hout
  cases hg : db.Get key with
  | error e => rw [hg] at hout; cases hout
  | ok data =>
    rw [hg] at hout
    have hdata := DB_Get_ok hg
    subst hdata
    obtain ⟨b0, hb0, hb0n, hb0e⟩ := loadBunch_good hstore hint1 hb1 key
    simp only [hb0] at hout
    have hperm := hs.2.1 key newBunch
    obtain ⟨hmn, hme⟩ := @mergeBunch_good deps hI hist records _ _ hb0n hb0e
      ((hperm.map Prod.fst).nodup_iff.mpr hnn) (fun x hx => hne x (hperm.mem_iff.mp hx))
    have hgood := bunchListOf_good s hs key hmn hme
    have hwt := GoodPairs_wellTyped hgood hint hb
    have hlay := MarshalBunch_eq_layout
      (bunchListOf s key (mergeBunch deps b0 (s.rangeNew key newBunch)))
      (by have := hwt.1; omega)
      (fun p hp => by have := (hwt.2 p hp).2.1; omega)
    rw [hlay] at hout
    injection hout with hout
    exact ⟨b0, hb0, hb0n, hb0e, hmn, hgood, hout.symm⟩

/-- A ref held for `id` by the loaded map or by the new bunch is held by the merged map. -/
theorem mergeBunch_has_ref (deps : Deps) (hI : InsertContract deps.insertRefs)
    {hist : List (Int × Int)} {b0 nl : RefBunch} (hb0 : ∀ x ∈ b0, EntryOK hist x.1 x.2)
    (hnln : (nl.map Prod.fst).Nodup) (id ref : Int)
    (h : (∃ r, mapGet b0 id = some r ∧ ref ∈ r) ∨ (∃ nr, mapGet nl id = some nr ∧ ref ∈ nr)) :
    ∃ refs, mapGet (mergeBunch deps b0 nl) id = some refs ∧ ref ∈ refs := by
  rw [mergeBunch_get deps nl b0 id hnln]
  cases hN : mapGet nl id with
  | none =>
    rcases h with ⟨r, h1, h2⟩ | ⟨nr, h1, _⟩
    · exact ⟨r, h1, h2⟩
    · rw [hN] at h1; cases h1
  | some nr =>
    cases hP : mapGet b0 id with
    | none =>
      rcases h with ⟨r, h1, _⟩ | ⟨nr1, h1, h2⟩
      · rw [hP] at h1; cases h1
      · rw [hN] at h1
        injection h1 with h1
        subst h1
        exact ⟨nr, rfl, h2⟩
    | some r =>
      have hsorted := (hb0 _ (mem_of_mapGet _ _ _ hP)).2.1
      obtain ⟨_, f2⟩ := foldl_insert_spec hI nr r hsorted
      refine ⟨_, rfl, (f2 ref).mpr ?_⟩
      rcases h with ⟨r1, h1, h2⟩ | ⟨nr1, h1, h2⟩
      · rw [hP] at h1
        injection h1 with h1
        subst h1
        exact Or.inl h2
      · rw [hN] at h1
        injection h1 with h1
        subst h1
        exact Or.inr h2

/-- The entries for an id other than 0 in the pair list that is encoded. -/
theorem bunchListOf_entries (s : Sched) (hs : s.Valid) (key : List Nat) {bunch : RefBunch}
    (hn : (bunch.map Prod.fst).Nodup) (id ref : Int) (h0 : id ≠ 0) (refs : List Int)
    (hg : mapGet bunch id = some refs) (hr : ref ∈ refs) :
    (∃ p ∈ bunchListOf s key bunch, p.id = id) ∧
      ∀ p ∈ bunchListOf s key bunch, p.id = id → ref ∈ p.refs := by
  have hperm := hs.2.2 key bunch
  constructor
  · refine ⟨⟨id, refs⟩, ?_, rfl⟩
    simp only [bunchListOf, List.mem_append, List.mem_map]
    exact Or.inr ⟨(id, refs), hperm.mem_iff.mpr (mem_of_mapGet _ _ _ hg), rfl⟩
  · intro p hp hpid
    simp only [bunchListOf, List.mem_append, List.mem_map] at hp
    rcases hp with hp | ⟨x, hx, rfl⟩
    · have := List.eq_of_mem_replicate hp
      subst this
      exact absurd hpid.symm h0
    · simp only at hpid
      have hx1 : (id, x.2) ∈ bunch := by
        rw [← hpid]
        exact hperm.mem_iff.mp hx
      have := mapGet_of_mem _ _ _ hn hx1
      rw [hg] at this
      injection this with this
      simp only
      rw [← this]
      exact hr

theorem collectPuts_struct (deps : Deps) (s : Sched) (db : DB) :
    ∀ (items : List (Int × RefBunch)) (batch : List (List Nat × List Nat)),
      collectPuts deps s db items = .ok batch →
      batch.map Prod.fst = items.map (fun e => deps.idToKeyBuf e.1) ∧
        ∀ item ∈ items, ∃ out, (deps.idToKeyBuf item.1, out) ∈ batch ∧
          loadMergeMarshal deps s db (deps.idToKeyBuf item.1) item.2 = .ok out
  | [], batch, hc => by
    simp only [collectPuts] at hc
    injection hc with hc
    subst hc
    simp
  | item :: items, batch, hc => by
    simp only [collectPuts] at hc
    cases h1 : loadMergeMarshal deps s db (deps.idToKeyBuf item.1) item.2 with
    | error p => rw [h1] at hc; cases hc
    | ok out =>
      rw [h1] at hc
      simp only at hc
      cases h2 : collectPuts deps s db items with
      | error p => rw [h2] at hc; cases hc
      | ok rest =>
        rw [h2] at hc
        simp only at hc
        injection hc with hc
        subst hc
        obtain ⟨ih1, ih2⟩ := collectPuts_struct deps s db items rest h2
        refine ⟨by simp [ih1], ?_⟩
        intro it hit
        rcases List.mem_cons.mp hit with rfl | hit
        · exact ⟨out, by simp, h1⟩
        · obtain ⟨o, ho1, ho2⟩ := ih2 it hit
          exact ⟨o, List.mem_cons_of_mem _ ho1, ho2⟩

/-- The invariant for the ids other than 0 after a completed flush. -/
theorem writeRefs_recorded (deps : Deps) (hI : InsertContract deps.insertRefs)
    (hK : KeysInjective deps) (s : Sched) (hs : s.Valid) (db db1 : DB)
    {hist records : List (Int × Int)}
    (hstore : StoreOK hist db.data) (hrec : Recorded deps hist db.data)
    (hint : ∀ r ∈ hist ++ records, IsInt64 r.1 ∧ IsInt64 r.2)
    (hb : 2 * ((hist ++ records).length + 1) < 0x8000000000000000)
    (hw : writeRefs deps s db (hotCache deps records) = .ok (none, db1)) :
    Recorded deps (hist ++ records) db1.data := by
  have hb1 : 2 * (hist.length + 1) < 0x8000000000000000 := by
    simp only [List.length_append] at hb; omega
  have hint1 : ∀ r ∈ hist, IsInt64 r.1 ∧ IsInt64 r.2 :=
    fun r hr => hint r (List.mem_append_left _ hr)
  have hint2 : ∀ r ∈ records, IsInt64 r.1 ∧ IsInt64 r.2 :=
    fun r hr => hint r (List.mem_append_right _ hr)
  simp only [writeRefs] at hw
  cases hc : collectPuts deps s db (s.rangeCache (hotCache deps records)) with
  | error p => rw [hc] at hw; cases hw
  | ok batch =>
    rw [hc] at hw
    simp only at hw
    injection hw with hw
    unfold DB.Write at hw
    split at hw
    · simp at hw
    · simp only [Prod.mk.injEq, true_and] at hw
      subst hw
      simp only
      have hcache := hotCache_ok deps hI records
      have hperm := hs.1 (hotCache deps records)
      obtain ⟨hkeys, hitems⟩ := collectPuts_struct deps s db _ batch hc
      -- the keys of the batch are pairwise different
      have hkint : ∀ k ∈ (s.rangeCache (hotCache deps records)).map Prod.fst, IsInt64 k := by
        intro k hk
        obtain ⟨r, hr, rfl⟩ := hotCache_keys deps records k ((hperm.map Prod.fst).mem_iff.mp hk)
        exact getBunchId_isInt64 (hint2 r hr).1
      have hbn : (batch.map Prod.fst).Nodup := by
        have hmm : (s.rangeCache (hotCache deps records)).map (fun e => deps.idToKeyBuf e.1)
            = ((s.rangeCache (hotCache deps records)).map Prod.fst).map deps.idToKeyBuf := by
          rw [List.map_map]; rfl
        rw [hkeys, hmm]
        exact List.Nodup.map_on (fun x hx y hy hxy => hK x y (hkint x hx) (hkint y hy) hxy)
          ((hperm.map Prod.fst).nodup_iff.mpr hcache.1)
      intro r hr hr0
      have hrint : IsInt64 (getBunchId r.1) := getBunchId_isInt64 (hint r hr).1
      by_cases hin : getBunchId r.1 ∈ (hotCache deps records).map Prod.fst
      · -- the partition is written by this flush
        obtain ⟨bunch, hbunch⟩ := exists_mapGet_of_mem_keys _ _ hin
        have hmemc := mem_of_mapGet _ _ _ hbunch
        obtain ⟨out, hout1, hout2⟩ := hitems _ (hperm.mem_iff.mpr hmemc)
        simp only at hout1 hout2
        have hget : mapGet (batch.foldl (fun d kv => mapSet d kv.1 kv.2) db.data)
            (deps.idToKeyBuf (getBunchId r.1)) = some out := by
          rw [mapGet_foldl_mapSet _ _ _ hbn, mapGet_of_mem _ _ _ hbn hout1]
        obtain ⟨b0, hb0, hb0n, hb0e, hmn, hgood, houteq⟩ :=
          loadMergeMarshal_struct deps hI s hs db hstore hint hb _ bunch (hcache.2 _ hmemc).1
            (hcache.2 _ hmemc).2 out hout2
        have hpermN := hs.2.1 (deps.idToKeyBuf (getBunchId r.1)) bunch
        have hnln : ((s.rangeNew (deps.idToKeyBuf (getBunchId r.1)) bunch).map Prod.fst).Nodup :=
          (hpermN.map Prod.fst).nodup_iff.mpr (hcache.2 _ hmemc).1
        have hsrc : (∃ r0, mapGet b0 r.1 = some r0 ∧ r.2 ∈ r0) ∨
            (∃ nr, mapGet (s.rangeNew (deps.idToKeyBuf (getBunchId r.1)) bunch) r.1 = some nr ∧
              r.2 ∈ nr) := by
          rcases List.mem_append.mp hr with hrh | hrr
          · left
            obtain ⟨d, l, hd1, hd2, hd3, ⟨p, hp1, hp2⟩, hd5⟩ := hrec r hrh hr0
            have hu := UnmarshalBunch_layout l (GoodPairs_wellTyped hd3 hint1 hb1) []
            rw [List.append_nil, ← hd2] at hu
            rw [hd1, loadBunch_some d l hu] at hb0
            injection hb0 with hb0
            have hk : r.1 ∈ b0.map Prod.fst := by
              rw [← hb0, mem_keys_foldl_mapSet]
              left
              rw [List.map_map]
              exact List.mem_map.mpr ⟨p, hp1, hp2⟩
            obtain ⟨v, hv⟩ := exists_mapGet_of_mem_keys _ _ hk
            refine ⟨v, hv, ?_⟩
            have hmem := mem_of_mapGet _ _ _ hv
            rw [← hb0] at hmem
            rcases mem_foldl_mapSet _ _ _ hmem with h1 | h1
            · obtain ⟨q, hq1, hq2⟩ := List.mem_map.mp h1
              have hqid : q.id = r.1 := by injection hq2
              have hqrefs : q.refs = v := by injection hq2
              rw [← hqrefs]
              exact hd5 q hq1 hqid
            · simp at h1
          · right
            obtain ⟨bunch1, refs1, c1, c2, c3⟩ :=
              foldl_addToCache_contains deps hI records [] [] (CacheOK_nil []) r hrr
            have c1b : mapGet (hotCache deps records) (getBunchId r.1) = some bunch1 := c1
            rw [hbunch] at c1b
            injection c1b with c1b
            subst c1b
            exact ⟨refs1, by rw [mapGet_perm hpermN (hcache.2 _ hmemc).1]; exact c2, c3⟩
        obtain ⟨refs, hrefs1, hrefs2⟩ := mergeBunch_has_ref deps hI hb0e hnln r.1 r.2 hsrc
        obtain ⟨e1, e2⟩ := bunchListOf_entries s hs (deps.idToKeyBuf (getBunchId r.1)) hmn
          r.1 r.2 hr0 refs hrefs1 hrefs2
        exact ⟨out, _, hget, houteq, hgood, e1, e2⟩
      · -- the partition is not touched by this flush
        have hrh : r ∈ hist := by
          rcases List.mem_append.mp hr with hrh | hrr
          · exact hrh
          · exfalso
            obtain ⟨bunch1, refs1, c1, _, _⟩ :=
              foldl_addToCache_contains deps hI records [] [] (CacheOK_nil []) r hrr
            have c1b : mapGet (hotCache deps records) (getBunchId r.1) = some bunch1 := c1
            exact hin (List.mem_map_of_mem Prod.fst (mem_of_mapGet _ _ _ c1b))
        have hnk : deps.idToKeyBuf (getBunchId r.1) ∉ batch.map Prod.fst := by
          rw [hkeys]
          intro hmem
          obtain ⟨item, hitem, hk⟩ := List.mem_map.mp hmem
          have hki : IsInt64 item.1 := hkint _ (List.mem_map_of_mem Prod.fst hitem)
          have := hK _ _ hki hrint hk
          apply hin
          rw [← this]
          exact List.mem_map_of_mem Prod.fst (hperm.mem_iff.mp hitem)
        obtain ⟨d, l, hd1, hd2, hd3, hd4, hd5⟩ := hrec r hrh hr0
        refine ⟨d, l, ?_, hd2, GoodPairs_mono records hd3, hd4, hd5⟩
        rw [mapGet_foldl_mapSet_of_not_mem _ _ _ hnk]
        exact hd1

/-- Every store reached by completed flushes satisfies the invariant for the ids other
than 0. -/
theorem Reach_recorded (deps : Deps) (hI : InsertContract deps.insertRefs)
    (hK : KeysInjective deps) {hist : List (Int × Int)} {db : DB} (hR : Reach deps hist db) :
    2 * (hist.length + 1) < 0x8000000000000000 → Recorded deps hist db.data := by
  induction hR with
  | empty db h =>
    intro _ r hr
    simp at hr
  | flush hist records s db db0 db1 hr hd hs hrec hw ih =>
    intro hb
    have hb1 : 2 * (hist.length + 1) < 0x8000000000000000 := by
      simp only [List.length_append] at hb; omega
    obtain ⟨g1, g2⟩ := Reach_good deps hI hr hb1
    have hint : ∀ r ∈ hist ++ records, IsInt64 r.1 ∧ IsInt64 r.2 := by
      intro r hr
      rcases List.mem_append.mp hr with h | h
      · exact g2 r h
      · exact hrec r h
    exact writeRefs_recorded deps hI hK s hs db0 db1 (by rw [hd]; exact g1)
      (by rw [hd]; exact ih hb1) hint hb hw

/-- Partition routing for the ids other than 0: after completed flushes, `Get(id)` returns
a list that holds every ref recorded for `id`. -/
theorem Get_recorded (deps : Deps) (hist : List (Int × Int)) (db : DB) (id ref : Int)
    (hI : InsertContract deps.insertRefs) (hK : KeysInjective deps)
    (hR : Reach deps hist db) (hb : 2 * (hist.length + 1) < 0x8000000000000000)
    (hread : db.getFails (deps.idToKeyBuf (getBunchId id)) = false)
    (h0 : id ≠ 0) (hrec : (id, ref) ∈ hist) :
    ∃ refs, Get deps db id = .ok (some refs) ∧ ref ∈ refs := by
  obtain ⟨_, hint⟩ := Reach_good deps hI hR hb
  obtain ⟨d, l, hd1, hd2, hd3, ⟨p, hp1, hp2⟩, hd5⟩ :=
    Reach_recorded deps hI hK hR hb (id, ref) hrec h0
  simp only at hd1 hp2 hd5
  have hu := UnmarshalBunch_layout l (GoodPairs_wellTyped hd3 hint hb) []
  rw [List.append_nil, ← hd2] at hu
  simp only [Get, DB.Get, hread, Bool.false_eq_true, if_false, hd1, hu]
  cases hf : l.find? (fun idRef => decide (idRef.id = id)) with
  | none =>
    exfalso
    have := List.find?_eq_none.mp hf p hp1
    simp [hp2] at this
  | some q =>
    have hq := List.find?_some hf
    simp only [decide_eq_true_eq] at hq
    exact ⟨q.refs, rfl, hd5 q (List.mem_of_find?_eq_some hf) hq⟩

/-- For an id other than 0 without a recorded pair, `Get(id)` returns the nil result. -/
theorem Get_unrecorded (deps : Deps) (hist : List (Int × Int)) (db : DB) (id : Int)
    (hI : InsertContract deps.insertRefs)
    (hR : Reach deps hist db) (hb : 2 * (hist.length + 1) < 0x8000000000000000)
    (hread : db.getFails (deps.idToKeyBuf (getBunchId id)) = false)
    (h0 : id ≠ 0) (hid : id ∉ hist.map Prod.fst) :
    Get deps db id = .ok none := by
  obtain ⟨hstore, hint⟩ := Reach_good deps hI hR hb
  simp only [Get, DB.Get, hread]
  cases hg : mapGet db.data (deps.idToKeyBuf (getBunchId id)) with
  | none => rfl
  | some d =>
    obtain ⟨l, hl, hd⟩ := hstore _ (mem_of_mapGet _ _ _ hg)
    simp only at hd
    have hu := UnmarshalBunch_layout l (GoodPairs_wellTyped hl hint hb) []
    rw [List.append_nil, ← hd] at hu
    simp only [Bool.false_eq_true, if_false, hu]
    have hf : l.find? (fun idRef => decide (idRef.id = id)) = none := by
      rw [List.find?_eq_none]
      intro p hp
      simp only [decide_eq_true_eq]
      intro hpid
      rcases (hl.2 p hp).1 with h | h
      · exact h0 (by rw [← hpid, h])
      · exact hid (by rw [← hpid]; exact h)
    rw [hf]

theorem bytes_sum (u : Nat) (h : u < 0x10000000000000000) :
    u = u / 0x100000000000000 % 256 * 0x100000000000000
      + u / 0x1000000000000 % 256 * 0x1000000000000
      + u / 0x10000000000 % 256 * 0x10000000000
      + u / 0x100000000 % 256 * 0x100000000
      + u / 0x1000000 % 256 * 0x1000000
      + u / 0x10000 % 256 * 0x10000
      + u / 0x100 % 256 * 0x100
      + u % 256 := by
  omega

/-- The modelled `idToKeyBuf` gives different keys to different int64 partition ids. -/
theorem idToKeyBuf_injective (cacheSize : Nat) : KeysInjective (Deps.model cacheSize) := by
  intro a b ha hb h
  have hu : uint64 a < 0x10000000000000000 := by unfold uint64; omega
  have hv : uint64 b < 0x10000000000000000 := by unfold uint64; omega
  have h1 := bytes_sum (uint64 a) hu
  have h2 := bytes_sum (uint64 b) hv
  simp only [Deps.model, idToKeyBuf, List.cons.injEq, and_true] at h
  obtain ⟨e1, e2, e3, e4, e5, e6, e7, e8⟩ := h
  rw [e1, e2, e3, e4, e5, e6, e7, e8, ← h2] at h1
  unfold IsInt64 at ha hb
  unfold uint64 at h1
  omega

/-- The scenario of the specification: after Record(10, 100), Record(10, 50),
Record(74, 200) and a flush, `Get(74)` returns a list that holds 200. -/
theorem Get_recorded_scenario :
    ∃ refs, Get (Deps.model 4) (DB.ofData [(idToKeyBuf 0, [2, 0, 20, 0, 2, 100, 100]),
        (idToKeyBuf 1, [2, 0, 148, 1, 0, 1, 144, 3])]) 74 = .ok (some refs) ∧ 200 ∈ refs :=
  Get_recorded (Deps.model 4) [(10, 100), (10, 50), (74, 200)] _ 74 200 insertRefs_contract
    (idToKeyBuf_injective 4)
    (Reach.flush [] [(10, 100), (10, 50), (74, 200)] Sched.inOrder DB.empty DB.empty _
      (Reach.empty DB.empty rfl) rfl inOrder_valid (by decide) (by rfl))
    (by decide) rfl (by decide) (by decide)

/-! ## The buffer space at the writes of `MarshalBunch` -/

theorem growBuf_spare (out tail : List Nat) (h : 10 ≤ (out ++ tail).length) :
    10 ≤ (growBuf (out ++ tail) out.length).length - out.length := by
  obtain ⟨t2, hg, ht2⟩ := growBuf_spec out tail h
  rw [hg]
  simp
  exact ht2

theorem marshalIdsSpare_spec : ∀ (l : List IdRef) (out tail : List Nat) (last : Int),
    10 ≤ (out ++ tail).length →
    (∀ n ∈ marshalIdsSpare l (out ++ tail) out.length last, 10 ≤ n) ∧
      (marshalIdsSpare l (out ++ tail) out.length last).length = l.length
  | [], out, tail, last, _ => by simp [marshalIdsSpare]
  | p :: l, out, tail, last, h => by
    obtain ⟨t2, hp, h2⟩ := putVarint_grow out tail (int64 (p.id - last)) (int64_isInt64 _) h
    have e : out.length + (varint (int64 (p.id - last))).length
        = (out ++ varint (int64 (p.id - last))).length := by simp
    obtain ⟨i1, i2⟩ := marshalIdsSpare_spec l (out ++ varint (int64 (p.id - last))) t2 p.id h2
    simp only [marshalIdsSpare, hp, e]
    refine ⟨?_, by rw [List.length_cons, i2, List.length_cons]⟩
    intro n hn
    rcases List.mem_cons.mp hn with rfl | hn
    · exact growBuf_spare out tail h
    · exact i1 n hn

theorem marshalCountsSpare_spec : ∀ (l : List IdRef) (out tail : List Nat),
    10 ≤ (out ++ tail).length →
    (∀ n ∈ marshalCountsSpare l (out ++ tail) out.length, 10 ≤ n) ∧
      (marshalCountsSpare l (out ++ tail) out.length).length = l.length
  | [], out, tail, _ => by simp [marshalCountsSpare]
  | p :: l, out, tail, h => by
    obtain ⟨t2, hp, h2⟩ := putUvarint_grow out tail (p.refs.length % 0x10000000000000000)
      (Nat.mod_lt _ (by norm_num)) h
    have e : out.length + (uvarint (p.refs.length % 0x10000000000000000)).length
        = (out ++ uvarint (p.refs.length % 0x10000000000000000)).length := by simp
    obtain ⟨i1, i2⟩ := marshalCountsSpare_spec l
      (out ++ uvarint (p.refs.length % 0x10000000000000000)) t2 h2
    simp only [marshalCountsSpare, hp, e]
    refine ⟨?_, by rw [List.length_cons, i2, List.length_cons]⟩
    intro n hn
    rcases List.mem_cons.mp hn with rfl | hn
    · exact growBuf_spare out tail h
    · exact i1 n hn

theorem marshalRefListSpare_spec : ∀ (l : List Int) (out tail : List Nat) (last : Int),
    10 ≤ (out ++ tail).length →
    (∀ n ∈ marshalRefListSpare l (out ++ tail) out.length last, 10 ≤ n) ∧
      (marshalRefListSpare l (out ++ tail) out.length last).length = l.length
  | [], out, tail, last, _ => by simp [marshalRefListSpare]
  | v :: l, out, tail, last, h => by
    obtain ⟨t2, hp, h2⟩ := putVarint_grow out tail (int64 (v - last)) (int64_isInt64 _) h
    have e : out.length + (varint (int64 (v - last))).length
        = (out ++ varint (int64 (v - last))).length := by simp
    obtain ⟨i1, i2⟩ := marshalRefListSpare_spec l (out ++ varint (int64 (v - last))) t2 v h2
    simp only [marshalRefListSpare, hp, e]
    refine ⟨?_, by rw [List.length_cons, i2, List.length_cons]⟩
    intro n hn
    rcases List.mem_cons.mp hn with rfl | hn
    · exact growBuf_spare out tail h
    · exact i1 n hn

theorem marshalRefsSpare_spec : ∀ (l : List IdRef) (out tail : List Nat) (last : Int),
    10 ≤ (out ++ tail).length →
    (∀ n ∈ marshalRefsSpare l (out ++ tail) out.length last, 10 ≤ n) ∧
      (marshalRefsSpare l (out ++ tail) out.length last).length
        = (l.flatMap (fun p => p.refs)).length
  | [], out, tail, last, _ => by simp [marshalRefsSpare]
  | p :: l, out, tail, last, h => by
    obtain ⟨t2, hp, h2⟩ := marshalRefList_spec p.refs out tail last h
    obtain ⟨r1, r2⟩ := marshalRefListSpare_spec p.refs out tail last h
    obtain ⟨i1, i2⟩ := marshalRefsSpare_spec l (out ++ (deltas last p.refs).flatMap varint) t2
      (lastOf last p.refs) h2
    simp only [marshalRefsSpare, hp]
    refine ⟨?_, by rw [List.length_append, r2, i2, List.flatMap_cons, List.length_append]⟩
    intro n hn
    rcases List.mem_append.mp hn with hn | hn
    · exact r1 n hn
    · exact i1 n hn

/-- C17: for every list `x` of IdRef pairs (with lengths that fit Go's `int`), every
`PutUvarint` and `PutVarint` call of `MarshalBunch` gets a slice `buf[nextPos:]` of at
least `binary.MaxVarintLen64` bytes (there is one such call for the count, one per pair in
each of the first two loops and one per ref in the third), no write is out of bounds, and
at the `return buf[:nextPos]` the write position is within the buffer. -/
theorem C17_buffer_space (x : List IdRef) (hxn : x.length < 0x8000000000000000)
    (hxl : ∀ p ∈ x, p.refs.length < 0x8000000000000000) :
    (∀ n ∈ MarshalBunchSpare x, MaxVarintLen64 ≤ n) ∧
      (MarshalBunchSpare x).length
        = 1 + x.length + x.length + (x.flatMap (fun p => p.refs)).length ∧
      ∃ buf nextPos, marshalFinal x = .ok (buf, nextPos) ∧ nextPos ≤ buf.length ∧
        MarshalBunch x = .ok (buf.take nextPos) := by
  have hn : x.length < 0x10000000000000000 := by omega
  have hl : ∀ p ∈ x, p.refs.length < 0x10000000000000000 :=
    fun p hp => by have := hxl p hp; omega
  have hmod : x.length % 0x10000000000000000 = x.length := Nat.mod_eq_of_lt hn
  have h0 := PutUvarint_spec x.length []
    (List.replicate (x.length * (4 + 1 + 6) + MaxVarintLen64) 0)
    (by have := uvarint_length_le_ten hn; simp [MaxVarintLen64]; omega)
  simp only [List.nil_append, List.length_nil] at h0
  have h10 : 10 ≤ (uvarint x.length ++ List.drop (uvarint x.length).length
      (List.replicate (x.length * (4 + 1 + 6) + MaxVarintLen64) 0)).length := by
    have := uvarint_length_le_ten hn
    simp [MaxVarintLen64]
    omega
  obtain ⟨t1, e1, g1⟩ := marshalIds_spec x _ _ 0 h10
  obtain ⟨t2, e2, g2⟩ := marshalCounts_spec x _ _ hl g1
  obtain ⟨t3, e3, g3⟩ := marshalRefs_spec x _ _ 0 g2
  obtain ⟨a1, a2⟩ := marshalIdsSpare_spec x _ _ 0 h10
  obtain ⟨b1, b2⟩ := marshalCountsSpare_spec x _ _ g1
  obtain ⟨c1, c2⟩ := marshalRefsSpare_spec x _ _ 0 g2
  refine ⟨?_, ?_, ?_⟩
  · intro n hmem
    simp only [MarshalBunchSpare, hmod, h0, e1, e2] at hmem
    rcases List.mem_cons.mp hmem with rfl | hmem
    · simp [MaxVarintLen64]
    · rcases List.mem_append.mp hmem with hmem | hmem
      · exact a1 n hmem
      · rcases List.mem_append.mp hmem with hmem | hmem
        · exact b1 n hmem
        · exact c1 n hmem
  · simp only [MarshalBunchSpare, hmod, h0, e1, e2]
    rw [List.length_cons, List.length_append, List.length_append, a2, b2, c2]
    omega
  · simp only [marshalFinal, MarshalBunch, hmod, h0, e1, e2, e3]
    exact ⟨_, _, rfl, by simp, rfl⟩

/-- C17 at three pairs, one of them with the extreme int64 values. -/
theorem C17_buffer_space_witness :
    ([⟨10, [50, 100]⟩, ⟨3, []⟩,
        ⟨-9223372036854775808, [9223372036854775807, -9223372036854775808]⟩]
        : List IdRef).length < 0x8000000000000000 ∧
      (∀ p ∈ ([⟨10, [50, 100]⟩, ⟨3, []⟩,
        ⟨-9223372036854775808, [9223372036854775807, -9223372036854775808]⟩] : List IdRef),
        p.refs.length < 0x8000000000000000) ∧
      ((∀ n ∈ MarshalBunchSpare [⟨10, [50, 100]⟩, ⟨3, []⟩,
          ⟨-9223372036854775808, [9223372036854775807, -9223372036854775808]⟩],
          MaxVarintLen64 ≤ n) ∧
        (MarshalBunchSpare [⟨10, [50, 100]⟩, ⟨3, []⟩,
          ⟨-9223372036854775808, [9223372036854775807, -9223372036854775808]⟩]).length
          = 1 + ([⟨10, [50, 100]⟩, ⟨3, []⟩,
              ⟨-9223372036854775808, [9223372036854775807, -9223372036854775808]⟩]
              : List IdRef).length
            + ([⟨10, [50, 100]⟩, ⟨3, []⟩,
              ⟨-9223372036854775808, [9223372036854775807, -9223372036854775808]⟩]
              : List IdRef).length
            + (([⟨10, [50, 100]⟩, ⟨3, []⟩,
              ⟨-9223372036854775808, [9223372036854775807, -9223372036854775808]⟩]
              : List IdRef).flatMap (fun p => p.refs)).length ∧
        ∃ buf nextPos, marshalFinal [⟨10, [50, 100]⟩, ⟨3, []⟩,
            ⟨-9223372036854775808, [9223372036854775807, -9223372036854775808]⟩]
            = .ok (buf, nextPos) ∧ nextPos ≤ buf.length ∧
          MarshalBunch [⟨10, [50, 100]⟩, ⟨3, []⟩,
            ⟨-9223372036854775808, [9223372036854775807, -9223372036854775808]⟩]
            = .ok (buf.take nextPos)) :=
  ⟨by decide, by decide, C17_buffer_space _ (by decide) (by decide)⟩

/-! ## Bytes after the encoding -/

/-- C18: for every list `x` of IdRef pairs (int64 ids and refs, lengths that fit Go's
`int`) and every byte sequence `t`, `UnmarshalBunch` returns on `MarshalBunch x` followed
by `t` the same list as on `MarshalBunch x` alone, namely `x`: the bytes after the last
ref are not read and are not reported as an error. -/
theorem C18_trailing_bytes (x : List IdRef) (hx : WellTyped x) (t : List Nat) :
    ∃ buf, MarshalBunch x = .ok buf ∧ UnmarshalBunch (buf ++ t) = UnmarshalBunch buf ∧
      UnmarshalBunch (buf ++ t) = .ok (some x) := by
  refine ⟨encodeLayout x, ?_, ?_, UnmarshalBunch_layout x hx t⟩
  · exact MarshalBunch_eq_layout x (by have := hx.1; omega)
      (fun p hp => by have := (hx.2 p hp).2.1; omega)
  · rw [UnmarshalBunch_layout x hx t]
    have := UnmarshalBunch_layout x hx []
    rw [List.append_nil] at this
    exact this.symm

/-- C18 at two pairs followed by three bytes that do not form a varint. -/
theorem C18_trailing_bytes_witness :
    WellTyped [⟨10, [50, 100]⟩, ⟨74, [200]⟩] ∧
      ∃ buf, MarshalBunch [⟨10, [50, 100]⟩, ⟨74, [200]⟩] = .ok buf ∧
        UnmarshalBunch (buf ++ [255, 255, 7]) = UnmarshalBunch buf ∧
        UnmarshalBunch (buf ++ [255, 255, 7]) = .ok (some [⟨10, [50, 100]⟩, ⟨74, [200]⟩]) :=
  ⟨by decide, C18_trailing_bytes _ (by decide) [255, 255, 7]⟩

/-! ## The read path and the hot cache -/

/-- C11: `Get(id)` depends on the store only: two states of the index with the same store
give the same result whatever their hot caches hold; `addToCache` leaves the store
unchanged; so `Get` returns after `addToCache` calls what it returned before them, and on an
empty store it returns the nil result for a pair that was added and not yet flushed. -/
theorem C11_get_frame (deps : Deps) (index index2 : BunchRefCache) (id ref id2 : Int)
    (records : List (Int × Int)) :
    (index.db = index2.db → index.Get deps id2 = index2.Get deps id2) ∧
      (index.addToCache deps id ref).db = index.db ∧
      (index.addToCache deps id ref).cache = Cache.addToCache deps index.cache id ref ∧
      (records.foldl (fun i r => i.addToCache deps r.1 r.2) index).Get deps id2
        = index.Get deps id2 ∧
      (index.db.data = [] → index.db.getFails (deps.idToKeyBuf (getBunchId id)) = false →
        (index.addToCache deps id ref).Get deps id = .ok none) := by
  have hdb : ∀ (l : List (Int × Int)) (i : BunchRefCache),
      (l.foldl (fun i r => i.addToCache deps r.1 r.2) i).db = i.db := by
    intro l
    induction l with
    | nil => intro i; rfl
    | cons r l ih => intro i; rw [List.foldl_cons, ih]; rfl
  refine ⟨?_, rfl, rfl, ?_, ?_⟩
  · intro h
    simp only [BunchRefCache.Get, h]
  · simp only [BunchRefCache.Get, hdb]
  · intro hd hr
    simp only [BunchRefCache.Get, BunchRefCache.addToCache, Cache.Get, DB.Get, hr, hd, mapGet]
    rfl

/-- C11 at an index with an empty store and an empty hot cache, and the pair (10, 100). -/
theorem C11_get_frame_witness :
    (BunchRefCache.mk [] DB.empty).db = (BunchRefCache.mk [(0, [(10, [100])])] DB.empty).db ∧
      (BunchRefCache.mk [] DB.empty).db.data = [] ∧
      (BunchRefCache.mk [] DB.empty).db.getFails
        ((Deps.model 4).idToKeyBuf (getBunchId 10)) = false ∧
      (BunchRefCache.mk [] DB.empty).Get (Deps.model 4) 10
        = (BunchRefCache.mk [(0, [(10, [100])])] DB.empty).Get (Deps.model 4) 10 ∧
      ((BunchRefCache.mk [] DB.empty).addToCache (Deps.model 4) 10 100).cache
        = [(0, [(10, [100])])] ∧
      ((BunchRefCache.mk [] DB.empty).addToCache (Deps.model 4) 10 100).Get (Deps.model 4) 10
        = .ok none :=
  ⟨rfl, rfl, rfl,
    (C11_get_frame (Deps.model 4) (BunchRefCache.mk [] DB.empty)
      (BunchRefCache.mk [(0, [(10, [100])])] DB.empty) 10 100 10 []).1 rfl,
    by decide,
    (C11_get_frame (Deps.model 4) (BunchRefCache.mk [] DB.empty)
      (BunchRefCache.mk [(0, [(10, [100])])] DB.empty) 10 100 10 []).2.2.2.2 rfl rfl⟩

/-! ## The pair list that `loadMergeMarshal` encodes -/

/-- C12: for every merged bunch of `k` ids (with lengths that fit Go's `int`), the pair
list that `loadMergeMarshal` passes to `MarshalBunch` has length `2k`; its first `k`
entries are zero-valued (id 0, no refs), its last `k` entries are the `(id, refs)` pairs of
the merged bunch in the order of `range`, and the encoded record starts with the count
`2k`. -/
theorem C12_pair_list (deps : Deps) (s : Sched) (db : DB) (keyBuf : List Nat)
    (newBunch bunch : RefBunch) (hs : s.Valid)
    (hm : loadMerge deps s db keyBuf newBunch = .ok bunch)
    (hk : 2 * bunch.length < 0x8000000000000000)
    (hr : ∀ e ∈ bunch, e.2.length < 0x8000000000000000) :
    loadMergeMarshal deps s db keyBuf newBunch = MarshalBunch (bunchListOf s keyBuf bunch) ∧
      (bunchListOf s keyBuf bunch).length = 2 * bunch.length ∧
      (bunchListOf s keyBuf bunch).take bunch.length
        = List.replicate bunch.length ⟨0, []⟩ ∧
      (bunchListOf s keyBuf bunch).drop bunch.length
        = (s.rangeMerged keyBuf bunch).map (fun e => ⟨e.1, e.2⟩) ∧
      (s.rangeMerged keyBuf bunch).Perm bunch ∧
      ∃ rest, loadMergeMarshal deps s db keyBuf newBunch
          = .ok (uvarint (2 * bunch.length) ++ rest) ∧
        ReadUvarint (uvarint (2 * bunch.length) ++ rest) = .ok (2 * bunch.length, rest) := by
  have hperm := hs.2.2 keyBuf bunch
  have hlen : (bunchListOf s keyBuf bunch).length = 2 * bunch.length := by
    simp only [bunchListOf, List.length_append, List.length_replicate, List.length_map,
      hperm.length_eq]
    omega
  have hlm : loadMergeMarshal deps s db keyBuf newBunch
      = MarshalBunch (bunchListOf s keyBuf bunch) := by
    simp only [loadMergeMarshal, hm]
  have hlay := MarshalBunch_eq_layout (bunchListOf s keyBuf bunch) (by rw [hlen]; omega)
    (by
      intro p hp
      simp only [bunchListOf, List.mem_append, List.mem_map] at hp
      rcases hp with hp | ⟨e, he, rfl⟩
      · have := List.eq_of_mem_replicate hp
        subst this
        simp
      · have := hr e (hperm.mem_iff.mp he)
        simp only
        omega)
  refine ⟨hlm, hlen, ?_, ?_, hperm, ?_⟩
  · exact List.take_left' (by simp)
  · exact List.drop_left' (by simp)
  · refine ⟨(deltas 0 ((bunchListOf s keyBuf bunch).map (fun p => p.id))).flatMap varint
        ++ ((bunchListOf s keyBuf bunch).flatMap (fun p => uvarint p.refs.length)
        ++ (deltas 0 ((bunchListOf s keyBuf bunch).flatMap (fun p => p.refs))).flatMap varint),
      ?_, ReadUvarint_uvarint _ (by omega) _⟩
    rw [hlm, hlay, encodeLayout, hlen, List.append_assoc, List.append_assoc]

/-- C12 at a persisted record with one id and a new bunch with another id: the merged
bunch has two ids, the pair list four entries. -/
theorem C12_pair_list_witness :
    Sched.inOrder.Valid ∧
      loadMerge (Deps.model 4) Sched.inOrder (DB.ofData [(idToKeyBuf 0, [1, 20, 2, 100, 100])])
        (idToKeyBuf 0) [(11, [5])] = .ok [(10, [50, 100]), (11, [5])] ∧
      2 * ([(10, [50, 100]), (11, [5])] : RefBunch).length < 0x8000000000000000 ∧
      (∀ e ∈ ([(10, [50, 100]), (11, [5])] : RefBunch), e.2.length < 0x8000000000000000) ∧
      (loadMergeMarshal (Deps.model 4) Sched.inOrder
          (DB.ofData [(idToKeyBuf 0, [1, 20, 2, 100, 100])]) (idToKeyBuf 0) [(11, [5])]
        = MarshalBunch (bunchListOf Sched.inOrder (idToKeyBuf 0) [(10, [50, 100]), (11, [5])]) ∧
      (bunchListOf Sched.inOrder (idToKeyBuf 0) [(10, [50, 100]), (11, [5])]).length
        = 2 * ([(10, [50, 100]), (11, [5])] : RefBunch).length ∧
      (bunchListOf Sched.inOrder (idToKeyBuf 0) [(10, [50, 100]), (11, [5])]).take
          ([(10, [50, 100]), (11, [5])] : RefBunch).length
        = List.replicate ([(10, [50, 100]), (11, [5])] : RefBunch).length ⟨0, []⟩ ∧
      (bunchListOf Sched.inOrder (idToKeyBuf 0) [(10, [50, 100]), (11, [5])]).drop
          ([(10, [50, 100]), (11, [5])] : RefBunch).length
        = (Sched.inOrder.rangeMerged (idToKeyBuf 0) [(10, [50, 100]), (11, [5])]).map
            (fun e => ⟨e.1, e.2⟩) ∧
      (Sched.inOrder.rangeMerged (idToKeyBuf 0) [(10, [50, 100]), (11, [5])]).Perm
        [(10, [50, 100]), (11, [5])] ∧
      ∃ rest, loadMergeMarshal (Deps.model 4) Sched.inOrder
            (DB.ofData [(idToKeyBuf 0, [1, 20, 2, 100, 100])]) (idToKeyBuf 0) [(11, [5])]
          = .ok (uvarint (2 * ([(10, [50, 100]), (11, [5])] : RefBunch).length) ++ rest) ∧
        ReadUvarint (uvarint (2 * ([(10, [50, 100]), (11, [5])] : RefBunch).length) ++ rest)
          = .ok (2 * ([(10, [50, 100]), (11, [5])] : RefBunch).length, rest)) :=
  ⟨inOrder_valid, by decide, by decide, by decide,
    C12_pair_list (Deps.model 4) Sched.inOrder
      (DB.ofData [(idToKeyBuf 0, [1, 20, 2, 100, 100])]) (idToKeyBuf 0) [(11, [5])]
      [(10, [50, 100]), (11, [5])] inOrder_valid (by decide) (by decide) (by decide)⟩

/-! ## The hot cache, exactly -/

theorem mapGet_of_mem_mapSet {κ β : Type} [DecidableEq κ] (m : List (κ × β)) (k : κ) (v : β)
    (hn : (m.map Prod.fst).Nodup) (e : κ × β) (he : e ∈ mapSet m k v) :
    (k = e.1 ∧ e.2 = v) ∨ (k ≠ e.1 ∧ e ∈ m) := by
  have hg := mapGet_of_mem _ e.1 e.2 (nodup_keys_mapSet m k v hn) he
  rw [mapGet_mapSet] at hg
  by_cases h : k = e.1
  · rw [if_pos h] at hg
    injection hg with hg
    exact Or.inl ⟨h, hg.symm⟩
  · rw [if_neg h] at hg
    exact Or.inr ⟨h, mem_of_mapGet _ _ _ hg⟩

theorem CacheExact_nil : CacheExact [] [] := by
  simp [CacheExact]

theorem addToCache_exact (deps : Deps) (hI : InsertContract deps.insertRefs)
    (recs : List (Int × Int)) (cache : bunchCache) (id ref : Int) (h : CacheExact recs cache) :
    CacheExact (recs ++ [(id, ref)]) (addToCache deps cache id ref) := by
  obtain ⟨hn, he, hc⟩ := h
  have F1 : (((mapGet cache (getBunchId id)).getD []).map Prod.fst).Nodup ∧
      ∀ x ∈ (mapGet cache (getBunchId id)).getD [], getBunchId x.1 = getBunchId id ∧
        x.2.Sorted (· < ·) ∧ ∀ v, v ∈ x.2 ↔ (x.1, v) ∈ recs := by
    cases hg : mapGet cache (getBunchId id) with
    | none => simp
    | some b => exact he _ (mem_of_mapGet _ _ _ hg)
  have F2 : ((mapGet ((mapGet cache (getBunchId id)).getD []) id).getD []).Sorted (· < ·) ∧
      ∀ v, v ∈ (mapGet ((mapGet cache (getBunchId id)).getD []) id).getD [] ↔
        (id, v) ∈ recs := by
    cases hg : mapGet ((mapGet cache (getBunchId id)).getD []) id with
    | none =>
      refine ⟨by simp, fun v => ?_⟩
      simp only [Option.getD_none, List.not_mem_nil, false_iff]
      intro hv
      obtain ⟨bunch0, refs0, c1, c2⟩ := hc (id, v) hv
      simp only at c1 c2
      rw [c1] at hg
      simp only [Option.getD_some] at hg
      rw [c2] at hg
      cases hg
    | some r =>
      have := F1.2 _ (mem_of_mapGet _ _ _ hg)
      exact ⟨this.2.1, this.2.2⟩
  obtain ⟨hs1, hs2⟩ := hI _ ref F2.1
  rw [addToCache_eq]
  have hext : ∀ (a v : Int), a ≠ id → ((a, v) ∈ recs ++ [(id, ref)] ↔ (a, v) ∈ recs) := by
    intro a v ha
    simp only [List.mem_append, List.mem_singleton, Prod.mk.injEq]
    constructor
    · rintro (h1 | ⟨h1, _⟩)
      · exact h1
      · exact absurd h1 ha
    · exact Or.inl
  refine ⟨nodup_keys_mapSet _ _ _ hn, ?_, ?_⟩
  · intro e hmem
    rcases mapGet_of_mem_mapSet _ _ _ hn e hmem with ⟨hb, he2⟩ | ⟨hb, hold⟩
    · rw [he2]
      refine ⟨nodup_keys_mapSet _ _ _ F1.1, ?_⟩
      intro x hx
      rcases mapGet_of_mem_mapSet _ _ _ F1.1 x hx with ⟨hid, hx2⟩ | ⟨hid, hxo⟩
      · refine ⟨by rw [← hid, ← hb], by rw [hx2]; exact hs1, ?_⟩
        intro v
        rw [hx2, hs2 v, F2.2 v, ← hid]
        simp only [List.mem_append, List.mem_singleton, Prod.mk.injEq, true_and]
      · obtain ⟨g1, g2, g3⟩ := F1.2 x hxo
        refine ⟨by rw [g1, hb], g2, ?_⟩
        intro v
        rw [g3 v, hext _ _ (Ne.symm hid)]
    · obtain ⟨g0, gx⟩ := he e hold
      refine ⟨g0, ?_⟩
      intro x hx
      obtain ⟨g1, g2, g3⟩ := gx x hx
      refine ⟨g1, g2, ?_⟩
      intro v
      have hne : x.1 ≠ id := by
        intro hxi
        apply hb
        rw [← g1, hxi]
      rw [g3 v, hext _ _ hne]
  · intro r hr
    rcases List.mem_append.mp hr with hr | hr
    · obtain ⟨bunch0, refs0, c1, c2⟩ := hc r hr
      by_cases hb : getBunchId id = getBunchId r.1
      · rw [← hb] at c1
        rw [← hb, c1]
        simp only [Option.getD_some]
        by_cases hid : id = r.1
        · exact ⟨_, _, mapGet_mapSet_self _ _ _, by rw [← hid, mapGet_mapSet_self]⟩
        · exact ⟨_, refs0, mapGet_mapSet_self _ _ _, by rw [mapGet_mapSet_ne _ _ hid]; exact c2⟩
      · exact ⟨bunch0, refs0, by rw [mapGet_mapSet_ne _ _ hb]; exact c1, c2⟩
    · simp only [List.mem_singleton] at hr
      subst hr
      exact ⟨_, _, mapGet_mapSet_self _ _ _, mapGet_mapSet_self _ _ _⟩

theorem foldl_addToCache_exact (deps : Deps) (hI : InsertContract deps.insertRefs) :
    ∀ (records recs : List (Int × Int)) (cache : bunchCache), CacheExact recs cache →
      CacheExact (recs ++ records)
        (records.foldl (fun cache r => addToCache deps cache r.1 r.2) cache)
  | [], recs, cache, h => by simpa using h
  | r :: records, recs, cache, h => by
    have h1 := addToCache_exact deps hI recs cache r.1 r.2 h
    have h2 := foldl_addToCache_exact deps hI records (recs ++ [(r.1, r.2)]) _ h1
    simpa using h2

theorem hotCache_exact (deps : Deps) (hI : InsertContract deps.insertRefs)
    (records : List (Int × Int)) : CacheExact records (hotCache deps records) := by
  have := foldl_addToCache_exact deps hI records [] [] CacheExact_nil
  simpa [hotCache] using this

theorem eq_of_mem_of_fst_eq {κ β : Type} [DecidableEq κ] {m : List (κ × β)}
    (hn : (m.map Prod.fst).Nodup) {a b : κ × β} (ha : a ∈ m) (hb : b ∈ m) (h : a.1 = b.1) :
    a = b := by
  have h1 := mapGet_of_mem m a.1 a.2 hn ha
  have h2 := mapGet_of_mem m b.1 b.2 hn hb
  rw [h, h2] at h1
  injection h1 with h1
  exact Prod.ext h h1.symm

/-- C13: after any sequence of `addToCache` calls on an empty hot cache (with `insertRefs`
meeting the sorted-unique insert contract), the hot cache is a map of maps in which every
id stored under the partition key `p` satisfies `id / 64 = p`, every id is stored under
exactly one partition key and once there, the list of an id is strictly ascending and holds
exactly the refs recorded for that id, and every recorded id is stored. -/
theorem C13_hot_cache (deps : Deps) (hI : InsertContract deps.insertRefs)
    (records : List (Int × Int)) :
    ((hotCache deps records).map Prod.fst).Nodup ∧
      (∀ e ∈ hotCache deps records, (e.2.map Prod.fst).Nodup) ∧
      (∀ e ∈ hotCache deps records, ∀ x ∈ e.2, getBunchId x.1 = e.1) ∧
      (∀ e1 ∈ hotCache deps records, ∀ e2 ∈ hotCache deps records,
        ∀ x1 ∈ e1.2, ∀ x2 ∈ e2.2, x1.1 = x2.1 → e1 = e2 ∧ x1 = x2) ∧
      (∀ e ∈ hotCache deps records, ∀ x ∈ e.2,
        x.2.Sorted (· < ·) ∧ ∀ v, v ∈ x.2 ↔ (x.1, v) ∈ records) ∧
      (∀ r ∈ records, ∃ e ∈ hotCache deps records, ∃ x ∈ e.2, x.1 = r.1) := by
  obtain ⟨hn, he, hc⟩ := hotCache_exact deps hI records
  refine ⟨hn, fun e h => (he e h).1, fun e h x hx => ((he e h).2 x hx).1, ?_,
    fun e h x hx => ((he e h).2 x hx).2, ?_⟩
  · intro e1 h1 e2 h2 x1 hx1 x2 hx2 hx
    have hk : e1.1 = e2.1 := by
      rw [← ((he e1 h1).2 x1 hx1).1, ← ((he e2 h2).2 x2 hx2).1, hx]
    have hee := eq_of_mem_of_fst_eq hn h1 h2 hk
    subst hee
    exact ⟨rfl, eq_of_mem_of_fst_eq (he e1 h1).1 hx1 hx2 hx⟩
  · intro r hr
    obtain ⟨bunch, refs, c1, c2⟩ := hc r hr
    exact ⟨_, mem_of_mapGet _ _ _ c1, _, mem_of_mapGet _ _ _ c2, rfl⟩

/-- C13 at four calls, two of them with the same pair. -/
theorem C13_hot_cache_witness :
    InsertContract (Deps.model 4).insertRefs ∧
      hotCache (Deps.model 4) [(10, 100), (10, 50), (74, 200), (10, 100)]
        = [(0, [(10, [50, 100])]), (1, [(74, [200])])] ∧
      (((hotCache (Deps.model 4) [(10, 100), (10, 50), (74, 200), (10, 100)]).map
          Prod.fst).Nodup ∧
        (∀ e ∈ hotCache (Deps.model 4) [(10, 100), (10, 50), (74, 200), (10, 100)],
          (e.2.map Prod.fst).Nodup) ∧
        (∀ e ∈ hotCache (Deps.model 4) [(10, 100), (10, 50), (74, 200), (10, 100)],
          ∀ x ∈ e.2, getBunchId x.1 = e.1) ∧
        (∀ e1 ∈ hotCache (Deps.model 4) [(10, 100), (10, 50), (74, 200), (10, 100)],
          ∀ e2 ∈ hotCache (Deps.model 4) [(10, 100), (10, 50), (74, 200), (10, 100)],
          ∀ x1 ∈ e1.2, ∀ x2 ∈ e2.2, x1.1 = x2.1 → e1 = e2 ∧ x1 = x2) ∧
        (∀ e ∈ hotCache (Deps.model 4) [(10, 100), (10, 50), (74, 200), (10, 100)],
          ∀ x ∈ e.2, x.2.Sorted (· < ·) ∧
            ∀ v, v ∈ x.2 ↔ (x.1, v) ∈ [(10, 100), (10, 50), (74, 200), (10, 100)]) ∧
        (∀ r ∈ ([(10, 100), (10, 50), (74, 200), (10, 100)] : List (Int × Int)),
          ∃ e ∈ hotCache (Deps.model 4) [(10, 100), (10, 50), (74, 200), (10, 100)],
            ∃ x ∈ e.2, x.1 = r.1)) :=
  ⟨insertRefs_contract, by decide,
    C13_hot_cache (Deps.model 4) insertRefs_contract
      [(10, 100), (10, 50), (74, 200), (10, 100)]⟩

/-! ## The batch of `writeRefs` -/

theorem collectPuts_returns (deps : Deps) (s : Sched) (db : DB) :
    ∀ (items : List (Int × RefBunch)),
      (∀ item ∈ items, ∃ out,
        loadMergeMarshal deps s db (deps.idToKeyBuf item.1) item.2 = .ok out) →
      ∃ batch, collectPuts deps s db items = .ok batch
  | [], _ => ⟨[], rfl⟩
  | item :: items, h => by
    obtain ⟨out, hout⟩ := h item (by simp)
    obtain ⟨rest, hrest⟩ := collectPuts_returns deps s db items
      (fun it hit => h it (List.mem_cons_of_mem _ hit))
    exact ⟨(deps.idToKeyBuf item.1, out) :: rest, by simp only [collectPuts, hout, hrest]⟩

theorem collectPuts_error (deps : Deps) (s : Sched) (db : DB) :
    ∀ (items : List (Int × RefBunch)) (item : Int × RefBunch) (p : Panic), item ∈ items →
      loadMergeMarshal deps s db (deps.idToKeyBuf item.1) item.2 = .error p →
      ∃ q, collectPuts deps s db items = .error q
  | [], item, p, h, _ => by simp at h
  | it :: items, item, p, h, hp => by
    simp only [collectPuts]
    cases h1 : loadMergeMarshal deps s db (deps.idToKeyBuf it.1) it.2 with
    | error q => exact ⟨q, rfl⟩
    | ok out =>
      simp only
      rcases List.mem_cons.mp h with rfl | h
      · rw [h1] at hp; cases hp
      · obtain ⟨q, hq⟩ := collectPuts_error deps s db items item p h hp
        rw [hq]
        exact ⟨q, rfl⟩

/-- With a successful read and a persisted record that decodes to a good bunch,
`loadMergeMarshal` returns. -/
theorem loadMergeMarshal_returns_of (deps : Deps) (hI : InsertContract deps.insertRefs)
    (s : Sched) (hs : s.Valid) (db : DB) {hist records : List (Int × Int)}
    (key : List Nat) (b0 : RefBunch)
    (hb0 : loadBunch (mapGet db.data key) = .ok b0) (hb0n : (b0.map Prod.fst).Nodup)
    (hb0e : ∀ x ∈ b0, EntryOK hist x.1 x.2)
    (hint : ∀ r ∈ hist ++ records, IsInt64 r.1 ∧ IsInt64 r.2)
    (hb : 2 * ((hist ++ records).length + 1) < 0x8000000000000000)
    (newBunch : RefBunch) (hnn : (newBunch.map Prod.fst).Nodup)
    (hne : ∀ x ∈ newBunch, x.1 ∈ records.map Prod.fst ∧ x.2.Sorted (· < ·) ∧
      ∀ v ∈ x.2, v ∈ records.map Prod.snd)
    (hread : db.getFails key = false) :
    ∃ out, loadMergeMarshal deps s db key newBunch = .ok out := by
  have hperm := hs.2.1 key newBunch
  obtain ⟨hmn, hme⟩ := @mergeBunch_good deps hI hist records _ _ hb0n hb0e
    ((hperm.map Prod.fst).nodup_iff.mpr hnn) (fun x hx => hne x (hperm.mem_iff.mp hx))
  have hgood := bunchListOf_good s hs key hmn hme
  have hwt := GoodPairs_wellTyped hgood hint hb
  have hlay := MarshalBunch_eq_layout
    (bunchListOf s key (mergeBunch deps b0 (s.rangeNew key newBunch)))
    (by have := hwt.1; omega)
    (fun p hp => by have := (hwt.2 p hp).2.1; omega)
  refine ⟨encodeLayout (bunchListOf s key (mergeBunch deps b0 (s.rangeNew key newBunch))), ?_⟩
  simp only [loadMergeMarshal, loadMerge, DB.Get, hread, Bool.false_eq_true, if_false, hb0]
  exact hlay

theorem loadMergeMarshal_read_failure (deps : Deps) (s : Sched) (db : DB) (key : List Nat)
    (newBunch : RefBunch) (h : db.getFails key = true) :
    loadMergeMarshal deps s db key newBunch = .error (.error .dbError) := by
  simp only [loadMergeMarshal, loadMerge, DB.Get, h, if_true]

theorem loadMergeMarshal_decode_failure (deps : Deps) (s : Sched) (db : DB) (key : List Nat)
    (newBunch : RefBunch) (d : List Nat) (p : Panic) (hd : mapGet db.data key = some d)
    (hu : UnmarshalBunch d = .error p) :
    ∃ q, loadMergeMarshal deps s db key newBunch = .error q := by
  cases hf : db.getFails key with
  | true => exact ⟨_, loadMergeMarshal_read_failure deps s db key newBunch hf⟩
  | false =>
    refine ⟨p, ?_⟩
    simp only [loadMergeMarshal, loadMerge, DB.Get, hf, Bool.false_eq_true, if_false, hd,
      loadBunch, hu]

/-- A persisted record whose count header cannot be read is taken as absent. -/
theorem loadMergeMarshal_header_failure (deps : Deps) (s : Sched) (db db2 : DB)
    (key : List Nat) (newBunch : RefBunch) (d : List Nat)
    (hf : db.getFails key = false) (hf2 : db2.getFails key = false)
    (hd : mapGet db.data key = some d) (hd2 : mapGet db2.data key = none)
    (hu : UnmarshalBunch d = .ok none) :
    loadMergeMarshal deps s db key newBunch = loadMergeMarshal deps s db2 key newBunch := by
  simp only [loadMergeMarshal, loadMerge, DB.Get, hf, hf2, Bool.false_eq_true, if_false, hd,
    hd2, loadBunch, hu]

/-- C15 (counterexample): first, the read of the first of two handed-off snapshots fails;
the writer loop ends with the panic and the store stays empty, although the reads and the
write for the second snapshot would succeed and would store its record.  Second, the store
holds under the key of partition 0 the record `[128]`, whose count header cannot be
decoded; `UnmarshalBunch` returns nil for it, and the flush of the snapshot with the pair
(10, 100) replaces the record, with no panic and nothing logged. -/
theorem C15_counterexample :
    (writer (Deps.model 4) []
        [⟨hotCache (Deps.model 4) [(10, 100)], Sched.inOrder, fun _ => true, false⟩,
          ⟨hotCache (Deps.model 4) [(74, 200)], Sched.inOrder, fun _ => false, false⟩]
      = ([], [], some (.error .dbError)) ∧
    writer (Deps.model 4) []
        [⟨hotCache (Deps.model 4) [(74, 200)], Sched.inOrder, fun _ => false, false⟩]
      = ([(idToKeyBuf 1, [2, 0, 148, 1, 0, 1, 144, 3])], [], none)) ∧
    (UnmarshalBunch [128] = .ok none ∧
    writer (Deps.model 4) [(idToKeyBuf 0, [128])]
        [⟨hotCache (Deps.model 4) [(10, 100)], Sched.inOrder, fun _ => false, false⟩]
      = ([(idToKeyBuf 0, [2, 0, 20, 0, 1, 200, 1])], [], none)) := by
  refine ⟨⟨?_, ?_⟩, ?_, ?_⟩ <;> decide

/-- C15 (amended): for a partition of a snapshot, (1) a store read failure, or a stored
record on which `UnmarshalBunch` panics (a decode failure after the count header), makes
`writeRefs` panic: it issues no store write for that snapshot, the store content is
unchanged, and the writer loop ends with that panic without processing a further snapshot;
(2) a stored record whose count header cannot be decoded is not reported: with the read
succeeding, `loadMergeMarshal` returns what it returns when the record is absent, and when
the puts of the snapshot were collected and the write succeeds, that value replaces the
stored record, and the writer loop goes on with the next snapshot from the new store
content; (3) when the snapshot is a hot cache of int64 pairs, every read succeeds and every
stored record of its partitions is absent or has such a header, the puts are collected and
`writeRefs` returns the result of the store write. -/
theorem C15_merge_failure (deps : Deps) (data : List (List Nat × List Nat)) (c : Cycle)
    (rest : List Cycle) (item : Int × RefBunch) (hs : c.sched.Valid)
    (hitem : item ∈ c.cache) :
    ((c.getFails (deps.idToKeyBuf item.1) = true ∨
        ∃ d p, mapGet data (deps.idToKeyBuf item.1) = some d ∧ UnmarshalBunch d = .error p) →
      ∃ p, writeRefs deps c.sched (c.db data) c.cache = .error p ∧
        writer deps data (c :: rest) = (data, [], some p)) ∧
    (∀ d, c.getFails (deps.idToKeyBuf item.1) = false →
      mapGet data (deps.idToKeyBuf item.1) = some d → UnmarshalBunch d = .ok none →
      loadMergeMarshal deps c.sched (c.db data) (deps.idToKeyBuf item.1) item.2
          = loadMergeMarshal deps c.sched (c.db []) (deps.idToKeyBuf item.1) item.2 ∧
        ∀ batch, collectPuts deps c.sched (c.db data) (c.sched.rangeCache c.cache) = .ok batch →
          c.writeFails = false → (c.cache.map (fun e => deps.idToKeyBuf e.1)).Nodup →
          ∃ out, loadMergeMarshal deps c.sched (c.db []) (deps.idToKeyBuf item.1) item.2
              = .ok out ∧
            writeRefs deps c.sched (c.db data) c.cache = .ok ((c.db data).Write batch) ∧
            ((c.db data).Write batch).1 = none ∧
            mapGet ((c.db data).Write batch).2.data (deps.idToKeyBuf item.1) = some out ∧
            writer deps data (c :: rest)
              = writer deps ((c.db data).Write batch).2.data rest) ∧
    (∀ records, InsertContract deps.insertRefs → c.cache = hotCache deps records →
      (∀ r ∈ records, IsInt64 r.1 ∧ IsInt64 r.2) →
      2 * (records.length + 1) < 0x8000000000000000 →
      (∀ e ∈ c.cache, c.getFails (deps.idToKeyBuf e.1) = false ∧
        ∀ d, mapGet data (deps.idToKeyBuf e.1) = some d → UnmarshalBunch d = .ok none) →
      ∃ batch, collectPuts deps c.sched (c.db data) (c.sched.rangeCache c.cache) = .ok batch ∧
        writeRefs deps c.sched (c.db data) c.cache = .ok ((c.db data).Write batch)) := by
  refine ⟨?_, ?_, ?_⟩
  · intro hfail
    have hl : ∃ q, loadMergeMarshal deps c.sched (c.db data) (deps.idToKeyBuf item.1) item.2
        = .error q := by
      rcases hfail with h | ⟨d, p, h1, h2⟩
      · exact ⟨_, loadMergeMarshal_read_failure deps c.sched (c.db data) _ _ h⟩
      · exact loadMergeMarshal_decode_failure deps c.sched (c.db data) _ _ d p h1 h2
    obtain ⟨q, hq⟩ := hl
    obtain ⟨p, hp⟩ := collectPuts_error deps c.sched (c.db data) (c.sched.rangeCache c.cache)
      item q ((hs.1 c.cache).mem_iff.mpr hitem) hq
    have hw : writeRefs deps c.sched (c.db data) c.cache = .error p := by
      simp only [writeRefs, hp]
    exact ⟨p, hw, by simp only [writer, hw]⟩
  · intro d hf hd hu
    have heq := loadMergeMarshal_header_failure deps c.sched (c.db data) (c.db [])
      (deps.idToKeyBuf item.1) item.2 d hf hf hd rfl hu
    refine ⟨heq, ?_⟩
    intro batch hc hwf hnd
    obtain ⟨hkeys, hitems⟩ := collectPuts_struct deps c.sched (c.db data) _ batch hc
    obtain ⟨out, hmem, hout⟩ := hitems item ((hs.1 c.cache).mem_iff.mpr hitem)
    have hbn : (batch.map Prod.fst).Nodup := by
      rw [hkeys]
      exact (((hs.1 c.cache).map (fun e => deps.idToKeyBuf e.1)).nodup_iff).mpr hnd
    have hw : writeRefs deps c.sched (c.db data) c.cache = .ok ((c.db data).Write batch) := by
      simp only [writeRefs, hc]
    have hW : (c.db data).Write batch
        = (none, { c.db data with
            data := batch.foldl (fun m kv => mapSet m kv.1 kv.2) (c.db data).data }) := by
      have : (c.db data).writeFails = false := hwf
      simp only [DB.Write, this, Bool.false_eq_true, if_false]
    refine ⟨out, heq ▸ hout, hw, by rw [hW], ?_, ?_⟩
    · rw [hW]
      simp only
      rw [mapGet_foldl_mapSet batch _ _ hbn, mapGet_of_mem batch _ out hbn hmem]
    · simp only [writer, hw, hW]
  · intro records hI hcache hrec hb hall
    have hok := hotCache_ok deps hI records
    have hint : ∀ r ∈ ([] : List (Int × Int)) ++ records, IsInt64 r.1 ∧ IsInt64 r.2 := by
      simpa using hrec
    obtain ⟨batch, hc⟩ := collectPuts_returns deps c.sched (c.db data)
      (c.sched.rangeCache c.cache)
      (by
        intro e he
        have hmem := (hs.1 c.cache).mem_iff.mp he
        have hmem2 : e ∈ hotCache deps records := hcache ▸ hmem
        have hlb : loadBunch (mapGet (c.db data).data (deps.idToKeyBuf e.1)) = .ok [] := by
          cases hg : mapGet (c.db data).data (deps.idToKeyBuf e.1) with
          | none => rfl
          | some d => simp only [loadBunch, (hall e hmem).2 d hg]
        exact @loadMergeMarshal_returns_of deps hI c.sched hs (c.db data) [] records
          (deps.idToKeyBuf e.1) [] hlb (by simp) (by simp) hint (by simpa using hb) e.2
          (hok.2 e hmem2).1 (hok.2 e hmem2).2 (hall e hmem).1)
    exact ⟨batch, hc, by simp only [writeRefs, hc]⟩

/-- C15 (amended) at a snapshot with the pair (10, 100) whose store read fails, followed
by a second snapshot, and at the same snapshot with successful reads on a store whose
record of partition 0 is `[128]`. -/
theorem C15_merge_failure_witness :
    Sched.inOrder.Valid ∧
      ((0, [(10, [100])]) : Int × RefBunch) ∈ hotCache (Deps.model 4) [(10, 100)] ∧
      (fun _ => true : List Nat → Bool) ((Deps.model 4).idToKeyBuf 0) = true ∧
      (∃ p, writeRefs (Deps.model 4) Sched.inOrder
            ((⟨hotCache (Deps.model 4) [(10, 100)], Sched.inOrder, fun _ => true, false⟩
              : Cycle).db [])
            (hotCache (Deps.model 4) [(10, 100)]) = .error p ∧
        writer (Deps.model 4) []
            (⟨hotCache (Deps.model 4) [(10, 100)], Sched.inOrder, fun _ => true, false⟩ ::
              [⟨hotCache (Deps.model 4) [(74, 200)], Sched.inOrder, fun _ => false, false⟩])
          = ([], [], some p)) ∧
      mapGet [(idToKeyBuf 0, [128])] ((Deps.model 4).idToKeyBuf 0) = some [128] ∧
      UnmarshalBunch [128] = .ok none ∧
      collectPuts (Deps.model 4) Sched.inOrder
          ((⟨hotCache (Deps.model 4) [(10, 100)], Sched.inOrder, fun _ => false, false⟩
            : Cycle).db [(idToKeyBuf 0, [128])])
          (Sched.inOrder.rangeCache (hotCache (Deps.model 4) [(10, 100)]))
        = .ok [(idToKeyBuf 0, [2, 0, 20, 0, 1, 200, 1])] ∧
      ((hotCache (Deps.model 4) [(10, 100)]).map
        (fun e => (Deps.model 4).idToKeyBuf e.1)).Nodup ∧
      (∃ out, loadMergeMarshal (Deps.model 4) Sched.inOrder
            ((⟨hotCache (Deps.model 4) [(10, 100)], Sched.inOrder, fun _ => false, false⟩
              : Cycle).db []) ((Deps.model 4).idToKeyBuf 0) [(10, [100])] = .ok out ∧
        writeRefs (Deps.model 4) Sched.inOrder
            ((⟨hotCache (Deps.model 4) [(10, 100)], Sched.inOrder, fun _ => false, false⟩
              : Cycle).db [(idToKeyBuf 0, [128])])
            (hotCache (Deps.model 4) [(10, 100)])
          = .ok (((⟨hotCache (Deps.model 4) [(10, 100)], Sched.inOrder, fun _ => false, false⟩
              : Cycle).db [(idToKeyBuf 0, [128])]).Write
                [(idToKeyBuf 0, [2, 0, 20, 0, 1, 200, 1])]) ∧
        (((⟨hotCache (Deps.model 4) [(10, 100)], Sched.inOrder, fun _ => false, false⟩
            : Cycle).db [(idToKeyBuf 0, [128])]).Write
              [(idToKeyBuf 0, [2, 0, 20, 0, 1, 200, 1])]).1 = none ∧
        mapGet (((⟨hotCache (Deps.model 4) [(10, 100)], Sched.inOrder, fun _ => false, false⟩
            : Cycle).db [(idToKeyBuf 0, [128])]).Write
              [(idToKeyBuf 0, [2, 0, 20, 0, 1, 200, 1])]).2.data
          ((Deps.model 4).idToKeyBuf 0) = some out ∧
        writer (Deps.model 4) [(idToKeyBuf 0, [128])]
            (⟨hotCache (Deps.model 4) [(10, 100)], Sched.inOrder, fun _ => false, false⟩ :: [])
          = writer (Deps.model 4)
              (((⟨hotCache (Deps.model 4) [(10, 100)], Sched.inOrder, fun _ => false, false⟩
                : Cycle).db [(idToKeyBuf 0, [128])]).Write
                  [(idToKeyBuf 0, [2, 0, 20, 0, 1, 200, 1])]).2.data []) ∧
      InsertContract (Deps.model 4).insertRefs ∧
      (∀ r ∈ ([(10, 100)] : List (Int × Int)), IsInt64 r.1 ∧ IsInt64 r.2) ∧
      2 * (([(10, 100)] : List (Int × Int)).length + 1) < 0x8000000000000000 ∧
      (∀ e ∈ hotCache (Deps.model 4) [(10, 100)],
        (fun _ => false : List Nat → Bool) ((Deps.model 4).idToKeyBuf e.1) = false ∧
        ∀ d, mapGet [(idToKeyBuf 0, [128])] ((Deps.model 4).idToKeyBuf e.1) = some d →
          UnmarshalBunch d = .ok none) ∧
      ∃ batch, collectPuts (Deps.model 4) Sched.inOrder
            ((⟨hotCache (Deps.model 4) [(10, 100)], Sched.inOrder, fun _ => false, false⟩
              : Cycle).db [(idToKeyBuf 0, [128])])
            (Sched.inOrder.rangeCache (hotCache (Deps.model 4) [(10, 100)])) = .ok batch ∧
        writeRefs (Deps.model 4) Sched.inOrder
            ((⟨hotCache (Deps.model 4) [(10, 100)], Sched.inOrder, fun _ => false, false⟩
              : Cycle).db [(idToKeyBuf 0, [128])])
            (hotCache (Deps.model 4) [(10, 100)])
          = .ok (((⟨hotCache (Deps.model 4) [(10, 100)], Sched.inOrder, fun _ => false, false⟩
              : Cycle).db [(idToKeyBuf 0, [128])]).Write batch) :=
  ⟨inOrder_valid, by decide, rfl,
    (C15_merge_failure (Deps.model 4) []
      ⟨hotCache (Deps.model 4) [(10, 100)], Sched.inOrder, fun _ => true, false⟩
      [⟨hotCache (Deps.model 4) [(74, 200)], Sched.inOrder, fun _ => false, false⟩]
      (0, [(10, [100])]) inOrder_valid (by decide)).1 (Or.inl rfl),
    by decide, by decide, by decide, by decide,
    ((C15_merge_failure (Deps.model 4) [(idToKeyBuf 0, [128])]
      ⟨hotCache (Deps.model 4) [(10, 100)], Sched.inOrder, fun _ => false, false⟩
      [] (0, [(10, [100])]) inOrder_valid (by decide)).2.1 [128] rfl (by decide)
        (by decide)).2 [(idToKeyBuf 0, [2, 0, 20, 0, 1, 200, 1])] (by decide) rfl (by decide),
    insertRefs_contract, by decide, by decide,
    (by
      intro e he
      have h0 : e = (0, [(10, [100])]) := by
        have hc : hotCache (Deps.model 4) [(10, 100)] = [(0, [(10, [100])])] := by decide
        rw [hc] at he
        simpa using he
      subst h0
      refine ⟨rfl, ?_⟩
      intro d hd
      have hd2 : d = [128] := by
        have hg : mapGet [(idToKeyBuf 0, [128])] ((Deps.model 4).idToKeyBuf (0 : Int))
            = some [128] := by decide
        rw [hg] at hd
        exact (Option.some.inj hd).symm
      subst hd2
      decide),
    (C15_merge_failure (Deps.model 4) [(idToKeyBuf 0, [128])]
      ⟨hotCache (Deps.model 4) [(10, 100)], Sched.inOrder, fun _ => false, false⟩
      [] (0, [(10, [100])]) inOrder_valid (by decide)).2.2 [(10, 100)] insertRefs_contract rfl
        (by decide) (by decide)
        (by
          intro e he
          have h0 : e = (0, [(10, [100])]) := by
            have hc : hotCache (Deps.model 4) [(10, 100)] = [(0, [(10, [100])])] := by decide
            have he2 : e ∈ hotCache (Deps.model 4) [(10, 100)] := he
            rw [hc] at he2
            simpa using he2
          subst h0
          refine ⟨rfl, ?_⟩
          intro d hd
          have hd2 : d = [128] := by
            have hg : mapGet [(idToKeyBuf 0, [128])] ((Deps.model 4).idToKeyBuf (0 : Int))
                = some [128] := by decide
            rw [hg] at hd
            exact (Option.some.inj hd).symm
          subst hd2
          decide)⟩

/-- C16: when the puts of a snapshot were collected and the batched store write fails,
`writeRefs` returns that error, the store content is what it was before (the data of the
snapshot is not written and the write is not tried again), and the writer loop logs the
error and continues with the next handed-off snapshot from that store content; and
`writeRefs` returns no error exactly when the store write succeeds. -/
theorem C16_write_failure (deps : Deps) (data : List (List Nat × List Nat)) (c : Cycle)
    (rest : List Cycle) (batch : List (List Nat × List Nat))
    (hc : collectPuts deps c.sched (c.db data) (c.sched.rangeCache c.cache) = .ok batch) :
    (c.writeFails = true →
      writeRefs deps c.sched (c.db data) c.cache = .ok (some .dbError, c.db data) ∧
      (c.db data).data = data ∧
      writer deps data (c :: rest) =
        ((writer deps data rest).1, .dbError :: (writer deps data rest).2.1,
          (writer deps data rest).2.2)) ∧
    (∃ err db1, writeRefs deps c.sched (c.db data) c.cache = .ok (err, db1) ∧
      (err = none ↔ c.writeFails = false)) := by
  constructor
  · intro hw
    have h1 : writeRefs deps c.sched (c.db data) c.cache = .ok (some .dbError, c.db data) := by
      simp only [writeRefs, hc]
      simp only [DB.Write, Cycle.db, hw, if_true]
    exact ⟨h1, rfl, by simp only [writer, h1]; rfl⟩
  · have h : writeRefs deps c.sched (c.db data) c.cache = .ok ((c.db data).Write batch) := by
      simp only [writeRefs, hc]
    refine ⟨((c.db data).Write batch).1, ((c.db data).Write batch).2, h, ?_⟩
    simp only [DB.Write, Cycle.db]
    cases c.writeFails <;> simp

/-- C16 at a snapshot with the pair (10, 100) whose store write fails, followed by a
second snapshot. -/
theorem C16_write_failure_witness :
    collectPuts (Deps.model 4) Sched.inOrder
        ((⟨hotCache (Deps.model 4) [(10, 100)], Sched.inOrder, fun _ => false, true⟩
          : Cycle).db [])
        (Sched.inOrder.rangeCache (hotCache (Deps.model 4) [(10, 100)]))
      = .ok [(idToKeyBuf 0, [2, 0, 20, 0, 1, 200, 1])] ∧
    (⟨hotCache (Deps.model 4) [(10, 100)], Sched.inOrder, fun _ => false, true⟩
      : Cycle).writeFails = true ∧
    (writeRefs (Deps.model 4) Sched.inOrder
        ((⟨hotCache (Deps.model 4) [(10, 100)], Sched.inOrder, fun _ => false, true⟩
          : Cycle).db [])
        (hotCache (Deps.model 4) [(10, 100)])
      = .ok (some .dbError,
          (⟨hotCache (Deps.model 4) [(10, 100)], Sched.inOrder, fun _ => false, true⟩
            : Cycle).db []) ∧
      ((⟨hotCache (Deps.model 4) [(10, 100)], Sched.inOrder, fun _ => false, true⟩
        : Cycle).db []).data = [] ∧
      writer (Deps.model 4) []
          (⟨hotCache (Deps.model 4) [(10, 100)], Sched.inOrder, fun _ => false, true⟩ ::
            [⟨hotCache (Deps.model 4) [(74, 200)], Sched.inOrder, fun _ => false, false⟩])
        = ((writer (Deps.model 4) []
              [⟨hotCache (Deps.model 4) [(74, 200)], Sched.inOrder, fun _ => false, false⟩]).1,
            .dbError :: (writer (Deps.model 4) []
              [⟨hotCache (Deps.model 4) [(74, 200)], Sched.inOrder, fun _ => false, false⟩]).2.1,
            (writer (Deps.model 4) []
              [⟨hotCache (Deps.model 4) [(74, 200)], Sched.inOrder, fun _ => false, false⟩]).2.2)) :=
  ⟨by decide, rfl,
    (C16_write_failure (Deps.model 4) []
      ⟨hotCache (Deps.model 4) [(10, 100)], Sched.inOrder, fun _ => false, true⟩
      [⟨hotCache (Deps.model 4) [(74, 200)], Sched.inOrder, fun _ => false, false⟩]
      [(idToKeyBuf 0, [2, 0, 20, 0, 1, 200, 1])] (by decide)).1 rfl⟩

end Cache
